import Mathlib

/-!
History merge and serialisation of the Synergy extension.

A shallow embedding of `src/service_worker.js` (`convertToHistoryJsonFormat`,
`analyzeHistoryChanges`, `formatHistoryJson`) together with the properties the
specification states about them.

Modelling conventions.

* A JavaScript object whose keys are question identifiers is an association list in
  insertion order (`JsObj`).  Reading a key takes the first entry with that key, writing a
  key replaces the value of that entry in place or appends a new entry.  A real object has
  pairwise distinct keys; theorems that depend on this say so with a `keysNodup`
  hypothesis.  Keys are question identifiers (`ID116A001`, ...), never array indices, which
  an engine lists first, or names found on `Object.prototype`.
* An attempt record `[implementDateTime, learningClassification, certaintyFactor, answer,
  falsehood, learningSeconds]` is the structure `Record`; its numbers are integers.
* `new Date(s)` is a parameter `date : String → Option Int`: the time value in
  milliseconds, `none` standing for an invalid date (`NaN`).  Theorems hold for every such
  function; `isoDate` is one of them and serves in the concrete instances.
* `Array.prototype.sort` is stable.  It is embedded as the stable insertion sort.  When
  all timestamps denote dates the comparator is consistent and every stable sort computes
  the same list; with an invalid date among them the language leaves the order to the
  engine, and the embedding fixes this one.
* The merge writes to arrays in place.  `convertToHistoryJsonFormat` therefore returns,
  next to its result, the caller's batch as it stands after the call.
-/

namespace Synergy

/-! ## Data model -/

/-- One attempt record, the six-element array of `history.json`. -/
structure Record where
  implementDateTime : String
  learningClassification : Int
  certaintyFactor : Int
  answer : String
  falsehood : Int
  learningSeconds : Int
deriving DecidableEq, Repr

/-- The record list of one question. -/
abbrev History := List Record

/-- A JavaScript object with string keys, in insertion order. -/
abbrev JsObj (β : Type) := List (String × β)

/-- The property read `obj[k]`; `none` is `undefined`. -/
def objGet {β : Type} : JsObj β → String → Option β
  | [], _ => none
  | (k', v) :: rest, k => if k' = k then some v else objGet rest k

/-- The property write `obj[k] = v`: an own key keeps its position, a new key goes last. -/
def objSet {β : Type} : JsObj β → String → β → JsObj β
  | [], k, v => [(k, v)]
  | (k', v') :: rest, k, v =>
    if k' = k then (k', v) :: rest else (k', v') :: objSet rest k v

/-- The list `Object.keys(obj)`. -/
def objKeys {β : Type} (o : JsObj β) : List String := o.map Prod.fst

/-- The keys of an object are pairwise distinct. -/
def keysNodup {β : Type} (o : JsObj β) : Prop := (objKeys o).Nodup

instance {β : Type} (o : JsObj β) : Decidable (keysNodup o) := by
  unfold keysNodup; infer_instance

/-- The parsed `history.json`: each top-level field may be missing (`undefined`).
`user` is the field `ユーザ`, `lastUpdated` the field `最終更新`. -/
structure HistoryJson where
  user : Option String
  lastUpdated : Option String
  columns : Option (List String)
  data : Option (JsObj History)
deriving DecidableEq, Repr

/-- The six default column labels of `convertToHistoryJsonFormat` and `updateHistoryFile`. -/
def defaultColumns : List String :=
  ["実施日時", "学習区分", "確信度", "解答", "正誤", "実施時間"]

/-- The placeholder user of `convertToHistoryJsonFormat`. -/
def userPlaceholder : String := "ユーザ情報なし"

/-! ## Sorting by date -/

/-- The comparator `(a, b) => new Date(b[0]) - new Date(a[0])`; `none` is `NaN`. -/
def compareFn (date : String → Option Int) (a b : Record) : Option Int :=
  match date b.implementDateTime, date a.implementDateTime with
  | some db, some da => some (db - da)
  | _, _ => none

/-- The sort keeps `a` in front of `b` unless the comparator is positive (`NaN` counts
as `+0`). -/
def keepsBefore (date : String → Option Int) (a b : Record) : Prop :=
  (compareFn date a b).getD 0 ≤ 0

instance (date : String → Option Int) : DecidableRel (keepsBefore date) := by
  intro a b; unfold keepsBefore; infer_instance

/-- The call `arr.sort((a, b) => new Date(b[0]) - new Date(a[0]))`: stable, latest first. -/
def sortDesc (date : String → Option Int) (l : History) : History :=
  l.insertionSort (keepsBefore date)

/-! ## The merge `convertToHistoryJsonFormat` -/

/-- The filter `newHistory.filter(item => !existingDates.has(item[0]))` with
`existingDates = new Set(existing.map(item => item[0]))`. -/
def uniqueNewHistory (existing newHistory : History) : History :=
  newHistory.filter fun item =>
    !decide (item.implementDateTime ∈ existing.map (·.implementDateTime))

/-- The loop `for (const [questionId, newHistory] of Object.entries(newHistoryData))`.
The first component is the local object `data`, the second the entries of the caller's
`newHistoryData` as they stand after the loop: in the `else` branch `data[questionId]` is
the batch's own array, so the in-place sort is seen through the batch as well. -/
def mergeLoop (date : String → Option Int) :
    JsObj History → List (String × History) → JsObj History × JsObj History
  | data, [] => (data, [])
  | data, (questionId, newHistory) :: rest =>
    match objGet data questionId with
    | some existing =>
      let merged := existing ++ uniqueNewHistory existing newHistory
      let out := mergeLoop date (objSet data questionId (sortDesc date merged)) rest
      (out.1, (questionId, newHistory) :: out.2)
    | none =>
      let sorted := sortDesc date newHistory
      let out := mergeLoop date (objSet data questionId sorted) rest
      (out.1, (questionId, sorted) :: out.2)

/-! ## The clock and `toISOString` -/

/-- The largest time value of a `Date`, in milliseconds. -/
def maxTimeValue : Int := 8640000000000000

/-- The shift `9*60*60*1000` applied to the clock. -/
def jstShift : Int := 9 * 60 * 60 * 1000

/-- The reading `new Date()` of the system clock, in milliseconds since the epoch.  It is a
valid time value and so is its shift by nine hours, hence `toISOString` does not throw. -/
structure Clock where
  ms : Int
  valid : -maxTimeValue ≤ ms + jstShift ∧ ms + jstShift ≤ maxTimeValue

/-- Year, month (1 to 12) and day of month of a day number counted from 1970-01-01, in the
proleptic Gregorian calendar (`YearFromTime`, `MonthFromTime`, `DateFromTime`). -/
def civilFromDays (day : Int) : Int × Int × Int :=
  let z := day + 719468
  let era := z / 146097
  let doe := z - era * 146097
  let yoe := (doe - doe / 1460 + doe / 36524 - doe / 146096) / 365
  let doy := doe - (365 * yoe + yoe / 4 - yoe / 100)
  let mp := (5 * doy + 2) / 153
  let d := doy - (153 * mp + 2) / 5 + 1
  let m := if mp < 10 then mp + 3 else mp - 9
  let y := yoe + era * 400 + (if m ≤ 2 then 1 else 0)
  (y, m, d)

/-- The decimal digit of `n` at position `i` (units are position 0). -/
def digitChar (n i : Nat) : Char := Char.ofNat (48 + n / 10 ^ i % 10)

/-- The last `w` decimal digits of `n`, leading zeros kept. -/
def padDigits (w n : Nat) : List Char := (List.range w).reverse.map (digitChar n)

/-- The year of an ISO string: four digits from 0 to 9999, else a sign and six digits. -/
def isoYear (y : Int) : List Char :=
  if 0 ≤ y ∧ y ≤ 9999 then padDigits 4 y.toNat
  else (if y < 0 then '-' else '+') :: padDigits 6 y.natAbs

/-- The method `Date.prototype.toISOString` at a valid time value `t`:
`YYYY-MM-DDTHH:mm:ss.sssZ`. -/
def toISOString (t : Int) : List Char :=
  let day := t / 86400000
  let msInDay := (t % 86400000).toNat
  let ymd := civilFromDays day
  isoYear ymd.1 ++ '-' :: padDigits 2 ymd.2.1.toNat ++ '-' :: padDigits 2 ymd.2.2.toNat
    ++ 'T' :: padDigits 2 (msInDay / 3600000) ++ ':' :: padDigits 2 (msInDay / 60000 % 60)
    ++ ':' :: padDigits 2 (msInDay / 1000 % 60) ++ '.' :: padDigits 3 (msInDay % 1000)
    ++ ['Z']

/-- The pieces of `s.split(sep)` for a one-character separator. -/
def splitOn (sep : Char) : List Char → List (List Char)
  | [] => [[]]
  | c :: cs =>
    if c = sep then [] :: splitOn sep cs
    else match splitOn sep cs with
      | [] => [[c]]
      | p :: ps => (c :: p) :: ps

/-- The value `formattedDate`:
`isoString.split('T')[0] + 'T' + isoString.split('T')[1].split('.')[0]` for
`isoString = new Date(now.getTime() + 9*60*60*1000).toISOString()`.  An ISO string always
has a `T`, so the piece with index 1 exists. -/
def formattedDate (now : Clock) : String :=
  let isoString := toISOString (now.ms + jstShift)
  let parts := splitOn 'T' isoString
  String.mk (parts.getD 0 [] ++ 'T' :: (splitOn '.' (parts.getD 1 [])).getD 0 [])

/-! ## `convertToHistoryJsonFormat` and `analyzeHistoryChanges` -/

/-- The deep copy `JSON.parse(JSON.stringify(existingHistoryJson))`: a dataset of strings,
integers and arrays is copied value for value, and the copy shares nothing with the
argument, which therefore is never written to. -/
def jsonClone (existingHistoryJson : HistoryJson) : HistoryJson := existingHistoryJson

/-- The operand choice `x || fallback` on a string: the empty string is falsy. -/
def orString (x : Option String) (fallback : String) : String :=
  match x with
  | some s => if s = "" then fallback else s
  | none => fallback

/-- The function `convertToHistoryJsonFormat(existingHistoryJson, newHistoryData)` at the
clock reading `now`.  The first component is the returned object, the second the caller's
`newHistoryData` after the call. -/
def convertToHistoryJsonFormat (date : String → Option Int) (now : Clock)
    (existingHistoryJson : HistoryJson) (newHistoryData : JsObj History) :
    HistoryJson × JsObj History :=
  let existingData := jsonClone existingHistoryJson
  let userData := orString existingData.user userPlaceholder
  let columns := existingData.columns.getD defaultColumns
  let data := existingData.data.getD []
  let out := mergeLoop date data newHistoryData
  ({ user := some userData
     lastUpdated := some (formattedDate now)
     columns := some columns
     data := some out.1 }, out.2)

/-- The change set built by `analyzeHistoryChanges`. -/
structure ChangeSet where
  newQuestions : List String
  updatedQuestions : List String
  addedRecords : JsObj Nat
  totalNewRecords : Nat
deriving DecidableEq, Repr

/-- One iteration of the loop of `analyzeHistoryChanges`. -/
def analyzeStep (existingData : HistoryJson) (changes : ChangeSet)
    (entry : String × History) : ChangeSet :=
  match existingData.data.bind (objGet · entry.1) with
  | none =>
    { changes with
      newQuestions := changes.newQuestions ++ [entry.1]
      addedRecords := objSet changes.addedRecords entry.1 entry.2.length
      totalNewRecords := changes.totalNewRecords + entry.2.length }
  | some existing =>
    let unique := uniqueNewHistory existing entry.2
    if unique.length > 0 then
      { changes with
        updatedQuestions := changes.updatedQuestions ++ [entry.1]
        addedRecords := objSet changes.addedRecords entry.1 unique.length
        totalNewRecords := changes.totalNewRecords + unique.length }
    else changes

/-- The function `analyzeHistoryChanges(existingData, newHistoryData)`. -/
def analyzeHistoryChanges (existingData : HistoryJson) (newHistoryData : JsObj History) :
    ChangeSet :=
  newHistoryData.foldl (analyzeStep existingData)
    { newQuestions := [], updatedQuestions := [], addedRecords := [], totalNewRecords := 0 }

/-- The fallback dataset of `updateHistoryFile` when `history.json` cannot be loaded. -/
def fallbackHistoryJson : HistoryJson :=
  { user := none, lastUpdated := none, columns := some defaultColumns, data := some [] }

/-! ## Reading the datasets -/

/-- The value `D.data[q]` of a parsed `history.json`; `none` when `data` or the key is
missing. -/
def historyOf (d : HistoryJson) (q : String) : Option History :=
  d.data.bind (objGet · q)

/-- The question ids of a parsed `history.json`. -/
def questionIds (d : HistoryJson) : List String := objKeys (d.data.getD [])

/-- The timestamp strings of a record list. -/
def timestamps (l : History) : List String := l.map (·.implementDateTime)

/-- Every timestamp of the list denotes a date: `new Date(item[0])` is not invalid. -/
def validDates (date : String → Option Int) (l : History) : Prop :=
  ∀ r ∈ l, (date r.implementDateTime).isSome = true

/-- Every timestamp of every record list of the object denotes a date. -/
def allValidDates (date : String → Option Int) (o : JsObj History) : Prop :=
  ∀ e ∈ o, validDates date e.2

/-- Record `a` is no earlier than record `b`, both timestamps being dates. -/
def noEarlier (date : String → Option Int) (a b : Record) : Prop :=
  match date a.implementDateTime, date b.implementDateTime with
  | some ta, some tb => tb ≤ ta
  | _, _ => False

/-- Record `a` is strictly later than record `b`, both timestamps being dates. -/
def strictlyLater (date : String → Option Int) (a b : Record) : Prop :=
  match date a.implementDateTime, date b.implementDateTime with
  | some ta, some tb => tb < ta
  | _, _ => False

instance (date : String → Option Int) : DecidableRel (noEarlier date) := by
  intro a b; unfold noEarlier; split <;> infer_instance

instance (date : String → Option Int) : DecidableRel (strictlyLater date) := by
  intro a b; unfold strictlyLater; split <;> infer_instance

/-- The list is in descending order of date: every record is no earlier than each record
after it (ties allowed). -/
def sortedDescending (date : String → Option Int) (l : History) : Prop :=
  l.Pairwise (noEarlier date)

/-- The list is in strictly descending order of date: every record is strictly later than
each record after it, in particular than the next one. -/
def strictlyDescending (date : String → Option Int) (l : History) : Prop :=
  l.Pairwise (strictlyLater date)

/-- No two records of the list share their `implementDateTime`. -/
def distinctTimestamps (l : History) : Prop := (timestamps l).Nodup

instance (l : History) : Decidable (distinctTimestamps l) := by
  unfold distinctTimestamps; infer_instance

/-- The value one loop iteration writes to `data[questionId]`. -/
def stepValue (date : String → Option Int) (data : JsObj History)
    (entry : String × History) : History :=
  match objGet data entry.1 with
  | some existing => sortDesc date (existing ++ uniqueNewHistory existing entry.2)
  | none => sortDesc date entry.2

/-- The time value of a record's timestamp, an invalid date read as 0. -/
def timeKey (date : String → Option Int) (r : Record) : Int :=
  (date r.implementDateTime).getD 0

/-- The order by `timeKey`, latest first. -/
def keyGe (date : String → Option Int) (a b : Record) : Prop :=
  timeKey date b ≤ timeKey date a

instance (date : String → Option Int) : DecidableRel (keyGe date) := by
  intro a b; unfold keyGe; infer_instance

instance (date : String → Option Int) : IsTotal Record (keyGe date) :=
  ⟨fun a b => le_total (timeKey date b) (timeKey date a)⟩

instance (date : String → Option Int) : IsTrans Record (keyGe date) :=
  ⟨fun _ _ _ hab hbc => le_trans hbc hab⟩

/-- The entry `e` of a batch is absorbed by `data`: the question has a record list there
that holds every timestamp of `e` and that the sort leaves as it is. -/
def absorbed (date : String → Option Int) (data : JsObj History)
    (e : String × History) : Prop :=
  ∃ x, objGet data e.1 = some x ∧ (∀ t ∈ timestamps e.2, t ∈ timestamps x) ∧
    sortDesc date x = x

/-- The value of a decimal digit character. -/
def digitValue (c : Char) : Option Int :=
  if '0' ≤ c ∧ c ≤ '9' then some (Int.ofNat (c.toNat - 48)) else none

/-- The number written by two decimal digits. -/
def twoDigits (a b : Char) : Option Int := do
  let x ← digitValue a
  let y ← digitValue b
  pure (10 * x + y)

/-- The day number, counted from 1970-01-01, of a date of the proleptic Gregorian
calendar (`MakeDay`). -/
def daysFromCivil (y m d : Int) : Int :=
  let y' := if m ≤ 2 then y - 1 else y
  let era := y' / 400
  let yoe := y' - era * 400
  let doy := (153 * (if m > 2 then m - 3 else m + 9) + 2) / 5 + d - 1
  let doe := yoe * 365 + yoe / 4 - yoe / 100 + doy
  era * 146097 + doe - 719468

/-- A `Date` constructor for the instances below: it reads the second-precision
timestamps `YYYY-MM-DDTHH:mm:ss` of `history.json` in a zone at offset zero and takes every
other string for an invalid date. -/
def isoDate (s : String) : Option Int :=
  match s.data with
  | [y1, y2, y3, y4, '-', m1, m2, '-', d1, d2, 'T', h1, h2, ':', n1, n2, ':', s1, s2] => do
    let yh ← twoDigits y1 y2
    let yl ← twoDigits y3 y4
    let mo ← twoDigits m1 m2
    let dd ← twoDigits d1 d2
    let hh ← twoDigits h1 h2
    let mi ← twoDigits n1 n2
    let ss ← twoDigits s1 s2
    if 1 ≤ mo ∧ mo ≤ 12 ∧ 1 ≤ dd ∧ dd ≤ 31 ∧ hh ≤ 23 ∧ mi ≤ 59 ∧ ss ≤ 59 then
      pure ((daysFromCivil (100 * yh + yl) mo dd * 86400 + hh * 3600 + mi * 60 + ss) * 1000)
    else none
  | _ => none

/-- A clock reading used by the instances below: 2025-10-26T05:54:04Z. -/
def sampleClock : Clock := ⟨1761458044000, by decide⟩

/-- The record `[t1, 0, 0, "A", 1, 30]` with `t1 = 2025-10-26T14:54:04`. -/
def recT1A : Record := ⟨"2025-10-26T14:54:04", 0, 0, "A", 1, 30⟩

/-- The record `[t1, 0, 0, "B", 0, 40]`, at the timestamp of `recT1A`. -/
def recT1B : Record := ⟨"2025-10-26T14:54:04", 0, 0, "B", 0, 40⟩

/-- The record `[t2, 0, 0, "A", 1, 20]` with `t2 = 2025-10-27T09:00:00`, later than `t1`. -/
def recT2A : Record := ⟨"2025-10-27T09:00:00", 0, 0, "A", 1, 20⟩

/-- The record `[t2, 0, 0, "C", 0, 15]`, a second attempt in the second of `recT2A`. -/
def recT2C : Record := ⟨"2025-10-27T09:00:00", 0, 0, "C", 0, 15⟩

/-- A durable dataset holding `ID116A001: [[t1, 0, 0, "A", 1, 30]]`. -/
def durableOne : HistoryJson :=
  { user := some "user01", lastUpdated := some "2025-10-26T15:00:00",
    columns := some defaultColumns, data := some [("ID116A001", [recT1A])] }

/-- No two records of the list have the same instant. -/
def distinctInstants (date : String → Option Int) (l : History) : Prop :=
  (l.map (timeKey date)).Nodup

instance (date : String → Option Int) (l : History) : Decidable (sortedDescending date l) := by
  unfold sortedDescending; infer_instance

instance (date : String → Option Int) (l : History) :
    Decidable (strictlyDescending date l) := by
  unfold strictlyDescending; infer_instance

/-- The number of records of `result.data[q]` that are not records of `D.data[q]` (a
missing history counts as empty). -/
def newRecordCount (D result : HistoryJson) (q : String) : Nat :=
  ((historyOf result q).getD []).countP fun r => decide (r ∉ (historyOf D q).getD [])

/-- The number of records the analyzer counts for the batch entry `q: l`. -/
def addedCount (D : HistoryJson) (q : String) (l : History) : Nat :=
  match historyOf D q with
  | none => l.length
  | some existing => (uniqueNewHistory existing l).length

/-! ## The serializer `formatHistoryJson` -/

/-- A lower-case hexadecimal digit. -/
def hexDigit (n : Nat) : Char :=
  if n < 10 then Char.ofNat (48 + n) else Char.ofNat (87 + n)

/-- The escape `JSON.stringify` writes for one character of a string (`QuoteJSONString`). -/
def quoteChar (c : Char) : List Char :=
  if c = '"' then ['\\', '"']
  else if c = '\\' then ['\\', '\\']
  else if c = '\x08' then ['\\', 'b']
  else if c = '\t' then ['\\', 't']
  else if c = '\n' then ['\\', 'n']
  else if c = '\x0c' then ['\\', 'f']
  else if c = '\r' then ['\\', 'r']
  else if c.toNat < 32 then
    ['\\', 'u', '0', '0', hexDigit (c.toNat / 16), hexDigit (c.toNat % 16)]
  else [c]

/-- The text `JSON.stringify(s)` of a string. -/
def jsonString (s : String) : String :=
  String.mk ('"' :: (s.data.flatMap quoteChar ++ ['"']))

/-- The decimal digits of a natural number, most significant first; `fuel` bounds the
number of digits. -/
def natDigits : Nat → Nat → List Char
  | 0, _ => []
  | fuel + 1, n =>
    if n < 10 then [Char.ofNat (48 + n)]
    else natDigits fuel (n / 10) ++ [Char.ofNat (48 + n % 10)]

/-- The text `JSON.stringify(n)` of an integer that a number holds exactly and prints
without an exponent. -/
def jsonInt (n : Int) : String :=
  String.mk ((if n < 0 then ['-'] else []) ++ natDigits (n.natAbs + 1) n.natAbs)

/-- The text `"[" + items.join(",") + "]"` of an array whose elements are rendered. -/
def jsonArray (items : List String) : String :=
  "[" ++ ",".intercalate items ++ "]"

/-- The text `JSON.stringify(record)` of one attempt record. -/
def jsonRecord (r : Record) : String :=
  jsonArray [jsonString r.implementDateTime, jsonInt r.learningClassification,
    jsonInt r.certaintyFactor, jsonString r.answer, jsonInt r.falsehood,
    jsonInt r.learningSeconds]

/-- The text `JSON.stringify(records)` of a record list. -/
def jsonRecords (records : History) : String := jsonArray (records.map jsonRecord)

/-- The `length` of a JavaScript string: its number of UTF-16 code units. -/
def utf16Length (s : String) : Nat :=
  (s.data.map fun c => if c.toNat < 65536 then 1 else 2).sum

/-- The character threshold `THRESHOLD` of `formatHistoryJson`. -/
def THRESHOLD : Nat := 100

/-- The lines of the inner loop over `j`: six spaces, the record, a comma unless it is the
last record, a line break. -/
def foldedLines : History → String
  | [] => ""
  | [r] => "      " ++ jsonRecord r ++ "\n"
  | r :: rest => "      " ++ jsonRecord r ++ "," ++ "\n" ++ foldedLines rest

/-- The value `formattedRecords` of one question. -/
def formattedRecords (records : History) : String :=
  if utf16Length (jsonRecords records) > THRESHOLD then
    "[\n" ++ foldedLines records ++ "    ]"
  else jsonRecords records

/-- The lines of the outer loop over `i`: the key as it is between double quotes, the
records, a comma unless it is the last question, a line break.  `Object.keys` and the
lookup `dataObj[questionId]` together walk the entries of the object. -/
def formatEntries : JsObj History → String
  | [] => ""
  | [e] => "    \"" ++ e.1 ++ "\": " ++ formattedRecords e.2 ++ "\n"
  | e :: rest =>
    "    \"" ++ e.1 ++ "\": " ++ formattedRecords e.2 ++ "," ++ "\n" ++ formatEntries rest

/-- The function `formatHistoryJson(data)`.  A missing user or timestamp is interpolated
as `undefined`, and so are missing columns; with `data` missing `Object.keys` throws, which
is `none`. -/
def formatHistoryJson (d : HistoryJson) : Option String :=
  match d.data with
  | none => none
  | some dataObj =>
    some ("\x7b\n" ++
      "  \"ユーザ\": \"" ++ d.user.getD "undefined" ++ "\",\n" ++
      "  \"最終更新\": \"" ++ d.lastUpdated.getD "undefined" ++ "\",\n" ++
      "  \"columns\": " ++ (match d.columns with
        | some cols => jsonArray (cols.map jsonString)
        | none => "undefined") ++ ",\n" ++
      "  \"data\": \x7b\n" ++
      formatEntries dataObj ++
      "  \x7d\n" ++
      "\x7d")

/-- A durable dataset whose user name has double quotes in it. -/
def quotedUser : HistoryJson :=
  { user := some "Taro \"T\" Yamada", lastUpdated := some "2025-10-26T15:00:00",
    columns := some defaultColumns, data := some [("ID116A001", [recT1A])] }

/-- A dataset whose user is `a",` + line break + `  "最終更新": "b` and whose timestamp
is `c`. -/
def spliceInUser : HistoryJson :=
  { user := some "a\",\n  \"最終更新\": \"b", lastUpdated := some "c",
    columns := some defaultColumns, data := some [] }

/-- A dataset whose user is `a` and whose timestamp is `b",` + line break +
`  "最終更新": "c`. -/
def spliceInTimestamp : HistoryJson :=
  { user := some "a", lastUpdated := some "b\",\n  \"最終更新\": \"c",
    columns := some defaultColumns, data := some [] }

/-- A batch for the new question `ID116A001` whose records are in ascending order of
date: `[[t1,0,0,"A",1,30],[t2,0,0,"A",1,20]]`. -/
def ascendingBatch : JsObj History := [("ID116A001", [recT1A, recT2A])]

/-! ## Strings of JavaScript -/

/-- The regular-expression class `\d`: an ASCII digit. -/
def isDigit (c : Char) : Bool := decide (48 ≤ c.toNat ∧ c.toNat ≤ 57)

/-- The regular-expression class `[A-Z]`. -/
def isUpperAZ (c : Char) : Bool := decide (65 ≤ c.toNat ∧ c.toNat ≤ 90)

/-- The class `[a-z]`. -/
def isLowerAZ (c : Char) : Bool := decide (97 ≤ c.toNat ∧ c.toNat ≤ 122)

/-- White space and line terminators, the characters `trim` and `parseInt` strip. -/
def isWhiteSpace (c : Char) : Bool :=
  decide (c.toNat ∈ [0x09, 0x0A, 0x0B, 0x0C, 0x0D, 0x20, 0xA0, 0x1680, 0x2000, 0x2001, 0x2002,
    0x2003, 0x2004, 0x2005, 0x2006, 0x2007, 0x2008, 0x2009, 0x200A, 0x2028, 0x2029, 0x202F,
    0x205F, 0x3000, 0xFEFF])

/-- The method `String.prototype.trim`. -/
def trim (s : List Char) : List Char :=
  ((s.dropWhile isWhiteSpace).reverse.dropWhile isWhiteSpace).reverse

/-- The capital of an ASCII letter; any other character as it is. -/
def asciiUpper (c : Char) : Char :=
  if isLowerAZ c then Char.ofNat (c.toNat - 32) else c

/-- The upper-case form of one character.  An ASCII letter has its ASCII capital and every
other ASCII character stays; for the rest of Unicode the case table of the engine, `upper`,
gives the one to three characters of the full mapping. -/
def upperChar (upper : Char → List Char) (c : Char) : List Char :=
  if c.toNat < 128 then [asciiUpper c] else upper c

/-- The method `String.prototype.toUpperCase`; it maps character by character. -/
def toUpperCase (upper : Char → List Char) (s : List Char) : List Char :=
  s.flatMap (upperChar upper)

/-- The method `String.prototype.padStart(n, fill)` for a one-character `fill`. -/
def padStart (n : Nat) (fill : Char) (s : List Char) : List Char :=
  List.replicate (n - s.length) fill ++ s

/-- A case table that leaves every character outside ASCII as it is. -/
def noCaseTable (c : Char) : List Char := [c]

/-! ## The identifier normalizer of `popup.js` -/

/-- The test of `/^ID\d{3}[A-Z]\d{3}$/`. -/
def isCanonicalId (s : List Char) : Bool :=
  match s with
  | [i, d, a, b, c, l, x, y, z] =>
    decide (i = 'I') && decide (d = 'D') && isDigit a && isDigit b && isDigit c
      && isUpperAZ l && isDigit x && isDigit y && isDigit z
  | _ => false

/-- The groups `num`, `letter`, `subNum` of a match of `/^(\d{3})([A-Z])-(\d{1,3})$/`. -/
def matchHyphenated (s : List Char) : Option (List Char × Char × List Char) :=
  match s with
  | a :: b :: c :: l :: h :: subNum =>
    if isDigit a && isDigit b && isDigit c && isUpperAZ l && decide (h = '-')
        && decide (1 ≤ subNum.length) && decide (subNum.length ≤ 3) && subNum.all isDigit then
      some ([a, b, c], l, subNum)
    else none
  | _ => none

/-- The groups `num`, `letter`, `subNum` of a match of `/^(\d{3})([A-Z])(\d{1,3})$/`. -/
def matchUnhyphenated (s : List Char) : Option (List Char × Char × List Char) :=
  match s with
  | a :: b :: c :: l :: subNum =>
    if isDigit a && isDigit b && isDigit c && isUpperAZ l && decide (1 ≤ subNum.length)
        && decide (subNum.length ≤ 3) && subNum.all isDigit then
      some ([a, b, c], l, subNum)
    else none
  | _ => none

/-- The array `patterns`, each pattern as its matcher. -/
def patterns : List (List Char → Option (List Char × Char × List Char)) :=
  [matchHyphenated, matchUnhyphenated]

/-- The function `normalizeQuestionId(input)` of `popup.js`; `none` is `null`. -/
def normalizeQuestionId (upper : Char → List Char) (input : String) : Option String :=
  let cleaned := toUpperCase upper (trim input.data)
  if isCanonicalId cleaned then some (String.mk cleaned)
  else
    match patterns.findSome? (fun pattern => pattern cleaned) with
    | some (num, letter, subNum) =>
      some (String.mk ('I' :: 'D' :: (padStart 3 '0' num ++ letter :: padStart 3 '0' subNum)))
    | none => none

/-- The canonical form of a question identifier: `ID`, three digits, one upper-case
letter, three digits. -/
def CanonicalId (s : String) : Prop := isCanonicalId s.data = true

instance (s : String) : Decidable (CanonicalId s) := by
  unfold CanonicalId; infer_instance

/-! ## The identifier normalizers of `content_main.js` and `content_update.js` -/

/-- A match of `(\d+)([A-Z])-(\d+)` that starts at the head of `s`: the longest run of
digits, a capital, a hyphen, the longest run of digits.  A shorter first run is followed by
a digit and not by a capital, so backtracking finds nothing else. -/
def matchPartsAt (s : List Char) : Option (List Char × Char × List Char) :=
  match s.dropWhile isDigit with
  | letter :: h :: rest =>
    if !(s.takeWhile isDigit).isEmpty && isUpperAZ letter && decide (h = '-')
        && !(rest.takeWhile isDigit).isEmpty then
      some (s.takeWhile isDigit, letter, rest.takeWhile isDigit)
    else none
  | _ => none

/-- The leftmost match of the unanchored `(\d+)([A-Z])-(\d+)` in `s`, as its groups. -/
def searchParts : List Char → Option (List Char × Char × List Char)
  | [] => none
  | c :: cs =>
    match matchPartsAt (c :: cs) with
    | some m => some m
    | none => searchParts cs

/-- The function `convertQuestionNumber(questionNumber)` of `content_main.js`, with
`PATTERNS.QUESTION_PARTS = /(\d+)([A-Z])-(\d+)/`. -/
def convertQuestionNumber (questionNumber : String) : Option String :=
  match searchParts questionNumber.data with
  | none => none
  | some (num, letter, subNum) =>
    some (String.mk ('I' :: 'D' :: (padStart 3 '0' num ++ letter :: padStart 3 '0' subNum)))

/-- The function `normalizeProblemId(stateExamNo)` of `content_update.js`, with the
pattern `/(\d+[A-Z])-(\d+)/`: its first group is the digits with the capital, its second
group the digits after the hyphen. -/
def normalizeProblemId (stateExamNo : String) : String :=
  match searchParts stateExamNo.data with
  | some (num, letter, number) =>
    String.mk ('I' :: 'D' :: (num ++ letter :: padStart 3 '0' number))
  | none => stateExamNo

/-! ## The raw response and the record transformer of `content_update.js` -/

/-- One entry of `items` in the response of `contents_history.ashx`; a field that is
missing is `none`.  A numeric field stands as its decimal text. -/
structure RawItem where
  implement_date : Option String
  learning_classification : Option String
  certainty_factor : Option String
  answer : Option String
  falsehood : Option String
  learning_sec : Option String
  state_exam_no : Option String
deriving DecidableEq, Repr

/-- The response of `contents_history.ashx`; `items` may be missing. -/
structure AshxData where
  items : Option (List RawItem)
deriving DecidableEq, Repr

/-- The function `getQuestionIdFromAshx(ashxData)`; the argument `none` is an absent
response, the result `none` is `null`. -/
def getQuestionIdFromAshx (ashxData : Option AshxData) : Option String :=
  match ashxData with
  | none => none
  | some response =>
    match response.items with
    | none => none
    | some [] => none
    | some (first :: _) =>
      match first.state_exam_no with
      | none => none
      | some stateExamNo => if stateExamNo = "" then none else some (normalizeProblemId stateExamNo)

/-- The value of a digit in radix 10 or 16, `none` for any other character. -/
def radixDigit (radix : Nat) (c : Char) : Option Nat :=
  if isDigit c then some (c.toNat - 48)
  else if radix = 16 ∧ 97 ≤ c.toNat ∧ c.toNat ≤ 102 then some (c.toNat - 87)
  else if radix = 16 ∧ 65 ≤ c.toNat ∧ c.toNat ≤ 70 then some (c.toNat - 55)
  else none

/-- The number written by the longest run of radix digits at the head of `s`; `none` when
there is no digit. -/
def parseDigits (radix : Nat) (s : List Char) : Option Nat :=
  match s.takeWhile (fun c => (radixDigit radix c).isSome) with
  | [] => none
  | ds => some (ds.foldl (fun acc c => acc * radix + (radixDigit radix c).getD 0) 0)

/-- The unsigned part of `parseInt`: radix 16 after `0x` or `0X`, else radix 10. -/
def parseUnsigned (s : List Char) : Option Nat :=
  match s with
  | '0' :: 'x' :: rest => parseDigits 16 rest
  | '0' :: 'X' :: rest => parseDigits 16 rest
  | _ => parseDigits 10 s

/-- The least `shift` for which `n / 2 ^ shift` is below `2 ^ 53`, found in at most `fuel`
halvings. -/
def roundShift : Nat → Nat → Nat
  | 0, _ => 0
  | fuel + 1, n => if n < 9007199254740992 then 0 else roundShift fuel (n / 2) + 1

/-- The Number value of a natural number below `2 ^ 1024 - 2 ^ 970`: the integer itself up
to `2 ^ 53`, beyond it the nearest number with a significand of 53 bits, the one with the
even significand at a tie. -/
def numberValue (n : Nat) : Nat :=
  let shift := roundShift n n
  let q := n / 2 ^ shift
  let r := n % 2 ^ shift
  if shift = 0 then n
  else if 2 ^ (shift - 1) < r ∨ (r = 2 ^ (shift - 1) ∧ q % 2 = 1) then (q + 1) * 2 ^ shift
  else q * 2 ^ shift

/-- The integer that a text denotes, exactly, in the words of the specification (`the
integer parse of the source value`): leading white space is skipped, a sign is read, then
the digits; `none` when there is no digit to read. -/
def integerParse (s : List Char) : Option Int :=
  match s.dropWhile isWhiteSpace with
  | '-' :: rest => (parseUnsigned rest).map fun (n : Nat) => -(n : Int)
  | '+' :: rest => (parseUnsigned rest).map fun (n : Nat) => (n : Int)
  | rest => (parseUnsigned rest).map fun (n : Nat) => (n : Int)

/-- The function `parseInt(s)` without a radix argument: leading white space is skipped,
a sign is read, then the digits; `none` is `NaN`.  The result is a Number, the Number value
of the integer read.  An integer that rounds to `2 ^ 1024` or more gives `Infinity`, which
is no integer: the definition covers the texts below that. -/
def parseInt (s : List Char) : Option Int :=
  match s.dropWhile isWhiteSpace with
  | '-' :: rest => (parseUnsigned rest).map fun n => -(numberValue n : Int)
  | '+' :: rest => (parseUnsigned rest).map fun n => (numberValue n : Int)
  | rest => (parseUnsigned rest).map fun n => (numberValue n : Int)

/-- The expression `parseInt(v || '0') || 0` of the four integer fields. -/
def intField (v : Option String) : Int :=
  (parseInt (orString v "0").data).getD 0

/-- The call `s.replace(pattern, '')` with a string pattern: the first occurrence of
`pattern` is removed. -/
def removeFirst (pattern : List Char) : List Char → List Char
  | [] => []
  | c :: cs =>
    if pattern.isPrefixOf (c :: cs) then (c :: cs).drop pattern.length
    else c :: removeFirst pattern cs

/-- The value `implementDate` of one item:
`new Date(item.implement_date.replace(/\//g, '-')).toISOString().replace('Z', '')
.replace('.000', '')`.  It is `none` when the expression throws: `implement_date` is
missing, or the date is invalid. -/
def implementDate (date : String → Option Int) (item : RawItem) : Option String :=
  match item.implement_date with
  | none => none
  | some d =>
    match date (String.mk (d.data.map fun c => if c = '/' then '-' else c)) with
    | none => none
    | some t => some (String.mk (removeFirst ".000".data (removeFirst ['Z'] (toISOString t))))

/-- The callback of `ashxData.items.map`: one record for one item, `none` when it
throws. -/
def transformItem (date : String → Option Int) (item : RawItem) : Option Record :=
  match implementDate date item with
  | none => none
  | some t =>
    some { implementDateTime := t
           learningClassification := intField item.learning_classification
           certaintyFactor := intField item.certainty_factor
           answer := orString item.answer ""
           falsehood := intField item.falsehood
           learningSeconds := intField item.learning_sec }

/-- The call `ashxData.items.map(...)`: the records of the items, in their order; `none`
as soon as the callback throws. -/
def mapItems (date : String → Option Int) : List RawItem → Option History
  | [] => some []
  | item :: rest =>
    match transformItem date item with
    | none => none
    | some r => (mapItems date rest).map fun rs => r :: rs

/-- The sort `transformed.sort((a, b) => b[0].localeCompare(a[0]))` keeps `a` in front of
`b` unless the comparator is positive.  `localeCompare` is the collation of the engine. -/
def keepsBeforeLocale (localeCompare : String → String → Int) (a b : Record) : Prop :=
  localeCompare b.implementDateTime a.implementDateTime ≤ 0

instance (localeCompare : String → String → Int) : DecidableRel (keepsBeforeLocale localeCompare) := by
  intro a b; unfold keepsBeforeLocale; infer_instance

/-- The function `transformHistoryData(ashxData)`; the argument `none` is an absent
response, the result `none` an exception thrown by the mapping of an item. -/
def transformHistoryData (date : String → Option Int) (localeCompare : String → String → Int)
    (ashxData : Option AshxData) : Option History :=
  match ashxData with
  | none => some []
  | some response =>
    match response.items with
    | none => some []
    | some [] => some []
    | some items =>
      match mapItems date items with
      | none => none
      | some transformed => some (transformed.insertionSort (keepsBeforeLocale localeCompare))

/-- The comparison of two strings character by character: negative, zero or positive. -/
def compareChars : List Char → List Char → Int
  | [], [] => 0
  | [], _ :: _ => -1
  | _ :: _, [] => 1
  | a :: as, b :: bs =>
    if a.toNat < b.toNat then -1
    else if b.toNat < a.toNat then 1
    else compareChars as bs

/-- A collation for the instances below: the order of the strings character by
character. -/
def codePointCompare (x y : String) : Int := compareChars x.data y.data

/-- The collation is a consistent comparator: the sign of `localeCompare(x, y)` is
opposite to that of `localeCompare(y, x)`, and the order is transitive. -/
def consistentCollation (localeCompare : String → String → Int) : Prop :=
  (∀ x y, localeCompare x y ≤ 0 ↔ 0 ≤ localeCompare y x) ∧
  (∀ x y z, localeCompare x y ≤ 0 → localeCompare y z ≤ 0 → localeCompare x z ≤ 0)

/-- An item of 2025-10-26 with slashes in its date, an empty certainty and an unparseable
correctness code. -/
def itemEarly : RawItem :=
  ⟨some "2025/10/26T14:54:04", some "1", some "", some "A", some "x", some " 30 sec",
    some "116A-1"⟩

/-- An item of 2025-10-27 with no classification, a hexadecimal certainty, no answer and a
negative number of seconds. -/
def itemLate : RawItem :=
  ⟨some "2025-10-27T09:00:00", none, some "0x10", none, some "1", some "-20", some "116A-1"⟩

/-- An item without `implement_date`. -/
def itemNoDate : RawItem :=
  ⟨none, some "1", some "0", some "A", some "1", some "30", some "116A-1"⟩

/-- An item whose `implement_date` is not a date. -/
def itemBadDate : RawItem :=
  ⟨some "n/a", some "1", some "0", some "A", some "1", some "30", some "116A-1"⟩

/-! ## Classification by the analyzer -/

/-- The batch entry is classified as a new question: `D.data` has no entry for it. -/
def isNewQuestion (D : HistoryJson) (e : String × History) : Bool :=
  (historyOf D e.1).isNone

/-- The batch entry is classified as an updated question: `D.data` has the question and
the entry brings a record whose timestamp is not among the existing ones. -/
def isUpdatedQuestion (D : HistoryJson) (e : String × History) : Bool :=
  match historyOf D e.1 with
  | none => false
  | some existing => decide (0 < (uniqueNewHistory existing e.2).length)

/-! ## Sample responses -/

/-- A response whose first item has the exam number `116A1`, without hyphen. -/
def responseNoHyphen : AshxData :=
  { items := some [⟨some "2025-10-26T14:54:04", some "1", some "0", some "A", some "1",
      some "30", some "116A1"⟩] }

/-- A response whose first item has the exam number `99A-5`, of a two-digit exam. -/
def responseTwoDigits : AshxData :=
  { items := some [⟨some "2025-10-26T14:54:04", some "1", some "0", some "A", some "1",
      some "30", some "99A-5"⟩] }

/-! ## The second merge, `mergeHistoryData` -/

/-- One iteration of the loop of `mergeHistoryData`.  The state is the object `merged.data`
with the entries of the caller's `newHistoryData` already visited, as they stand. -/
def mergeHistoryStep (date : String → Option Int)
    (state : JsObj History × JsObj History) (entry : String × History) :
    JsObj History × JsObj History :=
  match objGet state.1 entry.1 with
  | some existing =>
    (objSet state.1 entry.1 (sortDesc date (existing ++ uniqueNewHistory existing entry.2)),
      state.2 ++ [entry])
  | none =>
    (objSet state.1 entry.1 (sortDesc date entry.2),
      state.2 ++ [(entry.1, sortDesc date entry.2)])

/-- The function `mergeHistoryData(existingData, newHistoryData)` at the clock reading
`now`, itself a valid time value: the copy `{ ...existingData }` with `data` merged and
`最終更新` set to `new Date().toISOString()`.  The second component is the caller's
`newHistoryData` after the call. -/
def mergeHistoryData (date : String → Option Int) (now : Clock)
    (existingData : HistoryJson) (newHistoryData : JsObj History) :
    HistoryJson × JsObj History :=
  let out := newHistoryData.foldl (mergeHistoryStep date) (existingData.data.getD [], [])
  ({ existingData with
      data := some out.1
      lastUpdated := some (String.mk (toISOString now.ms)) }, out.2)

/-- A durable dataset with an empty user name. -/
def durableEmptyUser : HistoryJson :=
  { user := some "", lastUpdated := some "2025-10-26T15:00:00",
    columns := some defaultColumns, data := some [("ID116A001", [recT1A])] }

/-! ## The temporary stores -/

/-- A record of the object store `history_temp`, whose key path is `id`. -/
structure TempRecord where
  id : String
  timestamp : Int
  content : JsObj History
deriving DecidableEq, Repr

/-- The object store `history_temp` of IndexedDB: its records, one for each key. -/
abbrev ObjectStore := List TempRecord

/-- The request `store.put(data)`: the record with the key of `data` is replaced, or
`data` is added. -/
def storePut : ObjectStore → TempRecord → ObjectStore
  | [], data => [data]
  | r :: rest, data => if r.id = data.id then data :: rest else r :: storePut rest data

/-- The request `store.get(key)`; `none` is `undefined`. -/
def storeGet : ObjectStore → String → Option TempRecord
  | [], _ => none
  | r :: rest, key => if r.id = key then some r else storeGet rest key

/-- The request `store.delete(key)`. -/
def storeDelete (store : ObjectStore) (key : String) : ObjectStore :=
  store.filter fun r => decide (r.id ≠ key)

/-- The method `saveTempHistoryData(tempData)` at the clock reading `now`.  `succeeds`
tells whether the `put` request succeeds; a failed request leaves the store as it was and
the promise is rejected (`none`). -/
def saveTempHistoryData (now : Clock) (succeeds : Bool) (store : ObjectStore)
    (tempData : JsObj History) : Option TempRecord × ObjectStore :=
  let data : TempRecord := { id := "history_temp", timestamp := now.ms, content := tempData }
  if succeeds then (some data, storePut store data) else (none, store)

/-- The method `getTempHistoryData()` on a store whose `get` request succeeds: the content
of the record `history_temp`, or `null`. -/
def getTempHistoryData (store : ObjectStore) : Option (JsObj History) :=
  match storeGet store "history_temp" with
  | some result => some result.content
  | none => none

/-- The method `deleteTempHistoryData()` on a store whose `delete` request succeeds. -/
def deleteTempHistoryData (store : ObjectStore) : ObjectStore :=
  storeDelete store "history_temp"

/-- The states of the object store `history_temp`: it is created empty and written to by
`saveTempHistoryData` and `deleteTempHistoryData` only. -/
inductive StoreState : ObjectStore → Prop
  | created : StoreState []
  | saved (now : Clock) (succeeds : Bool) (store : ObjectStore) (tempData : JsObj History) :
      StoreState store → StoreState (saveTempHistoryData now succeeds store tempData).2
  | deleted (store : ObjectStore) : StoreState store → StoreState (deleteTempHistoryData store)

/-- The value stored under `history_temp.json` in `chrome.storage.local`. -/
structure TempFile where
  timestamp : String
  data : JsObj History
deriving DecidableEq, Repr

/-- The method `saveTempHistoryFile(tempData)` at the clock reading `now`, a valid time
value, on the items of `chrome.storage.local`.  `succeeds` tells whether `set` ends
without `chrome.runtime.lastError`. -/
def saveTempHistoryFile (now : Clock) (succeeds : Bool) (storage : JsObj TempFile)
    (tempData : JsObj History) : Option TempFile × JsObj TempFile :=
  let tempFile : TempFile := { timestamp := String.mk (toISOString now.ms), data := tempData }
  if succeeds then (some tempFile, objSet storage "history_temp.json" tempFile)
  else (none, storage)

/-- The method `getTempHistoryFile()` when `get` ends without error: the stored file or
`null`. -/
def getTempHistoryFile (storage : JsObj TempFile) : Option TempFile :=
  objGet storage "history_temp.json"

/-- A later clock reading than `sampleClock`. -/
def laterClock : Clock := ⟨1761458104000, by decide⟩

/-! ## The collection loop of `content_update.js` -/

/-- The outcome of one iteration of the collection loop: the question id with its records
when the fetch, `getQuestionIdFromAshx` and `transformHistoryData` all gave a value, `none`
when the id is `null` or something threw. -/
abbrev FetchOutcome := Option (String × History)

/-- The object `collectedData` after one more outcome. -/
def collectOne (collectedData : JsObj History) (outcome : FetchOutcome) : JsObj History :=
  match outcome with
  | some (problemId, records) => objSet collectedData problemId records
  | none => collectedData

/-- The object `collectedData` after the outcomes of a run of iterations. -/
def collectAll (collectedData : JsObj History) (outcomes : List FetchOutcome) :
    JsObj History :=
  outcomes.foldl collectOne collectedData

/-- The state of the loop of `startDataCollection`: the object `collectedData` and the
checkpoint writes `saveTempHistoryFile(collectedData)` issued so far, each with the value
of `i + 1` and the batch it writes. -/
structure CollectionState where
  collectedData : JsObj History
  checkpoints : List (Nat × JsObj History)
deriving DecidableEq, Repr

/-- The loop `for (let i = 0; i < questionIds.length; i++)` of `startDataCollection` from
the index `i` on, the message of every checkpoint being delivered. -/
def collectionLoop : Nat → CollectionState → List FetchOutcome → CollectionState
  | _, state, [] => state
  | i, state, outcome :: rest =>
    let collected := collectOne state.collectedData outcome
    if (i + 1) % 50 = 0 then
      collectionLoop (i + 1)
        { collectedData := collected
          checkpoints := state.checkpoints ++ [(i + 1, collected)] } rest
    else
      collectionLoop (i + 1) { collectedData := collected, checkpoints := state.checkpoints }
        rest

/-- The run of `startDataCollection` over the outcomes of all its iterations. -/
def startDataCollection (outcomes : List FetchOutcome) : CollectionState :=
  collectionLoop 0 { collectedData := [], checkpoints := [] } outcomes

/-- Forty-nine failed fetches followed by one that succeeds. -/
def mostlyFailures : List FetchOutcome :=
  List.replicate 49 none ++ [some ("ID116A001", [recT1A])]

/-- One failed fetch followed by fifty that succeed, for the questions `ID116A001` to
`ID116A050`. -/
def oneFailureThenFifty : List FetchOutcome :=
  none :: (List.range 50).map fun n =>
    some (String.mk ('I' :: 'D' :: '1' :: '1' :: '6' :: 'A' :: padDigits 3 (n + 1)), [recT1A])

/-! ## The end of the year 9999 -/

/-- The clock at 9999-12-31T15:00:00.000Z, nine hours before the year 10000. -/
def yearEndClock : Clock := ⟨253402268400000, by decide⟩

/-! ## The folded layout in the words of the specification -/

/-- The line of record number `j` of `n`: an indent of six spaces, the compact text of the
record, a comma unless `j` is the last index, a line break. -/
def recordLine (n j : Nat) (r : Record) : String :=
  "      " ++ jsonRecord r ++ (if j + 1 < n then "," else "") ++ "\n"

/-- One line per record, in the order of the list. -/
def recordLines (records : History) : List String :=
  records.enum.map fun jr => recordLine records.length jr.1 jr.2

/-- The line of entry number `i` of `n` of the `data` object: an indent of four spaces, the
key between double quotes, a colon and a space, the rendering of the records, a comma unless
`i` is the last index, a line break. -/
def entryLine (n i : Nat) (e : String × History) : String :=
  "    \"" ++ e.1 ++ "\": " ++ formattedRecords e.2 ++ (if i + 1 < n then "," else "") ++ "\n"

/-- One line group per question, in the order of the keys. -/
def entryLines (dataObj : JsObj History) : List String :=
  dataObj.enum.map fun ie => entryLine dataObj.length ie.1 ie.2

/-- A history of three records, whose compact text has 112 characters. -/
def threeRecords : History := [recT2A, recT1A, recT1B]

/-- A durable dataset with a short history and a long one. -/
def durableTwo : HistoryJson :=
  { user := some "u", lastUpdated := some "2025-10-26T15:00:00",
    columns := some defaultColumns,
    data := some [("ID116A001", [recT1A]), ("ID116A002", threeRecords)] }

/-! ## The history search of `search.js` -/

/-- One question of `basedata.json`, by what `filterQuestions` reads of it: `基本` is
`[year, block, number]`, `分類` is `[divisions, special]`, `統計` is `[qbRate, mecRate]`
(a number or `null`), `QB情報` is `[qbFirstRound, qbSubjects]`, `MEC情報` is
`[mecFrequent, _, mecDiseases]`.  `special` is `none` when it is not an array, `mecDiseases`
is `none` when it is falsy; the two flags are the truthiness of the entries. -/
structure QuestionData where
  year : Int
  block : String
  number : Int
  divisions : List String
  special : Option (List String)
  qbRate : Option ℚ
  mecRate : Option ℚ
  qbFirstRound : Bool
  qbSubjects : List String
  mecFrequent : Bool
  mecDiseases : Option (List String)
deriving DecidableEq

/-- The object `baseFilters`; `none` is `null`. -/
structure BaseFilters where
  yearMin : Option Int
  yearMax : Option Int
  divisions : List String
  specials : List String
  qbRateMin : Option Int
  qbRateMax : Option Int
  mecRateMin : Option Int
  mecRateMax : Option Int
  qb1Only : Bool
  subjects : List String
  mecFrequentOnly : Bool
  diseases : List String
deriving DecidableEq

/-- The object `historyFilters`, its numbers being integers; `none` is `null`. -/
structure HistoryFilters where
  attemptsMin : Int
  attemptsMax : Int
  correctRateMin : Option Int
  correctRateMax : Option Int
  recentWrongCount : Option Int
deriving DecidableEq

/-- An element of the `history` of a result. -/
structure HistoryEntry where
  date : String
  answer : String
  correct : Bool
deriving DecidableEq

/-- An element of `results`; `division` and `subject` are `none` when the array they are
the first element of is empty. -/
structure SearchResult where
  id : String
  year : Int
  block : String
  number : Int
  division : Option String
  subject : Option String
  attempts : Nat
  correctRate : String
  history : List HistoryEntry
deriving DecidableEq

/-- The test `bound !== null && value < bound`. -/
def belowBound (value : ℚ) (bound : Option Int) : Bool :=
  match bound with
  | some b => decide (value < (b : ℚ))
  | none => false

/-- The test `bound !== null && value > bound`. -/
def aboveBound (value : ℚ) (bound : Option Int) : Bool :=
  match bound with
  | some b => decide (value > (b : ℚ))
  | none => false

/-- The exclusion by a rate and its two bounds: a rate outside a bound, or no rate when
there is a bound. -/
def rateExcluded (rate : Option ℚ) (rateMin rateMax : Option Int) : Bool :=
  match rate with
  | some r => belowBound r rateMin || aboveBound r rateMax
  | none => rateMin.isSome || rateMax.isSome

/-- The filters of `filterQuestions` on the entry of `basedata.json`: `false` where the
loop goes on to the next question. -/
def passesBaseFilters (baseFilters : BaseFilters) (q : QuestionData) : Bool :=
  if belowBound q.year baseFilters.yearMin then false
  else if aboveBound q.year baseFilters.yearMax then false
  else if decide (baseFilters.divisions.length > 0)
      && !(q.divisions.any fun div => baseFilters.divisions.contains div) then false
  else if decide (baseFilters.specials.length > 0)
      && !(match q.special with
        | some special => special.any fun s => baseFilters.specials.contains s
        | none => false) then false
  else if rateExcluded q.qbRate baseFilters.qbRateMin baseFilters.qbRateMax then false
  else if rateExcluded q.mecRate baseFilters.mecRateMin baseFilters.mecRateMax then false
  else if baseFilters.qb1Only && !q.qbFirstRound then false
  else if decide (baseFilters.subjects.length > 0)
      && !(match q.qbSubjects.head? with
        | some subject => baseFilters.subjects.contains subject
        | none => false) then false
  else if baseFilters.mecFrequentOnly && !q.mecFrequent then false
  else if decide (baseFilters.diseases.length > 0)
      && !(baseFilters.diseases.any fun selectedDisease =>
        (q.mecDiseases.getD []).contains selectedDisease) then false
  else true

/-- The array `attempts` of a question: its records in `historyData.data` when the id is
one of the attempted ids, the empty array otherwise. -/
def attemptsOf (historyData : HistoryJson) (questionId : String) : History :=
  let attemptedIds := objKeys (historyData.data.getD [])
  if questionId ∈ attemptedIds then (objGet (historyData.data.getD []) questionId).getD []
  else []

/-- The method call `array.slice(0, stop)` with an integer `stop`: a negative `stop` counts
from the end. -/
def sliceFromStart {α : Type} (array : List α) (stop : Int) : List α :=
  if 0 ≤ stop then array.take stop.toNat else array.take ((array.length : Int) + stop).toNat

/-- The exclusion by the correct rate.  `percent correctCount n` is the number
`(correctCount / n) * 100` of the floating-point arithmetic. -/
def correctRateExcluded (percent : Nat → Nat → ℚ) (historyFilters : HistoryFilters)
    (correctCount n : Nat) : Bool :=
  if n > 0 then
    belowBound (percent correctCount n) historyFilters.correctRateMin
      || aboveBound (percent correctCount n) historyFilters.correctRateMax
  else historyFilters.correctRateMin.isSome || historyFilters.correctRateMax.isSome

/-- The exclusion by the recent-wrong filter. -/
def recentWrongExcluded (recentWrongCount : Option Int) (attempts : History) : Bool :=
  match recentWrongCount with
  | some recentCount =>
    if attempts.length > 0 then
      let recentAttempts := sliceFromStart attempts recentCount
      if (recentAttempts.length : Int) < recentCount then true
      else !(recentAttempts.all fun a => decide (a.falsehood = 0))
    else false
  | none => false

/-- The text `x.toFixed(1)` of a number below `10^21` in absolute value: the nearest
multiple of one tenth, the larger one at a tie. -/
def toFixedOne (x : ℚ) : String :=
  let n := (Rat.floor (|x| * 10 + 1 / 2)).toNat
  (if x < 0 then "-" else "") ++ jsonInt (n / 10 : Nat) ++ "." ++ jsonInt (n % 10 : Nat)

/-- The element of `history` made of one record. -/
def historyEntry (a : Record) : HistoryEntry :=
  { date := a.implementDateTime, answer := a.answer, correct := decide (a.falsehood = 1) }

/-- The body of the loop of `filterQuestions` for one entry of `baseData.data`: the result
pushed, or `none` where the loop goes on to the next question. -/
def filterQuestion (percent : Nat → Nat → ℚ) (historyData : HistoryJson)
    (baseFilters : BaseFilters) (historyFilters : HistoryFilters)
    (entry : String × QuestionData) : Option SearchResult :=
  let questionId := entry.1
  let questionData := entry.2
  if passesBaseFilters baseFilters questionData = false then none
  else
    let attempts := attemptsOf historyData questionId
    let correctCount := (attempts.filter fun a => decide (a.falsehood = 1)).length
    if (attempts.length : Int) < historyFilters.attemptsMin
        ∨ (attempts.length : Int) > historyFilters.attemptsMax then none
    else if correctRateExcluded percent historyFilters correctCount attempts.length then none
    else if recentWrongExcluded historyFilters.recentWrongCount attempts then none
    else some
      { id := questionId
        year := questionData.year
        block := questionData.block
        number := questionData.number
        division := questionData.divisions.head?
        subject := questionData.qbSubjects.head?
        attempts := attempts.length
        correctRate :=
          if attempts.length > 0 then toFixedOne (percent correctCount attempts.length)
          else "N/A"
        history := (attempts.map historyEntry).reverse }

/-- The comparator of the final sort: by year, then by block, then by number. -/
def compareResults (localeCompare : String → String → Int) (a b : SearchResult) : Int :=
  if a.year ≠ b.year then a.year - b.year
  else if a.block ≠ b.block then localeCompare a.block b.block
  else a.number - b.number

/-- The comparator does not put `b` before `a`. -/
def resultBefore (localeCompare : String → String → Int) (a b : SearchResult) : Prop :=
  compareResults localeCompare a b ≤ 0

instance (localeCompare : String → String → Int) :
    DecidableRel (resultBefore localeCompare) := by
  intro a b; unfold resultBefore; infer_instance

/-- The function `filterQuestions(baseFilters, historyFilters)` over the globals
`baseData.data` and `historyData`. -/
def filterQuestions (percent : Nat → Nat → ℚ) (localeCompare : String → String → Int)
    (baseData : JsObj QuestionData) (historyData : HistoryJson)
    (baseFilters : BaseFilters) (historyFilters : HistoryFilters) : List SearchResult :=
  (baseData.filterMap
    (filterQuestion percent historyData baseFilters historyFilters)).insertionSort
      (resultBefore localeCompare)

/-- A percentage for the instances below: the exact value of `correctCount / n * 100`. -/
def exactPercent (correctCount n : Nat) : ℚ := (correctCount : ℚ) / (n : ℚ) * 100

/-- A question with no statistics. -/
def plainQuestion (year : Int) (block : String) (number : Int) : QuestionData :=
  { year := year, block := block, number := number, divisions := ["必修"], special := none,
    qbRate := none, mecRate := none, qbFirstRound := false, qbSubjects := ["内科"],
    mecFrequent := false, mecDiseases := none }

/-- Three questions of the 116th examination. -/
def sampleBase : JsObj QuestionData :=
  [("ID116A003", plainQuestion 116 "A" 3), ("ID116A002", plainQuestion 116 "A" 2),
    ("ID116A001", plainQuestion 116 "A" 1)]

/-- A history in which `ID116A001` has two wrong attempts after a right one and
`ID116A002` has a right attempt after a wrong one; `ID116A003` has no attempt. -/
def sampleHistory : HistoryJson :=
  { user := some "u", lastUpdated := some "2025-10-27T10:00:00",
    columns := some defaultColumns,
    data := some [("ID116A001", [recT2C, recT1B, recT1A]), ("ID116A002", [recT2A, recT1B])] }

/-- No filter on `basedata.json`. -/
def noBaseFilters : BaseFilters :=
  { yearMin := none, yearMax := none, divisions := [], specials := [], qbRateMin := none,
    qbRateMax := none, mecRateMin := none, mecRateMax := none, qb1Only := false,
    subjects := [], mecFrequentOnly := false, diseases := [] }

/-- Between 0 and 5 attempts, the last two of them wrong. -/
def lastTwoWrong : HistoryFilters :=
  { attemptsMin := 0, attemptsMax := 5, correctRateMin := none, correctRateMax := none,
    recentWrongCount := some 2 }

/-- On the strings of `stamps` the collation orders as the strings themselves are ordered,
code unit by code unit: `x.localeCompare(y) <= 0` exactly when `x <= y`. -/
def agreesWithStringOrder (localeCompare : String → String → Int) (stamps : List String) :
    Prop :=
  ∀ x ∈ stamps, ∀ y ∈ stamps, (localeCompare x y ≤ 0 ↔ x ≤ y)

/-! ## Large integers -/

/-- The Number value of an integer: the sign and the Number value of the magnitude. -/
def numberOfInt (n : Int) : Int := n.sign * (numberValue n.natAbs : Int)

/-- An item whose `learning_sec` is `2 ^ 53 + 1`. -/
def itemLargeSeconds : RawItem :=
  ⟨some "2025-10-26T14:54:04", some "1", some "0", some "A", some "1",
    some "9007199254740993", some "116A-1"⟩

/-! ## A dataset with one column -/

/-- A durable dataset whose `columns` has one label. -/
def durableOneColumn : HistoryJson :=
  { user := some "u", lastUpdated := some "2025-10-26T15:00:00",
    columns := some ["実施日時"], data := some [("ID116A001", [recT1A])] }

/-! ## Auxiliary lemmas -/

section ObjLemmas

variable {β : Type}

theorem objGet_objSet_self (o : JsObj β) (k : String) (v : β) :
    objGet (objSet o k v) k = some v := by
  induction o with
  | nil => simp [objSet, objGet]
  | cons e rest ih =>
    obtain ⟨k', v'⟩ := e
    by_cases h : k' = k
    · simp [objSet, objGet, h]
    · simp [objSet, objGet, h, ih]

theorem objGet_objSet_ne (o : JsObj β) {k q : String} (v : β) (h : k ≠ q) :
    objGet (objSet o k v) q = objGet o q := by
  induction o with
  | nil => simp [objSet, objGet, h]
  | cons e rest ih =>
    obtain ⟨k', v'⟩ := e
    by_cases hk : k' = k
    · subst hk
      simp [objSet, objGet, h]
    · by_cases hq : k' = q
      · simp [objSet, objGet, hk]
        simp [hq]
      · simp [objSet, objGet, hk, hq, ih]

theorem objSet_of_objGet (o : JsObj β) {k : String} {v : β} (h : objGet o k = some v) :
    objSet o k v = o := by
  induction o with
  | nil => simp [objGet] at h
  | cons e rest ih =>
    obtain ⟨k', v'⟩ := e
    by_cases hk : k' = k
    · simp [objGet, hk] at h
      simp [objSet, hk, h]
    · simp [objGet, hk] at h
      simp [objSet, hk, ih h]

theorem objGet_isSome_iff (o : JsObj β) (k : String) :
    (objGet o k).isSome = true ↔ k ∈ objKeys o := by
  induction o with
  | nil => simp [objGet, objKeys]
  | cons e rest ih =>
    obtain ⟨k', v'⟩ := e
    by_cases hk : k' = k
    · simp [objGet, objKeys, hk]
    · have hk' : ¬ k = k' := fun h => hk h.symm
      simpa [objGet, objKeys, hk, hk'] using ih

theorem objGet_eq_none_iff (o : JsObj β) (k : String) :
    objGet o k = none ↔ k ∉ objKeys o := by
  rw [← objGet_isSome_iff]
  cases objGet o k <;> simp

theorem objGet_mem (o : JsObj β) {k : String} {v : β} (h : objGet o k = some v) :
    (k, v) ∈ o := by
  induction o with
  | nil => simp [objGet] at h
  | cons e rest ih =>
    obtain ⟨k', v'⟩ := e
    by_cases hk : k' = k
    · simp [objGet, hk] at h
      simp [hk, h]
    · simp [objGet, hk] at h
      exact List.mem_cons_of_mem _ (ih h)

theorem objKeys_objSet_of_mem (o : JsObj β) {k : String} (v : β) (h : k ∈ objKeys o) :
    objKeys (objSet o k v) = objKeys o := by
  induction o with
  | nil => simp [objKeys] at h
  | cons e rest ih =>
    obtain ⟨k', v'⟩ := e
    by_cases hk : k' = k
    · simp [objSet, objKeys, hk]
    · have hk' : ¬ k = k' := fun h => hk h.symm
      have hr : k ∈ objKeys rest := by simpa [objKeys, hk'] using h
      have := ih hr
      simp only [objKeys] at this
      simp [objSet, objKeys, hk, this]

theorem objKeys_objSet_of_not_mem (o : JsObj β) {k : String} (v : β) (h : k ∉ objKeys o) :
    objKeys (objSet o k v) = objKeys o ++ [k] := by
  induction o with
  | nil => simp [objSet, objKeys]
  | cons e rest ih =>
    obtain ⟨k', v'⟩ := e
    have hk : ¬ k' = k := by
      intro hk; apply h; simp [objKeys, hk]
    have hr : k ∉ objKeys rest := by
      intro hr; apply h; simp only [objKeys] at hr; simp [objKeys, hr]
    have := ih hr
    simp only [objKeys] at this
    simp [objSet, objKeys, hk, this]

theorem mem_objSet (o : JsObj β) (k : String) (v : β) {e : String × β}
    (h : e ∈ objSet o k v) : e ∈ o ∨ e = (k, v) := by
  induction o with
  | nil => simpa [objSet] using h
  | cons e' rest ih =>
    obtain ⟨k', v'⟩ := e'
    by_cases hk : k' = k
    · simp [objSet, hk] at h
      rcases h with h | h
      · right; exact h
      · left; exact List.mem_cons_of_mem _ h
    · simp [objSet, hk] at h
      rcases h with h | h
      · left; simp [h]
      · rcases ih h with h | h
        · left; exact List.mem_cons_of_mem _ h
        · right; exact h

end ObjLemmas

section SortLemmas

variable (date : String → Option Int)

theorem keepsBefore_iff_keyGe {a b : Record}
    (ha : (date a.implementDateTime).isSome = true)
    (hb : (date b.implementDateTime).isSome = true) :
    keepsBefore date a b ↔ keyGe date a b := by
  obtain ⟨ta, hta⟩ := Option.isSome_iff_exists.mp ha
  obtain ⟨tb, htb⟩ := Option.isSome_iff_exists.mp hb
  simp [keepsBefore, keyGe, compareFn, timeKey, hta, htb]

theorem noEarlier_iff_keyGe {a b : Record}
    (ha : (date a.implementDateTime).isSome = true)
    (hb : (date b.implementDateTime).isSome = true) :
    noEarlier date a b ↔ keyGe date a b := by
  obtain ⟨ta, hta⟩ := Option.isSome_iff_exists.mp ha
  obtain ⟨tb, htb⟩ := Option.isSome_iff_exists.mp hb
  simp [noEarlier, keyGe, timeKey, hta, htb]

theorem orderedInsert_congr {r s : Record → Record → Prop} [DecidableRel r] [DecidableRel s]
    (a : Record) (l : List Record) (h : ∀ b ∈ l, r a b ↔ s a b) :
    l.orderedInsert r a = l.orderedInsert s a := by
  induction l with
  | nil => rfl
  | cons b l ih =>
    have hb : r a b ↔ s a b := h b (List.mem_cons_self _ _)
    have ih' := ih fun c hc => h c (List.mem_cons_of_mem _ hc)
    by_cases hr : r a b
    · have hs : s a b := hb.mp hr
      simp [List.orderedInsert, hr, hs]
    · have hs : ¬ s a b := fun hs => hr (hb.mpr hs)
      simp [List.orderedInsert, hr, hs, ih']

theorem insertionSort_congr {r s : Record → Record → Prop} [DecidableRel r] [DecidableRel s]
    (l : List Record) (h : ∀ a ∈ l, ∀ b ∈ l, r a b ↔ s a b) :
    l.insertionSort r = l.insertionSort s := by
  induction l with
  | nil => rfl
  | cons a l ih =>
    have ih' := ih fun x hx y hy =>
      h x (List.mem_cons_of_mem _ hx) y (List.mem_cons_of_mem _ hy)
    simp only [List.insertionSort]
    rw [ih']
    apply orderedInsert_congr
    intro b hb
    have hb' : b ∈ l := (List.mem_insertionSort s).mp hb
    exact h a (List.mem_cons_self _ _) b (List.mem_cons_of_mem _ hb')

theorem sortDesc_eq_keySort {l : History} (hl : validDates date l) :
    sortDesc date l = l.insertionSort (keyGe date) := by
  unfold sortDesc
  exact insertionSort_congr l fun a ha b hb => keepsBefore_iff_keyGe date (hl a ha) (hl b hb)

theorem perm_sortDesc (l : History) : (sortDesc date l).Perm l :=
  List.perm_insertionSort _ l

theorem mem_sortDesc {l : History} {r : Record} : r ∈ sortDesc date l ↔ r ∈ l :=
  (perm_sortDesc date l).mem_iff

theorem length_sortDesc (l : History) : (sortDesc date l).length = l.length :=
  (perm_sortDesc date l).length_eq

theorem validDates_sortDesc {l : History} (hl : validDates date l) :
    validDates date (sortDesc date l) :=
  fun r hr => hl r ((mem_sortDesc date).mp hr)

theorem mem_timestamps_sortDesc (l : History) (t : String) :
    t ∈ timestamps (sortDesc date l) ↔ t ∈ timestamps l :=
  ((perm_sortDesc date l).map _).mem_iff

theorem keySorted_sortDesc {l : History} (hl : validDates date l) :
    (sortDesc date l).Pairwise (keyGe date) := by
  rw [sortDesc_eq_keySort date hl]
  exact List.sorted_insertionSort (keyGe date) l

theorem sortedDescending_sortDesc {l : History} (hl : validDates date l) :
    sortedDescending date (sortDesc date l) := by
  have hv := validDates_sortDesc date hl
  exact (keySorted_sortDesc date hl).imp_of_mem fun {a b} ha hb hab =>
    (noEarlier_iff_keyGe date (hv a ha) (hv b hb)).mpr hab

theorem keepsBefore_total (a b : Record) : keepsBefore date a b ∨ keepsBefore date b a := by
  unfold keepsBefore compareFn
  cases ha : date a.implementDateTime <;> cases hb : date b.implementDateTime <;> simp
  omega

theorem chain_orderedInsert (a : Record) (l : History) (hl : l.Chain' (keepsBefore date)) :
    (l.orderedInsert (keepsBefore date) a).Chain' (keepsBefore date) := by
  induction l with
  | nil => simp
  | cons b l ih =>
    by_cases hab : keepsBefore date a b
    · simp only [List.orderedInsert, hab, if_true]
      exact List.Chain'.cons hab hl
    · have hba : keepsBefore date b a := (keepsBefore_total date a b).resolve_left hab
      simp only [List.orderedInsert, hab, if_false]
      have ht := ih hl.tail
      cases l with
      | nil => simpa using hba
      | cons c l =>
        by_cases hac : keepsBefore date a c
        · simp only [List.orderedInsert, hac, if_true] at ht ⊢
          exact List.Chain'.cons hba ht
        · simp only [List.orderedInsert, hac, if_false] at ht ⊢
          exact List.Chain'.cons (List.chain'_cons.mp hl).1 ht

theorem chain_sortDesc (l : History) : (sortDesc date l).Chain' (keepsBefore date) := by
  unfold sortDesc
  induction l with
  | nil => simp
  | cons a l ih => exact chain_orderedInsert date a _ ih

theorem sortDesc_eq_self_of_chain {l : History} (hl : l.Chain' (keepsBefore date)) :
    sortDesc date l = l := by
  unfold sortDesc
  induction l with
  | nil => rfl
  | cons a l ih =>
    simp only [List.insertionSort]
    rw [ih hl.tail]
    cases l with
    | nil => rfl
    | cons b l => simp [List.orderedInsert, (List.chain'_cons.mp hl).1]

theorem sortDesc_idem (l : History) : sortDesc date (sortDesc date l) = sortDesc date l :=
  sortDesc_eq_self_of_chain date (chain_sortDesc date l)

theorem sortDesc_eq_self_of_sorted {l : History} (hs : sortedDescending date l) :
    sortDesc date l = l := by
  apply List.Sorted.insertionSort_eq
  refine List.Pairwise.imp ?_ hs
  intro a b hab
  unfold noEarlier at hab
  unfold keepsBefore compareFn
  split at hab
  · rename_i ta tb hta htb
    simp [hta, htb, hab]
  · exact absurd hab id

end SortLemmas

section MergeLemmas

variable (date : String → Option Int)

theorem mergeLoop_cons_fst (data : JsObj History) (e : String × History)
    (rest : List (String × History)) :
    (mergeLoop date data (e :: rest)).1 =
      (mergeLoop date (objSet data e.1 (stepValue date data e)) rest).1 := by
  obtain ⟨q, h⟩ := e
  simp only [mergeLoop, stepValue]
  cases objGet data q <;> rfl

theorem mergeLoop_fst_eq_foldl (data : JsObj History) (B : List (String × History)) :
    (mergeLoop date data B).1 =
      B.foldl (fun d e => objSet d e.1 (stepValue date d e)) data := by
  induction B generalizing data with
  | nil => rfl
  | cons e rest ih => rw [mergeLoop_cons_fst, ih]; rfl

theorem mergeLoop_snd_origin (data : JsObj History) (B : List (String × History)) :
    ∀ e' ∈ (mergeLoop date data B).2, ∃ e ∈ B, e'.1 = e.1 ∧ e'.2.Perm e.2 := by
  induction B generalizing data with
  | nil => intro e' he'; simp [mergeLoop] at he'
  | cons e rest ih =>
    obtain ⟨q, h⟩ := e
    intro e' he'
    simp only [mergeLoop] at he'
    cases hq : objGet data q with
    | some x =>
      simp only [hq, List.mem_cons] at he'
      rcases he' with he' | he'
      · exact ⟨(q, h), List.mem_cons_self _ _, by simp [he'], by simp [he']⟩
      · obtain ⟨e, he, h1, h2⟩ := ih _ e' he'
        exact ⟨e, List.mem_cons_of_mem _ he, h1, h2⟩
    | none =>
      simp only [hq, List.mem_cons] at he'
      rcases he' with he' | he'
      · refine ⟨(q, h), List.mem_cons_self _ _, by simp [he'], ?_⟩
        simpa [he'] using perm_sortDesc date h
      · obtain ⟨e, he, h1, h2⟩ := ih _ e' he'
        exact ⟨e, List.mem_cons_of_mem _ he, h1, h2⟩

theorem uniqueNewHistory_eq_nil {x h : History}
    (hc : ∀ t ∈ timestamps h, t ∈ timestamps x) : uniqueNewHistory x h = [] := by
  unfold uniqueNewHistory
  rw [List.filter_eq_nil_iff]
  intro r hr
  have : r.implementDateTime ∈ timestamps x := hc _ (List.mem_map_of_mem _ hr)
  simpa [timestamps] using this

theorem mem_uniqueNewHistory {x h : History} {r : Record} :
    r ∈ uniqueNewHistory x h ↔ r ∈ h ∧ r.implementDateTime ∉ timestamps x := by
  simp [uniqueNewHistory, timestamps]

theorem stepValue_eq_of_absorbed {data : JsObj History} {e : String × History} {x : History}
    (hx : objGet data e.1 = some x) (hc : ∀ t ∈ timestamps e.2, t ∈ timestamps x)
    (hs : sortDesc date x = x) : stepValue date data e = x := by
  simp [stepValue, hx, uniqueNewHistory_eq_nil hc, hs]

theorem mergeLoop_fixed (data : JsObj History) (B : List (String × History))
    (hB : ∀ e ∈ B, absorbed date data e) : (mergeLoop date data B).1 = data := by
  induction B with
  | nil => rfl
  | cons e rest ih =>
    obtain ⟨x, hx, hc, hs⟩ := hB e (List.mem_cons_self _ _)
    rw [mergeLoop_cons_fst, stepValue_eq_of_absorbed date hx hc hs, objSet_of_objGet data hx]
    exact ih fun e' he' => hB e' (List.mem_cons_of_mem _ he')

theorem validDates_stepValue {data : JsObj History} {e : String × History}
    (hd : allValidDates date data) (he : validDates date e.2) :
    validDates date (stepValue date data e) := by
  unfold stepValue
  cases hq : objGet data e.1 with
  | none => exact validDates_sortDesc date he
  | some x =>
    apply validDates_sortDesc
    intro r hr
    rcases List.mem_append.mp hr with hr | hr
    · exact hd _ (objGet_mem data hq) r hr
    · exact he r (mem_uniqueNewHistory.mp hr).1

theorem allValidDates_objSet {data : JsObj History} {q : String} {v : History}
    (hd : allValidDates date data) (hv : validDates date v) :
    allValidDates date (objSet data q v) := by
  intro e he
  rcases mem_objSet data q v he with he | he
  · exact hd e he
  · simpa [he] using hv

theorem timestamps_stepValue {data : JsObj History} {e : String × History} :
    ∀ t ∈ timestamps e.2, t ∈ timestamps (stepValue date data e) := by
  intro t ht
  unfold stepValue
  cases hq : objGet data e.1 with
  | none => exact (mem_timestamps_sortDesc date _ t).mpr ht
  | some x =>
    rw [mem_timestamps_sortDesc]
    obtain ⟨r, hr, rfl⟩ := List.mem_map.mp ht
    by_cases hx : r.implementDateTime ∈ timestamps x
    · obtain ⟨r', hr', hrt⟩ := List.mem_map.mp hx
      exact List.mem_map.mpr ⟨r', List.mem_append_left _ hr', hrt⟩
    · exact List.mem_map.mpr
        ⟨r, List.mem_append_right _ (mem_uniqueNewHistory.mpr ⟨hr, hx⟩), rfl⟩

theorem timestamps_stepValue_existing {data : JsObj History} {e : String × History}
    {x : History} (hx : objGet data e.1 = some x) :
    ∀ t ∈ timestamps x, t ∈ timestamps (stepValue date data e) := by
  intro t ht
  simp only [stepValue, hx]
  rw [mem_timestamps_sortDesc]
  obtain ⟨r, hr, rfl⟩ := List.mem_map.mp ht
  exact List.mem_map.mpr ⟨r, List.mem_append_left _ hr, rfl⟩

theorem stepValue_sorted (data : JsObj History) (e : String × History) :
    sortDesc date (stepValue date data e) = stepValue date data e := by
  unfold stepValue
  cases objGet data e.1 <;> exact sortDesc_idem date _

theorem absorbed_step {data : JsObj History} {e : String × History} (e' : String × History)
    (ha : absorbed date data e) :
    absorbed date (objSet data e'.1 (stepValue date data e')) e := by
  obtain ⟨x, hx, hc, hs⟩ := ha
  by_cases hk : e'.1 = e.1
  · refine ⟨stepValue date data e', ?_, ?_, stepValue_sorted date data e'⟩
    · rw [← hk]; exact objGet_objSet_self _ _ _
    · intro t ht
      exact timestamps_stepValue_existing date (hk ▸ hx) t (hc t ht)
  · exact ⟨x, by rw [objGet_objSet_ne _ _ hk]; exact hx, hc, hs⟩

theorem absorbed_self (data : JsObj History) (e : String × History) :
    absorbed date (objSet data e.1 (stepValue date data e)) e :=
  ⟨stepValue date data e, objGet_objSet_self _ _ _, timestamps_stepValue date,
    stepValue_sorted date data e⟩

theorem absorbed_mergeLoop (data : JsObj History) (B : List (String × History))
    (e : String × History) (ha : absorbed date data e) :
    absorbed date (mergeLoop date data B).1 e := by
  induction B generalizing data with
  | nil => exact ha
  | cons e' rest ih =>
    rw [mergeLoop_cons_fst]
    exact ih _ (absorbed_step date e' ha)

theorem allValidDates_mergeLoop (data : JsObj History) (B : List (String × History))
    (hd : allValidDates date data) (hB : allValidDates date B) :
    allValidDates date (mergeLoop date data B).1 := by
  induction B generalizing data with
  | nil => exact hd
  | cons e' rest ih =>
    rw [mergeLoop_cons_fst]
    have he' : validDates date e'.2 := hB e' (List.mem_cons_self _ _)
    exact ih _ (allValidDates_objSet date hd (validDates_stepValue date hd he'))
      (fun x hx => hB x (List.mem_cons_of_mem _ hx))

theorem mergeLoop_absorbs (data : JsObj History) (B : List (String × History)) :
    ∀ e ∈ B, absorbed date (mergeLoop date data B).1 e := by
  induction B generalizing data with
  | nil => intro e he; simp at he
  | cons e' rest ih =>
    intro e he
    rw [mergeLoop_cons_fst]
    rcases List.mem_cons.mp he with he | he
    · subst he
      exact absorbed_mergeLoop date _ rest e (absorbed_self date data e)
    · exact ih _ e he

theorem absorbed_of_perm {data : JsObj History} {e e' : String × History}
    (hk : e'.1 = e.1) (hp : e'.2.Perm e.2) (ha : absorbed date data e) :
    absorbed date data e' := by
  obtain ⟨x, hx, hc, hs⟩ := ha
  refine ⟨x, hk ▸ hx, ?_, hs⟩
  intro t ht
  exact hc t (((hp.map _).mem_iff).mp ht)

end MergeLemmas

/-! ## Merge: idempotence -/

section Idempotence

variable (date : String → Option Int)

theorem orString_orString (x : Option String) :
    orString (some (orString x userPlaceholder)) userPlaceholder
      = orString x userPlaceholder := by
  have hp : userPlaceholder ≠ "" := by decide
  cases x with
  | none => simp [orString, hp]
  | some u =>
    by_cases hu : u = ""
    · simp [orString, hu, hp]
    · simp [orString, hu]

theorem convert_fixed (now : Clock) (D : HistoryJson) (B B' : JsObj History)
    (hB' : ∀ e ∈ B', absorbed date (mergeLoop date (D.data.getD []) B).1 e) :
    (convertToHistoryJsonFormat date now (convertToHistoryJsonFormat date now D B).1 B').1
      = (convertToHistoryJsonFormat date now D B).1 := by
  simp only [convertToHistoryJsonFormat, jsonClone, Option.getD_some, orString_orString]
  rw [mergeLoop_fixed date _ B' hB']

end Idempotence

/-- C1. Merge is idempotent.  With the clock held at `now`, merging the batch `B` into
the result of merging `B` into `D` returns that result again: same user, same
`lastUpdated`, same columns, the same question ids in the same order and the same record
list for every question.  This holds for the batch as the caller passed it and for the
batch as the first call left it. -/
theorem convertToHistoryJsonFormat_idempotent (date : String → Option Int) (now : Clock)
    (D : HistoryJson) (B : JsObj History) :
    (convertToHistoryJsonFormat date now (convertToHistoryJsonFormat date now D B).1 B).1
        = (convertToHistoryJsonFormat date now D B).1 ∧
    (convertToHistoryJsonFormat date now (convertToHistoryJsonFormat date now D B).1
        (convertToHistoryJsonFormat date now D B).2).1
        = (convertToHistoryJsonFormat date now D B).1 := by
  refine ⟨convert_fixed date now D B B (mergeLoop_absorbs date _ B), ?_⟩
  apply convert_fixed
  intro e' he'
  obtain ⟨e, he, hk, hp⟩ := mergeLoop_snd_origin date _ B e' he'
  exact absorbed_of_perm date hk hp (mergeLoop_absorbs date _ B e he)

/-! ## Merge: what each question holds afterwards -/

section MergeContent

variable (date : String → Option Int)

theorem historyOf_convert (now : Clock) (D : HistoryJson) (B : JsObj History) (q : String) :
    historyOf (convertToHistoryJsonFormat date now D B).1 q
      = objGet (mergeLoop date (D.data.getD []) B).1 q := rfl

theorem historyOf_eq_objGet (D : HistoryJson) (q : String) :
    historyOf D q = objGet (D.data.getD []) q := by
  unfold historyOf
  cases D.data <;> simp [objGet]

theorem objGet_objSet_cases {data : JsObj History} {k q : String} {v m : History}
    (h : objGet (objSet data k v) q = some m) :
    (k = q ∧ m = v) ∨ (k ≠ q ∧ objGet data q = some m) := by
  by_cases hk : k = q
  · subst hk
    rw [objGet_objSet_self] at h
    exact Or.inl ⟨rfl, (Option.some.inj h).symm⟩
  · rw [objGet_objSet_ne _ _ hk] at h
    exact Or.inr ⟨hk, h⟩

theorem mergeLoop_invariant (P : History → Prop) (B : List (String × History))
    (hstep : ∀ data e, e ∈ B → (∀ q m, objGet data q = some m → P m) →
      P (stepValue date data e))
    (data : JsObj History) (hdata : ∀ q m, objGet data q = some m → P m) :
    ∀ q m, objGet (mergeLoop date data B).1 q = some m → P m := by
  induction B generalizing data with
  | nil => exact hdata
  | cons e rest ih =>
    rw [mergeLoop_cons_fst]
    apply ih (fun data' e' he' => hstep data' e' (List.mem_cons_of_mem _ he'))
    intro q m hm
    rcases objGet_objSet_cases hm with ⟨_, rfl⟩ | ⟨_, hm'⟩
    · exact hstep data e (List.mem_cons_self _ _) hdata
    · exact hdata q m hm'

theorem mergeLoop_get_of_not_mem (data : JsObj History) (B : List (String × History))
    {q : String} (hq : q ∉ objKeys B) :
    objGet (mergeLoop date data B).1 q = objGet data q := by
  induction B generalizing data with
  | nil => rfl
  | cons e rest ih =>
    have hne : e.1 ≠ q := by
      intro h; apply hq; simp [objKeys, ← h]
    have hrest : q ∉ objKeys rest := by
      intro h; apply hq; simp only [objKeys] at h; simp [objKeys, h]
    rw [mergeLoop_cons_fst, ih _ hrest, objGet_objSet_ne _ _ hne]

theorem stepValue_congr {data data' : JsObj History} {q : String}
    (h : objGet data' q = objGet data q) (l : History) :
    stepValue date data' (q, l) = stepValue date data (q, l) := by
  simp [stepValue, h]

theorem mergeLoop_get (data : JsObj History) (B : List (String × History))
    (hB : keysNodup B) (q : String) :
    objGet (mergeLoop date data B).1 q =
      match objGet B q with
      | none => objGet data q
      | some l => some (stepValue date data (q, l)) := by
  induction B generalizing data with
  | nil => rfl
  | cons e rest ih =>
    obtain ⟨k, l⟩ := e
    have hnd : k ∉ objKeys rest ∧ keysNodup rest := by
      simpa [keysNodup, objKeys] using hB
    rw [mergeLoop_cons_fst]
    by_cases hk : k = q
    · subst hk
      rw [mergeLoop_get_of_not_mem date _ rest hnd.1, objGet_objSet_self]
      simp [objGet]
    · rw [ih _ hnd.2]
      have hg : objGet (objSet data k (stepValue date data (k, l))) q = objGet data q :=
        objGet_objSet_ne _ _ hk
      simp only [objGet, hk, if_false]
      cases objGet rest q with
      | none => exact hg
      | some l' => simp [stepValue_congr date hg]

end MergeContent

/-! ## Merge: deduplication -/

section Dedup

variable (date : String → Option Int)

theorem filter_uniqueNewHistory_eq_nil {m l : History} {t : String}
    (ht : t ∈ timestamps m) :
    (uniqueNewHistory m l).filter (fun x => decide (x.implementDateTime = t)) = [] := by
  rw [List.filter_eq_nil_iff]
  intro x hx
  have hx' := (mem_uniqueNewHistory.mp hx).2
  intro hxt
  apply hx'
  have : x.implementDateTime = t := by simpa using hxt
  rw [this]; exact ht

theorem filter_stepValue {data : JsObj History} {q t : String} {m : History} {r : Record}
    (hm : objGet data q = some m)
    (hr : m.filter (fun x => decide (x.implementDateTime = t)) = [r]) (l : History) :
    (stepValue date data (q, l)).filter (fun x => decide (x.implementDateTime = t)) = [r] := by
  have hmem : r ∈ m.filter (fun x => decide (x.implementDateTime = t)) := by simp [hr]
  have hrt : r.implementDateTime = t := by simpa using (List.mem_filter.mp hmem).2
  have ht : t ∈ timestamps m :=
    List.mem_map.mpr ⟨r, (List.mem_filter.mp hmem).1, hrt⟩
  have hp : ((stepValue date data (q, l)).filter
      (fun x => decide (x.implementDateTime = t))).Perm [r] := by
    simp only [stepValue, hm]
    refine ((perm_sortDesc date _).filter _).trans ?_
    rw [List.filter_append, hr, filter_uniqueNewHistory_eq_nil ht]
    simp
  exact List.perm_singleton.mp hp

theorem mergeLoop_keeps_single (data : JsObj History) (B : List (String × History))
    {q t : String} {m : History} {r : Record} (hm : objGet data q = some m)
    (hr : m.filter (fun x => decide (x.implementDateTime = t)) = [r]) :
    ∃ m', objGet (mergeLoop date data B).1 q = some m' ∧
      m'.filter (fun x => decide (x.implementDateTime = t)) = [r] := by
  induction B generalizing data m with
  | nil => exact ⟨m, hm, hr⟩
  | cons e rest ih =>
    obtain ⟨k, l⟩ := e
    rw [mergeLoop_cons_fst]
    by_cases hk : k = q
    · subst hk
      exact ih _ (objGet_objSet_self _ _ _) (filter_stepValue date hm hr l)
    · exact ih _ (by rw [objGet_objSet_ne _ _ hk]; exact hm) hr

end Dedup

/-- C2. Merge is dedup-correct.  When `D.data[q]` holds the record `r` at the timestamp
`t1` (`r` is its one record at `t1`), then for every batch `B`, in particular for one whose
list for `q` has a record at `t1` with other field values, the merged history of `q` holds
exactly one record at `t1`, and it is `r`: whatever else the batch brings at `t1` is
dropped. -/
theorem convertToHistoryJsonFormat_dedup (date : String → Option Int) (now : Clock)
    (D : HistoryJson) (B : JsObj History) (q t1 : String) (r : Record) (existing : History)
    (hD : historyOf D q = some existing)
    (hr : existing.filter (fun x => decide (x.implementDateTime = t1)) = [r]) :
    ∃ m, historyOf (convertToHistoryJsonFormat date now D B).1 q = some m ∧
      m.filter (fun x => decide (x.implementDateTime = t1)) = [r] ∧
      ∀ b, b.implementDateTime = t1 → b ≠ r → b ∉ m := by
  rw [historyOf_eq_objGet] at hD
  obtain ⟨m, hm, hf⟩ := mergeLoop_keeps_single date _ B hD hr
  refine ⟨m, hm, hf, ?_⟩
  intro b hbt hbr hbm
  have : b ∈ m.filter (fun x => decide (x.implementDateTime = t1)) :=
    List.mem_filter.mpr ⟨hbm, by simpa using hbt⟩
  rw [hf] at this
  exact hbr (List.mem_singleton.mp this)

/-- Instance of C2 on the scenario of the specification: existing `[[t1,0,0,"A",1,30]]`,
batch `[[t1,0,0,"B",0,40],[t2,0,0,"A",1,20]]` with `t2` later than `t1`; the merged
history is `[[t2,0,0,"A",1,20],[t1,0,0,"A",1,30]]`. -/
theorem convertToHistoryJsonFormat_dedup_witness :
    historyOf durableOne "ID116A001" = some [recT1A] ∧
    (∃ m, historyOf (convertToHistoryJsonFormat isoDate sampleClock durableOne
        [("ID116A001", [recT1B, recT2A])]).1 "ID116A001" = some m ∧
      m.filter (fun x => decide (x.implementDateTime = "2025-10-26T14:54:04")) = [recT1A] ∧
      ∀ b, b.implementDateTime = "2025-10-26T14:54:04" → b ≠ recT1A → b ∉ m) ∧
    historyOf (convertToHistoryJsonFormat isoDate sampleClock durableOne
        [("ID116A001", [recT1B, recT2A])]).1 "ID116A001" = some [recT2A, recT1A] :=
  ⟨by decide,
    convertToHistoryJsonFormat_dedup isoDate sampleClock durableOne
      [("ID116A001", [recT1B, recT2A])] "ID116A001" "2025-10-26T14:54:04" recT1A [recT1A]
      (by decide) (by decide),
    by decide⟩

/-! ## Merge: ordering -/

section Ordering

variable (date : String → Option Int)

theorem sorted_stepValue {data : JsObj History} {e : String × History}
    (hd : allValidDates date data) (he : validDates date e.2) :
    validDates date (stepValue date data e) ∧ sortedDescending date (stepValue date data e) := by
  refine ⟨validDates_stepValue date hd he, ?_⟩
  unfold stepValue
  cases hq : objGet data e.1 with
  | none => exact sortedDescending_sortDesc date he
  | some x =>
    apply sortedDescending_sortDesc
    intro r hr
    rcases List.mem_append.mp hr with hr | hr
    · exact hd _ (objGet_mem data hq) r hr
    · exact he r (mem_uniqueNewHistory.mp hr).1

theorem mergeLoop_keeps_sorted (data : JsObj History) (B : List (String × History))
    (hd : allValidDates date data) (hB : allValidDates date B) {q : String} {m0 : History}
    (h0 : objGet data q = some m0) (hs : sortedDescending date m0) :
    ∀ m, objGet (mergeLoop date data B).1 q = some m → sortedDescending date m := by
  induction B generalizing data m0 with
  | nil =>
    intro m hm
    have : m0 = m := Option.some.inj (h0.symm.trans hm)
    exact this ▸ hs
  | cons e rest ih =>
    have he : validDates date e.2 := hB e (List.mem_cons_self _ _)
    have hrest : allValidDates date rest := fun x hx => hB x (List.mem_cons_of_mem _ hx)
    have hd' : allValidDates date (objSet data e.1 (stepValue date data e)) :=
      allValidDates_objSet date hd (validDates_stepValue date hd he)
    rw [mergeLoop_cons_fst]
    by_cases hk : e.1 = q
    · exact ih _ hd' hrest (hk ▸ objGet_objSet_self _ _ _) (sorted_stepValue date hd he).2
    · exact ih _ hd' hrest (by rw [objGet_objSet_ne _ _ hk]; exact h0) hs

theorem mergeLoop_sorted_of_mem (data : JsObj History) (B : List (String × History))
    (hd : allValidDates date data) (hB : allValidDates date B) {q : String}
    (hq : q ∈ objKeys B) :
    ∀ m, objGet (mergeLoop date data B).1 q = some m → sortedDescending date m := by
  induction B generalizing data with
  | nil => simp [objKeys] at hq
  | cons e rest ih =>
    have he : validDates date e.2 := hB e (List.mem_cons_self _ _)
    have hrest : allValidDates date rest := fun x hx => hB x (List.mem_cons_of_mem _ hx)
    have hd' : allValidDates date (objSet data e.1 (stepValue date data e)) :=
      allValidDates_objSet date hd (validDates_stepValue date hd he)
    rw [mergeLoop_cons_fst]
    by_cases hk : e.1 = q
    · exact mergeLoop_keeps_sorted date _ rest hd' hrest (hk ▸ objGet_objSet_self _ _ _)
        (sorted_stepValue date hd he).2
    · apply ih _ hd' hrest
      have : q = e.1 ∨ q ∈ objKeys rest := by simpa [objKeys] using hq
      rcases this with h | h
      · exact absurd h.symm hk
      · exact h

theorem strictlyDescending_of_distinct {m : History} (hs : sortedDescending date m)
    (hn : distinctInstants date m) : strictlyDescending date m := by
  have hne : m.Pairwise (fun a b => timeKey date a ≠ timeKey date b) :=
    List.pairwise_map.mp hn
  refine (hs.and hne).imp ?_
  intro a b hab
  obtain ⟨h1, h2⟩ := hab
  unfold noEarlier at h1
  unfold strictlyLater
  unfold timeKey at h2
  split at h1
  · rename_i ta tb hta htb
    simp only [hta, htb, Option.getD_some] at h2
    omega
  · exact absurd h1 id

end Ordering

/-- C3, refuted as stated.  Two attempts of one second arrive in a batch
(`[t2,0,0,"A",1,20]` and `[t2,0,0,"C",0,15]`) for a question whose durable history is
`[[t1,0,0,"A",1,30]]`: the merged history keeps both, side by side, so it is not strictly
descending. -/
theorem convertToHistoryJsonFormat_ties_remain :
    historyOf (convertToHistoryJsonFormat isoDate sampleClock durableOne
        [("ID116A001", [recT2A, recT2C])]).1 "ID116A001"
      = some [recT2A, recT2C, recT1A] ∧
    ¬ strictlyDescending isoDate [recT2A, recT2C, recT1A] := by
  constructor
  · decide
  · decide

/-- C3, amended.  All timestamps of `D` and of `B` denoting dates, the merged history of
every question that occurs in the batch, and of every question whose history in `D` was in
descending order, is in descending order of date with ties allowed: every record is no
earlier than the records after it.  It is strictly descending when no two of its records
have the same instant. -/
theorem convertToHistoryJsonFormat_sorted (date : String → Option Int) (now : Clock)
    (D : HistoryJson) (B : JsObj History)
    (hD : allValidDates date (D.data.getD [])) (hB : allValidDates date B)
    (q : String) (m : History)
    (hm : historyOf (convertToHistoryJsonFormat date now D B).1 q = some m)
    (hq : q ∈ objKeys B ∨ ∃ m0, historyOf D q = some m0 ∧ sortedDescending date m0) :
    sortedDescending date m ∧ (distinctInstants date m → strictlyDescending date m) := by
  have hs : sortedDescending date m := by
    rw [historyOf_convert] at hm
    rcases hq with hq | ⟨m0, h0, hs0⟩
    · exact mergeLoop_sorted_of_mem date _ B hD hB hq m hm
    · rw [historyOf_eq_objGet] at h0
      exact mergeLoop_keeps_sorted date _ B hD hB h0 hs0 m hm
  exact ⟨hs, strictlyDescending_of_distinct date hs⟩

/-- Instance of the amended C3 on the scenario of the specification. -/
theorem convertToHistoryJsonFormat_sorted_witness :
    allValidDates isoDate (durableOne.data.getD []) ∧
    allValidDates isoDate [("ID116A001", [recT1B, recT2A])] ∧
    historyOf (convertToHistoryJsonFormat isoDate sampleClock durableOne
        [("ID116A001", [recT1B, recT2A])]).1 "ID116A001" = some [recT2A, recT1A] ∧
    "ID116A001" ∈ objKeys [("ID116A001", [recT1B, recT2A])] ∧
    sortedDescending isoDate [recT2A, recT1A] ∧
    (distinctInstants isoDate [recT2A, recT1A] → strictlyDescending isoDate [recT2A, recT1A]) :=
  have hD : allValidDates isoDate (durableOne.data.getD []) := by
    intro e he
    have : e = ("ID116A001", [recT1A]) := by simpa [durableOne] using he
    subst this
    intro r hr
    have : r = recT1A := by simpa using hr
    subst this
    decide
  have hB : allValidDates isoDate [("ID116A001", [recT1B, recT2A])] := by
    intro e he
    have : e = ("ID116A001", [recT1B, recT2A]) := by simpa using he
    subst this
    intro r hr
    have : r = recT1B ∨ r = recT2A := by simpa using hr
    rcases this with h | h <;> subst h <;> decide
  ⟨hD, hB, by decide, by decide,
    convertToHistoryJsonFormat_sorted isoDate sampleClock durableOne
      [("ID116A001", [recT1B, recT2A])] hD hB "ID116A001" [recT2A, recT1A] (by decide)
      (Or.inl (by decide))⟩

/-! ## Merge: the dedup key -/

section DedupKey

variable (date : String → Option Int)

theorem distinctTimestamps_sortDesc {l : History} (h : distinctTimestamps l) :
    distinctTimestamps (sortDesc date l) :=
  (((perm_sortDesc date l).map _).nodup_iff).mpr h

theorem distinctTimestamps_stepValue {data : JsObj History} {e : String × History}
    (hd : ∀ q m, objGet data q = some m → distinctTimestamps m)
    (he : distinctTimestamps e.2) : distinctTimestamps (stepValue date data e) := by
  unfold stepValue
  cases hq : objGet data e.1 with
  | none => exact distinctTimestamps_sortDesc date he
  | some x =>
    apply distinctTimestamps_sortDesc
    unfold distinctTimestamps timestamps
    rw [List.map_append]
    refine List.Nodup.append (hd _ _ hq) ?_ ?_
    · exact List.Nodup.sublist ((List.filter_sublist _).map _) he
    · intro t htx htu
      obtain ⟨r, hr, rfl⟩ := List.mem_map.mp htu
      exact (mem_uniqueNewHistory.mp hr).2 htx

end DedupKey

theorem durableOne_distinct :
    ∀ q m, historyOf durableOne q = some m → distinctTimestamps m := by
  intro q m hm
  by_cases hq : "ID116A001" = q
  · have : m = [recT1A] := by
      simpa [historyOf, durableOne, objGet, hq, eq_comm] using hm
    subst this
    decide
  · simp [historyOf, durableOne, objGet, hq] at hm

/-- C4, refuted as stated.  The durable history `[[t1,0,0,"A",1,30]]` has no two records
at one timestamp; the batch brings two attempts of one second; the merged history then
holds two records with the same `implementDateTime`. -/
theorem convertToHistoryJsonFormat_duplicate_key :
    (∀ q m, historyOf durableOne q = some m → distinctTimestamps m) ∧
    historyOf (convertToHistoryJsonFormat isoDate sampleClock durableOne
        [("ID116A001", [recT2A, recT2C])]).1 "ID116A001"
      = some [recT2A, recT2C, recT1A] ∧
    ¬ distinctTimestamps [recT2A, recT2C, recT1A] :=
  ⟨durableOne_distinct, by decide, by decide⟩

/-- C4, amended.  If no history of `D` has two records with the same `implementDateTime`
and no record list of the batch `B` has either, then no history of the merged dataset has
two records with the same `implementDateTime`. -/
theorem convertToHistoryJsonFormat_distinct_keys (date : String → Option Int) (now : Clock)
    (D : HistoryJson) (B : JsObj History)
    (hD : ∀ q m, historyOf D q = some m → distinctTimestamps m)
    (hB : ∀ e ∈ B, distinctTimestamps e.2) :
    ∀ q m, historyOf (convertToHistoryJsonFormat date now D B).1 q = some m →
      distinctTimestamps m := by
  intro q m hm
  rw [historyOf_convert] at hm
  refine mergeLoop_invariant date distinctTimestamps B ?_ _ ?_ q m hm
  · intro data e he hdata
    exact distinctTimestamps_stepValue date hdata (hB e he)
  · intro q' m' hm'
    exact hD q' m' (by rw [historyOf_eq_objGet]; exact hm')

/-! ## The change set against the merge -/

section ChangeSetLemmas

variable (date : String → Option Int)

theorem analyzeStep_total (D : HistoryJson) (acc : ChangeSet) (e : String × History) :
    (analyzeStep D acc e).totalNewRecords = acc.totalNewRecords + addedCount D e.1 e.2 := by
  unfold analyzeStep addedCount historyOf
  cases D.data.bind (objGet · e.1) with
  | none => rfl
  | some x =>
    by_cases h : (uniqueNewHistory x e.2).length > 0
    · simp [h]
    · have h0 : (uniqueNewHistory x e.2).length = 0 := by omega
      simp [h0]

theorem analyzeStep_added (D : HistoryJson) (acc : ChangeSet) (e : String × History) :
    (objGet (analyzeStep D acc e).addedRecords e.1 = some (addedCount D e.1 e.2)) ∨
    ((analyzeStep D acc e).addedRecords = acc.addedRecords ∧ addedCount D e.1 e.2 = 0) := by
  unfold analyzeStep addedCount historyOf
  cases D.data.bind (objGet · e.1) with
  | none => left; exact objGet_objSet_self _ _ _
  | some x =>
    by_cases h : (uniqueNewHistory x e.2).length > 0
    · left; simp only [h, if_true]; exact objGet_objSet_self _ _ _
    · right
      have h0 : (uniqueNewHistory x e.2).length = 0 := by omega
      simp [h0]

theorem analyzeStep_added_ne (D : HistoryJson) (acc : ChangeSet) (e : String × History)
    {q : String} (hq : e.1 ≠ q) :
    objGet (analyzeStep D acc e).addedRecords q = objGet acc.addedRecords q := by
  unfold analyzeStep
  cases D.data.bind (objGet · e.1) with
  | none => exact objGet_objSet_ne _ _ hq
  | some x =>
    by_cases h : (uniqueNewHistory x e.2).length > 0
    · simp only [h, if_true]; exact objGet_objSet_ne _ _ hq
    · simp [h]

theorem analyze_fold_total (D : HistoryJson) (B : List (String × History)) (acc : ChangeSet) :
    (B.foldl (analyzeStep D) acc).totalNewRecords
      = acc.totalNewRecords + (B.map fun e => addedCount D e.1 e.2).sum := by
  induction B generalizing acc with
  | nil => simp
  | cons e rest ih =>
    simp only [List.foldl_cons, List.map_cons, List.sum_cons]
    rw [ih, analyzeStep_total]
    omega

theorem analyze_fold_added (D : HistoryJson) (B : List (String × History)) (acc : ChangeSet)
    (hB : keysNodup B) (hacc : ∀ k ∈ objKeys B, objGet acc.addedRecords k = none)
    (q : String) :
    (objGet (B.foldl (analyzeStep D) acc).addedRecords q).getD 0 =
      match objGet B q with
      | some l => addedCount D q l
      | none => (objGet acc.addedRecords q).getD 0 := by
  induction B generalizing acc with
  | nil => rfl
  | cons e rest ih =>
    obtain ⟨k, l⟩ := e
    have hnd : k ∉ objKeys rest ∧ keysNodup rest := by
      simpa [keysNodup, objKeys] using hB
    have hacc' : ∀ k' ∈ objKeys rest,
        objGet (analyzeStep D acc (k, l)).addedRecords k' = none := by
      intro k' hk'
      have hne : k ≠ k' := fun h => hnd.1 (h ▸ hk')
      rw [analyzeStep_added_ne D acc (k, l) hne]
      apply hacc
      simp only [objKeys] at hk'
      simp [objKeys, hk']
    rw [List.foldl_cons, ih _ hnd.2 hacc']
    by_cases hk : k = q
    · subst hk
      have hr : objGet rest k = none := (objGet_eq_none_iff rest k).mpr hnd.1
      simp only [hr, objGet, if_true]
      rcases analyzeStep_added D acc (k, l) with h | ⟨h1, h2⟩
      · rw [h]; rfl
      · rw [h1, hacc k (by simp [objKeys]), h2]; rfl
    · simp only [objGet, hk, if_false]
      rw [analyzeStep_added_ne D acc (k, l) hk]

theorem countP_not_mem_self (x : History) :
    x.countP (fun r => decide (r ∉ x)) = 0 := by
  rw [List.countP_eq_zero]
  intro r hr
  simpa using hr

theorem countP_uniqueNewHistory (x l : History) :
    (uniqueNewHistory x l).countP (fun r => decide (r ∉ x)) = (uniqueNewHistory x l).length := by
  rw [List.countP_eq_length]
  intro r hr
  have h := (mem_uniqueNewHistory.mp hr).2
  have : r ∉ x := fun hx => h (List.mem_map_of_mem _ hx)
  simpa using this

theorem newRecordCount_eq (now : Clock) (D : HistoryJson) (B : JsObj History)
    (hB : keysNodup B) (q : String) :
    newRecordCount D (convertToHistoryJsonFormat date now D B).1 q =
      match objGet B q with
      | some l => addedCount D q l
      | none => 0 := by
  unfold newRecordCount
  rw [historyOf_convert, mergeLoop_get date _ B hB q]
  cases hq : objGet B q with
  | none =>
    simp only
    rw [← historyOf_eq_objGet]
    exact countP_not_mem_self _
  | some l =>
    simp only [Option.getD_some, addedCount, stepValue]
    rw [← historyOf_eq_objGet]
    cases hx : historyOf D q with
    | none =>
      simp only [Option.getD_none]
      rw [List.countP_eq_length.mpr (by simp)]
      exact length_sortDesc date l
    | some x =>
      simp only [Option.getD_some]
      rw [(perm_sortDesc date _).countP_eq, List.countP_append, countP_not_mem_self,
        countP_uniqueNewHistory, Nat.zero_add]

theorem keysNodup_objSet {β : Type} (o : JsObj β) (k : String) (v : β) (h : keysNodup o) :
    keysNodup (objSet o k v) := by
  unfold keysNodup at *
  by_cases hk : k ∈ objKeys o
  · rw [objKeys_objSet_of_mem o v hk]; exact h
  · rw [objKeys_objSet_of_not_mem o v hk]
    exact List.Nodup.append h (List.nodup_singleton k) (by simpa using hk)

theorem keysNodup_mergeLoop (data : JsObj History) (B : List (String × History))
    (h : keysNodup data) : keysNodup (mergeLoop date data B).1 := by
  induction B generalizing data with
  | nil => exact h
  | cons e rest ih =>
    rw [mergeLoop_cons_fst]
    exact ih _ (keysNodup_objSet _ _ _ h)

theorem mem_keys_mergeLoop (data : JsObj History) (B : List (String × History))
    (hB : keysNodup B) {q : String} (hq : q ∈ objKeys B) :
    q ∈ objKeys (mergeLoop date data B).1 := by
  rw [← objGet_isSome_iff, mergeLoop_get date data B hB q]
  obtain ⟨l, hl⟩ := Option.isSome_iff_exists.mp ((objGet_isSome_iff B q).mpr hq)
  simp [hl]

theorem objGet_of_mem_nodup {β : Type} (o : JsObj β) (h : keysNodup o) {e : String × β}
    (he : e ∈ o) : objGet o e.1 = some e.2 := by
  induction o with
  | nil => simp at he
  | cons e' rest ih =>
    obtain ⟨k', v'⟩ := e'
    have hnd : k' ∉ objKeys rest ∧ keysNodup rest := by
      simpa [keysNodup, objKeys] using h
    rcases List.mem_cons.mp he with he | he
    · subst he; simp [objGet]
    · have hne : k' ≠ e.1 := by
        intro hk
        apply hnd.1
        rw [hk]
        exact List.mem_map_of_mem _ he
      simp only [objGet, hne, if_false]
      exact ih hnd.2 he

theorem sum_over_keys (B : JsObj History) (hB : keysNodup B) (keys : List String)
    (hk : keys.Nodup) (hsub : ∀ q ∈ objKeys B, q ∈ keys) (f : String → History → Nat) :
    (keys.map fun q => match objGet B q with
        | some l => f q l
        | none => 0).sum = (B.map fun e => f e.1 e.2).sum := by
  have h1 : (keys.map fun q => match objGet B q with
        | some l => f q l
        | none => 0).sum
      = ∑ q in keys.toFinset, (match objGet B q with
        | some l => f q l
        | none => 0) := (List.sum_toFinset _ hk).symm
  have h2 : (B.map fun e => f e.1 e.2).sum
      = ((objKeys B).map fun q => match objGet B q with
        | some l => f q l
        | none => 0).sum := by
    unfold objKeys
    rw [List.map_map]
    congr 1
    apply List.map_congr_left
    intro e he
    simp [objGet_of_mem_nodup B hB he]
  have h3 : ((objKeys B).map fun q => match objGet B q with
        | some l => f q l
        | none => 0).sum
      = ∑ q in (objKeys B).toFinset, (match objGet B q with
        | some l => f q l
        | none => 0) := (List.sum_toFinset _ hB).symm
  rw [h1, h2, h3]
  symm
  apply Finset.sum_subset
  · intro q hq
    exact List.mem_toFinset.mpr (hsub q (List.mem_toFinset.mp hq))
  · intro q _ hq
    have : q ∉ objKeys B := fun h => hq (List.mem_toFinset.mpr h)
    rw [(objGet_eq_none_iff B q).mpr this]

end ChangeSetLemmas

/-- C5. The change-set total matches the merge delta.  For a durable dataset `D` and a
batch `B` (objects, so with pairwise distinct keys) `totalNewRecords` is the number of
records that are in the merged history of `q` and not in `D.data[q]`, summed over the
question ids `q` of the merged dataset; for each `q` that number is `addedRecords[q]`,
read as 0 when `addedRecords` has no entry for `q`. -/
theorem analyzeHistoryChanges_total_eq_delta (date : String → Option Int) (now : Clock)
    (D : HistoryJson) (B : JsObj History)
    (hD : keysNodup (D.data.getD [])) (hB : keysNodup B) :
    (analyzeHistoryChanges D B).totalNewRecords
      = ((questionIds (convertToHistoryJsonFormat date now D B).1).map
          (newRecordCount D (convertToHistoryJsonFormat date now D B).1)).sum ∧
    ∀ q, newRecordCount D (convertToHistoryJsonFormat date now D B).1 q
      = (objGet (analyzeHistoryChanges D B).addedRecords q).getD 0 := by
  constructor
  · have ht := analyze_fold_total D B
      { newQuestions := [], updatedQuestions := [], addedRecords := [], totalNewRecords := 0 }
    unfold analyzeHistoryChanges
    rw [ht]
    have hfun : newRecordCount D (convertToHistoryJsonFormat date now D B).1
        = fun q => match objGet B q with
          | some l => addedCount D q l
          | none => 0 := funext (newRecordCount_eq date now D B hB)
    rw [hfun]
    have hs := sum_over_keys B hB (questionIds (convertToHistoryJsonFormat date now D B).1)
      (keysNodup_mergeLoop date _ B hD)
      (fun q hq => mem_keys_mergeLoop date _ B hB hq) (addedCount D)
    rw [hs]
    simp
  · intro q
    rw [newRecordCount_eq date now D B hB q]
    unfold analyzeHistoryChanges
    rw [analyze_fold_added D B
      { newQuestions := [], updatedQuestions := [], addedRecords := [], totalNewRecords := 0 }
      hB (fun k _ => rfl) q]
    cases objGet B q <;> rfl

/-- Instance of C5 on the scenario of the specification: one record is added to
`ID116A001`, and the total is 1. -/
theorem analyzeHistoryChanges_total_eq_delta_witness :
    keysNodup (durableOne.data.getD []) ∧
    keysNodup [("ID116A001", [recT1B, recT2A])] ∧
    (analyzeHistoryChanges durableOne [("ID116A001", [recT1B, recT2A])]).totalNewRecords = 1 ∧
    ((analyzeHistoryChanges durableOne [("ID116A001", [recT1B, recT2A])]).totalNewRecords
      = ((questionIds (convertToHistoryJsonFormat isoDate sampleClock durableOne
            [("ID116A001", [recT1B, recT2A])]).1).map
          (newRecordCount durableOne (convertToHistoryJsonFormat isoDate sampleClock durableOne
            [("ID116A001", [recT1B, recT2A])]).1)).sum ∧
    ∀ q, newRecordCount durableOne (convertToHistoryJsonFormat isoDate sampleClock durableOne
            [("ID116A001", [recT1B, recT2A])]).1 q
      = (objGet (analyzeHistoryChanges durableOne
            [("ID116A001", [recT1B, recT2A])]).addedRecords q).getD 0) :=
  ⟨by decide, by decide, by decide,
    analyzeHistoryChanges_total_eq_delta isoDate sampleClock durableOne
      [("ID116A001", [recT1B, recT2A])] (by decide) (by decide)⟩

/-- Instance of the amended C4 on the scenario of the specification: the batch
`[[t1,0,0,"B",0,40],[t2,0,0,"A",1,20]]` has no two records at one timestamp, and neither
has the merged history `[[t2,0,0,"A",1,20],[t1,0,0,"A",1,30]]`. -/
theorem convertToHistoryJsonFormat_distinct_keys_witness :
    (∀ q m, historyOf durableOne q = some m → distinctTimestamps m) ∧
    (∀ e ∈ [("ID116A001", [recT1B, recT2A])], distinctTimestamps e.2) ∧
    historyOf (convertToHistoryJsonFormat isoDate sampleClock durableOne
        [("ID116A001", [recT1B, recT2A])]).1 "ID116A001" = some [recT2A, recT1A] ∧
    distinctTimestamps [recT2A, recT1A] :=
  have hB : ∀ e ∈ [("ID116A001", [recT1B, recT2A])], distinctTimestamps e.2 := by
    intro e he
    have : e = ("ID116A001", [recT1B, recT2A]) := by simpa using he
    subst this
    decide
  ⟨durableOne_distinct, hB, by decide,
    convertToHistoryJsonFormat_distinct_keys isoDate sampleClock durableOne
      [("ID116A001", [recT1B, recT2A])] durableOne_distinct hB "ID116A001"
      [recT2A, recT1A] (by decide)⟩

/-- C6. Merge loses no data.  For a question `q` present in `D` and in the batch `B` (an
object, so with pairwise distinct keys) the merged history of `q` is a permutation of
`D.data[q] ++ uniqueNew`, where `uniqueNew` is the sub-list of `B[q]` whose
`implementDateTime` does not occur in `D.data[q]`; every record of `D.data[q]` is still
there. -/
theorem convertToHistoryJsonFormat_no_loss (date : String → Option Int) (now : Clock)
    (D : HistoryJson) (B : JsObj History) (q : String) (existing newHistory : History)
    (hB : keysNodup B) (hD : historyOf D q = some existing)
    (hq : objGet B q = some newHistory) :
    ∃ m, historyOf (convertToHistoryJsonFormat date now D B).1 q = some m ∧
      m.Perm (existing ++ uniqueNewHistory existing newHistory) ∧
      ∀ r ∈ existing, r ∈ m := by
  rw [historyOf_eq_objGet] at hD
  refine ⟨sortDesc date (existing ++ uniqueNewHistory existing newHistory), ?_,
    perm_sortDesc date _, ?_⟩
  · rw [historyOf_convert, mergeLoop_get date _ B hB q, hq]
    simp [stepValue, hD]
  · intro r hr
    exact (mem_sortDesc date).mpr (List.mem_append_left _ hr)

/-- Instance of C6 on the scenario of the specification. -/
theorem convertToHistoryJsonFormat_no_loss_witness :
    keysNodup [("ID116A001", [recT1B, recT2A])] ∧
    historyOf durableOne "ID116A001" = some [recT1A] ∧
    objGet [("ID116A001", [recT1B, recT2A])] "ID116A001" = some [recT1B, recT2A] ∧
    uniqueNewHistory [recT1A] [recT1B, recT2A] = [recT2A] ∧
    ∃ m, historyOf (convertToHistoryJsonFormat isoDate sampleClock durableOne
        [("ID116A001", [recT1B, recT2A])]).1 "ID116A001" = some m ∧
      m.Perm ([recT1A] ++ uniqueNewHistory [recT1A] [recT1B, recT2A]) ∧
      ∀ r ∈ [recT1A], r ∈ m :=
  ⟨by decide, by decide, by decide, by decide,
    convertToHistoryJsonFormat_no_loss isoDate sampleClock durableOne
      [("ID116A001", [recT1B, recT2A])] "ID116A001" [recT1A] [recT1B, recT2A]
      (by decide) (by decide) (by decide)⟩

/-- C7, the serializer at a user name with double quotes.  The user is written between
double quotes as it is, unlike the columns and the records, which go through
`JSON.stringify`: the text for the user `Taro "T" Yamada` is not JSON.  Moreover two
different datasets have the same text, so no parser gives back every dataset. -/
theorem formatHistoryJson_user_not_escaped :
    formatHistoryJson quotedUser = some
      ("\x7b\n  \"ユーザ\": \"Taro \"T\" Yamada\",\n  \"最終更新\": \"2025-10-26T15:00:00\",\n"
        ++ "  \"columns\": [\"実施日時\",\"学習区分\",\"確信度\",\"解答\",\"正誤\",\"実施時間\"],\n"
        ++ "  \"data\": \x7b\n    \"ID116A001\": [[\"2025-10-26T14:54:04\",0,0,\"A\",1,30]]\n"
        ++ "  \x7d\n\x7d") ∧
    spliceInUser ≠ spliceInTimestamp ∧
    formatHistoryJson spliceInUser = formatHistoryJson spliceInTimestamp := by
  refine ⟨by rfl, by decide, by decide⟩

/-- C8, the batch after a merge.  For a question that `D` does not have, the merge takes
the batch's own array and sorts it in place: the caller's batch
`[[t1,0,0,"A",1,30],[t2,0,0,"A",1,20]]` has become `[[t2,0,0,"A",1,20],[t1,0,0,"A",1,30]]`
when the call returns. -/
theorem convertToHistoryJsonFormat_mutates_batch :
    (convertToHistoryJsonFormat isoDate sampleClock fallbackHistoryJson ascendingBatch).2
      = [("ID116A001", [recT2A, recT1A])] ∧
    (convertToHistoryJsonFormat isoDate sampleClock fallbackHistoryJson ascendingBatch).2
      ≠ ascendingBatch := by
  constructor <;> decide

/-- C9. Untouched questions pass through.  A question `q` that `D.data` has and the batch
`B` has not keeps its history in the merged dataset: the same records in the same
order. -/
theorem convertToHistoryJsonFormat_untouched (date : String → Option Int) (now : Clock)
    (D : HistoryJson) (B : JsObj History) (q : String) (existing : History)
    (hD : historyOf D q = some existing) (hq : q ∉ objKeys B) :
    historyOf (convertToHistoryJsonFormat date now D B).1 q = some existing := by
  rw [historyOf_convert, mergeLoop_get_of_not_mem date _ B hq, ← historyOf_eq_objGet]
  exact hD

/-- Instance of C9: the batch is about `ID116A002`, the history of `ID116A001` stays. -/
theorem convertToHistoryJsonFormat_untouched_witness :
    historyOf durableOne "ID116A001" = some [recT1A] ∧
    "ID116A001" ∉ objKeys [("ID116A002", [recT2A, recT2C])] ∧
    historyOf (convertToHistoryJsonFormat isoDate sampleClock durableOne
        [("ID116A002", [recT2A, recT2C])]).1 "ID116A001" = some [recT1A] :=
  ⟨by decide, by decide,
    convertToHistoryJsonFormat_untouched isoDate sampleClock durableOne
      [("ID116A002", [recT2A, recT2C])] "ID116A001" [recT1A] (by decide) (by decide)⟩

/-! ## Merge into the fallback dataset -/

section Fallback

variable (date : String → Option Int)

theorem objSet_of_not_mem {β : Type} (o : JsObj β) {k : String} (v : β)
    (h : k ∉ objKeys o) : objSet o k v = o ++ [(k, v)] := by
  induction o with
  | nil => rfl
  | cons e rest ih =>
    obtain ⟨k', v'⟩ := e
    have hk : ¬ k' = k := by
      intro hk; apply h; simp [objKeys, hk]
    have hr : k ∉ objKeys rest := by
      intro hr; apply h; simp only [objKeys] at hr; simp [objKeys, hr]
    simp [objSet, hk, ih hr]

theorem mergeLoop_fresh (data : JsObj History) (B : List (String × History))
    (hB : keysNodup B) (hdis : ∀ k ∈ objKeys B, k ∉ objKeys data) :
    (mergeLoop date data B).1 = data ++ B.map fun e => (e.1, sortDesc date e.2) := by
  induction B generalizing data with
  | nil => simp [mergeLoop]
  | cons e rest ih =>
    obtain ⟨k, l⟩ := e
    have hnd : k ∉ objKeys rest ∧ keysNodup rest := by
      simpa [keysNodup, objKeys] using hB
    have hk : k ∉ objKeys data := hdis k (by simp [objKeys])
    have hnone : objGet data k = none := (objGet_eq_none_iff data k).mpr hk
    have hstep : stepValue date data (k, l) = sortDesc date l := by
      simp [stepValue, hnone]
    rw [mergeLoop_cons_fst, hstep, objSet_of_not_mem data _ hk, ih _ hnd.2]
    · simp
    · intro k' hk' hmem
      have hmem' : k' ∈ objKeys data ∨ k' = k := by
        simpa [objKeys] using hmem
      rcases hmem' with h | h
      · exact hdis k' (by simp only [objKeys] at hk'; simp [objKeys, hk']) h
      · exact hnd.1 (h ▸ hk')

end Fallback

/-- C10. Degenerate merge.  When `history.json` could not be loaded, `updateHistoryFile`
merges into the fallback dataset (`data = {}` and the default columns).  The merge is a
total function, and for every batch `B` (an object, so with pairwise distinct keys) the
batch becomes the whole dataset: the result has exactly the question ids of `B`, in the
order of `B`, each with the record list of `B` put in order by the sort, a permutation of
that list which is in descending order of date when its timestamps denote dates; the
columns are the six default labels. -/
theorem convertToHistoryJsonFormat_fallback (date : String → Option Int) (now : Clock)
    (B : JsObj History) (hB : keysNodup B) :
    (convertToHistoryJsonFormat date now fallbackHistoryJson B).1.columns
        = some defaultColumns ∧
    defaultColumns.length = 6 ∧
    (convertToHistoryJsonFormat date now fallbackHistoryJson B).1.data
        = some (B.map fun e => (e.1, sortDesc date e.2)) ∧
    questionIds (convertToHistoryJsonFormat date now fallbackHistoryJson B).1 = objKeys B ∧
    ∀ q l, objGet B q = some l →
      historyOf (convertToHistoryJsonFormat date now fallbackHistoryJson B).1 q
          = some (sortDesc date l) ∧
      (sortDesc date l).Perm l ∧
      (validDates date l → sortedDescending date (sortDesc date l)) := by
  have hdata : (mergeLoop date [] B).1 = B.map fun e => (e.1, sortDesc date e.2) := by
    rw [mergeLoop_fresh date [] B hB (fun k _ => by simp [objKeys])]
    simp
  refine ⟨rfl, rfl, ?_, ?_, ?_⟩
  · simp only [convertToHistoryJsonFormat, jsonClone, fallbackHistoryJson, Option.getD_some]
    rw [hdata]
  · simp only [questionIds, convertToHistoryJsonFormat, jsonClone, fallbackHistoryJson,
      Option.getD_some]
    rw [hdata]
    simp [objKeys, List.map_map, Function.comp_def]
  · intro q l hq
    refine ⟨?_, perm_sortDesc date l, sortedDescending_sortDesc date⟩
    rw [historyOf_convert, mergeLoop_get date _ B hB q, hq]
    simp [stepValue, fallbackHistoryJson, objGet]

/-- Instance of C10 on the scenario of the specification: the durable dataset is absent,
the batch is `ID116A001: [[t1,0,0,"A",1,30]]`, and the merged dataset holds that one
record for `ID116A001`. -/
theorem convertToHistoryJsonFormat_fallback_witness :
    keysNodup [("ID116A001", [recT1A])] ∧
    (convertToHistoryJsonFormat isoDate sampleClock fallbackHistoryJson
        [("ID116A001", [recT1A])]).1.data = some [("ID116A001", [recT1A])] ∧
    historyOf (convertToHistoryJsonFormat isoDate sampleClock fallbackHistoryJson
        [("ID116A001", [recT1A])]).1 "ID116A001" = some [recT1A] ∧
    (convertToHistoryJsonFormat isoDate sampleClock fallbackHistoryJson
        [("ID116A001", [recT1A])]).1.columns = some defaultColumns :=
  ⟨by decide, by decide, by decide,
    (convertToHistoryJsonFormat_fallback isoDate sampleClock [("ID116A001", [recT1A])]
      (by decide)).1⟩

/-! ## The identifier normalizer -/

section CharLemmas

theorem toNat_of_isDigit {c : Char} (h : isDigit c = true) : 48 ≤ c.toNat ∧ c.toNat ≤ 57 := by
  simpa [isDigit] using h

theorem toNat_of_isUpperAZ {c : Char} (h : isUpperAZ c = true) :
    65 ≤ c.toNat ∧ c.toNat ≤ 90 := by
  simpa [isUpperAZ] using h

theorem isDigit_facts {c : Char} (h : isDigit c = true) :
    c.toNat < 128 ∧ isLowerAZ c = false ∧ isUpperAZ c = false ∧ isWhiteSpace c = false ∧
      c ≠ '-' ∧ c ≠ 'I' := by
  have hc := toNat_of_isDigit h
  refine ⟨by omega, ?_, ?_, ?_, ?_, ?_⟩
  · simp [isLowerAZ]; omega
  · simp [isUpperAZ]; omega
  · simp [isWhiteSpace]; omega
  · rintro rfl; exact absurd h (by decide)
  · rintro rfl; exact absurd h (by decide)

theorem isUpperAZ_facts {c : Char} (h : isUpperAZ c = true) :
    c.toNat < 128 ∧ isLowerAZ c = false ∧ isDigit c = false ∧ isWhiteSpace c = false ∧
      c ≠ '-' := by
  have hc := toNat_of_isUpperAZ h
  refine ⟨by omega, ?_, ?_, ?_, ?_⟩
  · simp [isLowerAZ]; omega
  · simp [isDigit]; omega
  · simp [isWhiteSpace]; omega
  · rintro rfl; exact absurd h (by decide)

theorem asciiUpper_of_lower {c : Char} (h : isLowerAZ c = true) :
    isUpperAZ (asciiUpper c) = true ∧ c.toNat < 128 := by
  have hc : 97 ≤ c.toNat ∧ c.toNat ≤ 122 := by simpa [isLowerAZ] using h
  obtain ⟨h1, h2⟩ := hc
  refine ⟨?_, by omega⟩
  simp only [asciiUpper, h, if_true]
  interval_cases hn : c.toNat <;> decide

theorem asciiUpper_of_not_lower {c : Char} (h : isLowerAZ c = false) : asciiUpper c = c := by
  simp [asciiUpper, h]

theorem upperChar_digit (upper : Char → List Char) {c : Char} (h : isDigit c = true) :
    upperChar upper c = [c] := by
  obtain ⟨h1, h2, -⟩ := isDigit_facts h
  simp [upperChar, h1, asciiUpper_of_not_lower h2]

theorem upperChar_letter (upper : Char → List Char) {c : Char}
    (h : isUpperAZ c = true ∨ isLowerAZ c = true) :
    upperChar upper c = [asciiUpper c] := by
  have : c.toNat < 128 := by
    rcases h with h | h
    · exact (isUpperAZ_facts h).1
    · exact (asciiUpper_of_lower h).2
  simp [upperChar, this]

theorem isUpperAZ_asciiUpper {c : Char} (h : isUpperAZ c = true ∨ isLowerAZ c = true) :
    isUpperAZ (asciiUpper c) = true := by
  rcases h with h | h
  · rw [asciiUpper_of_not_lower (isUpperAZ_facts h).2.1]; exact h
  · exact (asciiUpper_of_lower h).1

theorem upperChar_hyphen (upper : Char → List Char) : upperChar upper '-' = ['-'] := by
  simp [upperChar]; decide

theorem upperChar_I (upper : Char → List Char) : upperChar upper 'I' = ['I'] := by
  simp [upperChar]; decide

theorem upperChar_D (upper : Char → List Char) : upperChar upper 'D' = ['D'] := by
  simp [upperChar]; decide

end CharLemmas

section TrimLemmas

theorem dropWhile_append_of_all (p : Char → Bool) (ws rest : List Char)
    (h : ∀ c ∈ ws, p c = true) : (ws ++ rest).dropWhile p = rest.dropWhile p := by
  induction ws with
  | nil => rfl
  | cons c ws ih =>
    have hc : p c = true := h c (List.mem_cons_self _ _)
    simp only [List.cons_append, List.dropWhile_cons, hc, if_true]
    exact ih fun x hx => h x (List.mem_cons_of_mem _ hx)

theorem trim_surrounded (ws1 ws2 core : List Char) (a z : Char)
    (hws1 : ∀ c ∈ ws1, isWhiteSpace c = true) (hws2 : ∀ c ∈ ws2, isWhiteSpace c = true)
    (hhead : core.head? = some a) (hlast : core.getLast? = some z)
    (ha : isWhiteSpace a = false) (hz : isWhiteSpace z = false) :
    trim (ws1 ++ (core ++ ws2)) = core := by
  unfold trim
  rw [dropWhile_append_of_all _ ws1 _ hws1]
  have h1 : (core ++ ws2).dropWhile isWhiteSpace = core ++ ws2 := by
    cases core with
    | nil => simp at hhead
    | cons c cs =>
      have : c = a := by simpa using hhead
      subst this
      simp [List.dropWhile_cons, ha]
  rw [h1, List.reverse_append,
    dropWhile_append_of_all _ ws2.reverse _ (fun c hc => hws2 c (List.mem_reverse.mp hc))]
  have h2 : core.reverse.dropWhile isWhiteSpace = core.reverse := by
    have hr : core.reverse.head? = some z := by rw [List.head?_reverse]; exact hlast
    cases hcr : core.reverse with
    | nil => rw [hcr] at hr; simp at hr
    | cons c cs =>
      rw [hcr] at hr
      have : c = z := by simpa using hr
      subst this
      simp [List.dropWhile_cons, hz]
  rw [h2, List.reverse_reverse]

end TrimLemmas


section NormalizeLemmas

variable (upper : Char → List Char)

theorem list_of_length_le_three {S : List Char} (h1 : 1 ≤ S.length) (h3 : S.length ≤ 3) :
    (∃ x, S = [x]) ∨ (∃ x y, S = [x, y]) ∨ (∃ x y z, S = [x, y, z]) := by
  match S, h1, h3 with
  | [x], _, _ => exact Or.inl ⟨x, rfl⟩
  | [x, y], _, _ => exact Or.inr (Or.inl ⟨x, y, rfl⟩)
  | [x, y, z], _, _ => exact Or.inr (Or.inr ⟨x, y, z, rfl⟩)
  | _ :: _ :: _ :: _ :: _, _, h => simp at h

theorem normalize_hyphenated_cleaned {a b c U : Char} {S : List Char}
    (ha : isDigit a = true) (hb : isDigit b = true) (hc : isDigit c = true)
    (hU : isUpperAZ U = true) (h1 : 1 ≤ S.length) (h3 : S.length ≤ 3)
    (hS : ∀ d ∈ S, isDigit d = true) :
    isCanonicalId ([a, b, c, U, '-'] ++ S) = false ∧
    patterns.findSome? (fun pattern => pattern ([a, b, c, U, '-'] ++ S))
      = some ([a, b, c], U, S) := by
  have hall : S.all isDigit = true := List.all_eq_true.mpr hS
  constructor
  · rcases list_of_length_le_three h1 h3 with ⟨x, rfl⟩ | ⟨x, y, rfl⟩ | ⟨x, y, z, rfl⟩ <;> rfl
  · simp [patterns, List.findSome?, matchHyphenated, ha, hb, hc, hU, h1, h3, hall]

theorem normalize_unhyphenated_cleaned {a b c U : Char} {S : List Char}
    (ha : isDigit a = true) (hb : isDigit b = true) (hc : isDigit c = true)
    (hU : isUpperAZ U = true) (h1 : 1 ≤ S.length) (h3 : S.length ≤ 3)
    (hS : ∀ d ∈ S, isDigit d = true) :
    isCanonicalId ([a, b, c, U] ++ S) = false ∧
    patterns.findSome? (fun pattern => pattern ([a, b, c, U] ++ S))
      = some ([a, b, c], U, S) := by
  have hall : S.all isDigit = true := List.all_eq_true.mpr hS
  constructor
  · rcases list_of_length_le_three h1 h3 with ⟨x, rfl⟩ | ⟨x, y, rfl⟩ | ⟨x, y, z, rfl⟩ <;> rfl
  · rcases list_of_length_le_three h1 h3 with ⟨x, rfl⟩ | ⟨x, y, rfl⟩ | ⟨x, y, z, rfl⟩
    · have hx : isDigit x = true := hS x (by simp)
      have hx' := (isDigit_facts hx).2.2.2.2.1
      simp [patterns, List.findSome?, matchHyphenated, matchUnhyphenated, ha, hb, hc, hU, hx]
    · have hx : isDigit x = true := hS x (by simp)
      have hy : isDigit y = true := hS y (by simp)
      have hx' := (isDigit_facts hx).2.2.2.2.1
      simp [patterns, List.findSome?, matchHyphenated, matchUnhyphenated, ha, hb, hc, hU, hx,
        hy, hx']
    · have hx : isDigit x = true := hS x (by simp)
      have hy : isDigit y = true := hS y (by simp)
      have hz : isDigit z = true := hS z (by simp)
      have hx' := (isDigit_facts hx).2.2.2.2.1
      simp [patterns, List.findSome?, matchHyphenated, matchUnhyphenated, ha, hb, hc, hU, hx,
        hy, hz, hx']

theorem toUpperCase_cons (c : Char) (s : List Char) :
    toUpperCase upper (c :: s) = upperChar upper c ++ toUpperCase upper s := by
  simp [toUpperCase]

theorem toUpperCase_digits {S : List Char} (hS : ∀ d ∈ S, isDigit d = true) :
    toUpperCase upper S = S := by
  induction S with
  | nil => rfl
  | cons d S ih =>
    rw [toUpperCase_cons, upperChar_digit upper (hS d (List.mem_cons_self _ _)),
      ih fun x hx => hS x (List.mem_cons_of_mem _ hx)]
    rfl

theorem padStart_digits {S : List Char} (hS : ∀ d ∈ S, isDigit d = true) :
    ∀ d ∈ padStart 3 '0' S, isDigit d = true := by
  intro d hd
  rcases List.mem_append.mp hd with h | h
  · rw [(List.mem_replicate.mp h).2]; decide
  · exact hS d h

theorem padStart_length_three {S : List Char} (h1 : 1 ≤ S.length) (h3 : S.length ≤ 3) :
    (padStart 3 '0' S).length = 3 := by
  simp [padStart]; omega

theorem padStart_of_length_three {S : List Char} (h : S.length = 3) :
    padStart 3 '0' S = S := by
  simp [padStart, h]

theorem getLast?_of_digits {S : List Char} (h1 : 1 ≤ S.length)
    (hS : ∀ d ∈ S, isDigit d = true) (front : List Char) :
    ∃ z, (front ++ S).getLast? = some z ∧ isWhiteSpace z = false := by
  have hne : S ≠ [] := by
    intro h; rw [h] at h1; simp at h1
  refine ⟨S.getLast hne, ?_, ?_⟩
  · rw [List.getLast?_append_of_ne_nil _ hne, List.getLast?_eq_getLast _ hne]
  · exact (isDigit_facts (hS _ (List.getLast_mem hne))).2.2.2.1

end NormalizeLemmas


section NormalizeMain

variable (upper : Char → List Char)

theorem normalizeQuestionId_of_cleaned {input : String} {cleaned : List Char}
    (h : toUpperCase upper (trim input.data) = cleaned) :
    normalizeQuestionId upper input =
      if isCanonicalId cleaned then some (String.mk cleaned)
      else
        match patterns.findSome? (fun pattern => pattern cleaned) with
        | some (num, letter, subNum) =>
          some (String.mk
            ('I' :: 'D' :: (padStart 3 '0' num ++ letter :: padStart 3 '0' subNum)))
        | none => none := by
  subst h
  rfl

theorem isCanonicalId_of_parts {a b c U : Char} {T : List Char}
    (ha : isDigit a = true) (hb : isDigit b = true) (hc : isDigit c = true)
    (hU : isUpperAZ U = true) (hT : T.length = 3) (hTd : ∀ d ∈ T, isDigit d = true) :
    isCanonicalId ('I' :: 'D' :: a :: b :: c :: U :: T) = true := by
  match T, hT, hTd with
  | [x, y, z], _, h =>
    have hx : isDigit x = true := h x (by simp)
    have hy : isDigit y = true := h y (by simp)
    have hz : isDigit z = true := h z (by simp)
    simp [isCanonicalId, ha, hb, hc, hU, hx, hy, hz]

end NormalizeMain

/-- C11. Normalization is shape-independent.  For a three-digit exam number `a b c`, a
letter `L` in either case and a sub-number `S` of one to three digits, with any white space
around, `normalizeQuestionId` gives the same canonical id, `ID`, the exam number, the
capital of `L` and `S` padded with zeros to three digits, for the hyphenated shape, for the
shape without hyphen and for the canonical shape itself. -/
theorem normalizeQuestionId_shape_independent (upper : Char → List Char)
    (a b c L : Char) (S ws1 ws2 : List Char)
    (ha : isDigit a = true) (hb : isDigit b = true) (hc : isDigit c = true)
    (hL : isUpperAZ L = true ∨ isLowerAZ L = true)
    (h1 : 1 ≤ S.length) (h3 : S.length ≤ 3) (hS : ∀ d ∈ S, isDigit d = true)
    (hws1 : ∀ w ∈ ws1, isWhiteSpace w = true) (hws2 : ∀ w ∈ ws2, isWhiteSpace w = true) :
    normalizeQuestionId upper (String.mk (ws1 ++ ([a, b, c, L, '-'] ++ S ++ ws2)))
      = some (String.mk ('I' :: 'D' :: a :: b :: c :: asciiUpper L :: padStart 3 '0' S)) ∧
    normalizeQuestionId upper (String.mk (ws1 ++ ([a, b, c, L] ++ S ++ ws2)))
      = some (String.mk ('I' :: 'D' :: a :: b :: c :: asciiUpper L :: padStart 3 '0' S)) ∧
    normalizeQuestionId upper
        (String.mk (ws1 ++ ('I' :: 'D' :: a :: b :: c :: L :: padStart 3 '0' S ++ ws2)))
      = some (String.mk ('I' :: 'D' :: a :: b :: c :: asciiUpper L :: padStart 3 '0' S)) := by
  have hU := isUpperAZ_asciiUpper hL
  have hna : isWhiteSpace a = false := (isDigit_facts ha).2.2.2.1
  have hpad : padStart 3 '0' [a, b, c] = [a, b, c] := rfl
  refine ⟨?_, ?_, ?_⟩
  · obtain ⟨z, hz, hzw⟩ := getLast?_of_digits h1 hS [a, b, c, L, '-']
    have hclean : toUpperCase upper
        (trim (String.mk (ws1 ++ ([a, b, c, L, '-'] ++ S ++ ws2))).data)
        = [a, b, c, asciiUpper L, '-'] ++ S := by
      rw [show (String.mk (ws1 ++ ([a, b, c, L, '-'] ++ S ++ ws2))).data
        = ws1 ++ (([a, b, c, L, '-'] ++ S) ++ ws2) from rfl,
        trim_surrounded ws1 ws2 ([a, b, c, L, '-'] ++ S) a z hws1 hws2 rfl hz hna hzw]
      simp only [List.cons_append, List.nil_append, toUpperCase_cons, upperChar_digit upper ha,
        upperChar_digit upper hb, upperChar_digit upper hc, upperChar_letter upper hL,
        upperChar_hyphen, toUpperCase_digits upper hS]
    obtain ⟨hcan, hpat⟩ := normalize_hyphenated_cleaned ha hb hc hU h1 h3 hS
    rw [normalizeQuestionId_of_cleaned upper hclean, hcan, hpat]
    simp [hpad]
  · obtain ⟨z, hz, hzw⟩ := getLast?_of_digits h1 hS [a, b, c, L]
    have hclean : toUpperCase upper
        (trim (String.mk (ws1 ++ ([a, b, c, L] ++ S ++ ws2))).data)
        = [a, b, c, asciiUpper L] ++ S := by
      rw [show (String.mk (ws1 ++ ([a, b, c, L] ++ S ++ ws2))).data
        = ws1 ++ (([a, b, c, L] ++ S) ++ ws2) from rfl,
        trim_surrounded ws1 ws2 ([a, b, c, L] ++ S) a z hws1 hws2 rfl hz hna hzw]
      simp only [List.cons_append, List.nil_append, toUpperCase_cons, upperChar_digit upper ha,
        upperChar_digit upper hb, upperChar_digit upper hc, upperChar_letter upper hL,
        toUpperCase_digits upper hS]
    obtain ⟨hcan, hpat⟩ := normalize_unhyphenated_cleaned ha hb hc hU h1 h3 hS
    rw [normalizeQuestionId_of_cleaned upper hclean, hcan, hpat]
    simp [hpad]
  · have hPd := padStart_digits hS
    have hPl := padStart_length_three h1 h3
    obtain ⟨z, hz, hzw⟩ := getLast?_of_digits (S := padStart 3 '0' S) (by omega) hPd
      ['I', 'D', a, b, c, L]
    have hclean : toUpperCase upper
        (trim (String.mk
          (ws1 ++ ('I' :: 'D' :: a :: b :: c :: L :: padStart 3 '0' S ++ ws2))).data)
        = 'I' :: 'D' :: a :: b :: c :: asciiUpper L :: padStart 3 '0' S := by
      rw [show (String.mk
          (ws1 ++ ('I' :: 'D' :: a :: b :: c :: L :: padStart 3 '0' S ++ ws2))).data
        = ws1 ++ ((['I', 'D', a, b, c, L] ++ padStart 3 '0' S) ++ ws2) from rfl,
        trim_surrounded ws1 ws2 (['I', 'D', a, b, c, L] ++ padStart 3 '0' S) 'I' z hws1 hws2 rfl hz
          (by decide) hzw]
      simp only [List.cons_append, List.nil_append, toUpperCase_cons, upperChar_digit upper ha,
        upperChar_digit upper hb, upperChar_digit upper hc, upperChar_letter upper hL,
        upperChar_I, upperChar_D, toUpperCase_digits upper hPd]
    rw [normalizeQuestionId_of_cleaned upper hclean,
      isCanonicalId_of_parts ha hb hc hU hPl hPd]
    simp


/-- Instance of C11: the theorem at `116a-1`, `116a1` and `ID116a001` between a blank
and a line break, and the five inputs of the specification, which all give `ID116A001`. -/
theorem normalizeQuestionId_shape_independent_witness :
    (normalizeQuestionId noCaseTable " 116a-1\n" = some "ID116A001" ∧
      normalizeQuestionId noCaseTable " 116a1\n" = some "ID116A001" ∧
      normalizeQuestionId noCaseTable " ID116a001\n" = some "ID116A001") ∧
    normalizeQuestionId noCaseTable "116A-1" = some "ID116A001" ∧
    normalizeQuestionId noCaseTable "116A01" = some "ID116A001" ∧
    normalizeQuestionId noCaseTable "116a-1" = some "ID116A001" ∧
    normalizeQuestionId noCaseTable "116a1" = some "ID116A001" ∧
    normalizeQuestionId noCaseTable "ID116A001" = some "ID116A001" :=
  ⟨normalizeQuestionId_shape_independent noCaseTable '1' '1' '6' 'a' ['1'] [' '] ['\n']
      (by decide) (by decide) (by decide) (by decide) (by decide) (by decide) (by decide)
      (by decide) (by decide),
    by decide, by decide, by decide, by decide, by decide⟩

section NullOrCanonical

variable (upper : Char → List Char)

theorem matchHyphenated_some {s num sub : List Char} {l : Char}
    (h : matchHyphenated s = some (num, l, sub)) :
    ∃ a b c, num = [a, b, c] ∧ isDigit a = true ∧ isDigit b = true ∧ isDigit c = true ∧
      isUpperAZ l = true ∧ 1 ≤ sub.length ∧ sub.length ≤ 3 ∧ ∀ d ∈ sub, isDigit d = true := by
  unfold matchHyphenated at h
  split at h
  · rename_i a b c l' hh subNum
    split at h
    · rename_i hcond
      simp only [Bool.and_eq_true, decide_eq_true_eq, List.all_eq_true] at hcond
      simp only [Option.some.injEq, Prod.mk.injEq] at h
      obtain ⟨rfl, rfl, rfl⟩ := h
      exact ⟨a, b, c, rfl, hcond.1.1.1.1.1.1.1, hcond.1.1.1.1.1.1.2, hcond.1.1.1.1.1.2,
        hcond.1.1.1.1.2, hcond.1.1.2, hcond.1.2, hcond.2⟩
    · simp at h
  · simp at h

theorem matchUnhyphenated_some {s num sub : List Char} {l : Char}
    (h : matchUnhyphenated s = some (num, l, sub)) :
    ∃ a b c, num = [a, b, c] ∧ isDigit a = true ∧ isDigit b = true ∧ isDigit c = true ∧
      isUpperAZ l = true ∧ 1 ≤ sub.length ∧ sub.length ≤ 3 ∧ ∀ d ∈ sub, isDigit d = true := by
  unfold matchUnhyphenated at h
  split at h
  · rename_i a b c l' subNum
    split at h
    · rename_i hcond
      simp only [Bool.and_eq_true, decide_eq_true_eq, List.all_eq_true] at hcond
      simp only [Option.some.injEq, Prod.mk.injEq] at h
      obtain ⟨rfl, rfl, rfl⟩ := h
      exact ⟨a, b, c, rfl, hcond.1.1.1.1.1.1, hcond.1.1.1.1.1.2, hcond.1.1.1.1.2,
        hcond.1.1.1.2, hcond.1.1.2, hcond.1.2, hcond.2⟩
    · simp at h
  · simp at h

theorem patterns_findSome {s num sub : List Char} {l : Char}
    (h : patterns.findSome? (fun pattern => pattern s) = some (num, l, sub)) :
    ∃ a b c, num = [a, b, c] ∧ isDigit a = true ∧ isDigit b = true ∧ isDigit c = true ∧
      isUpperAZ l = true ∧ 1 ≤ sub.length ∧ sub.length ≤ 3 ∧ ∀ d ∈ sub, isDigit d = true := by
  simp only [patterns, List.findSome?] at h
  cases h1 : matchHyphenated s with
  | some m =>
    rw [h1] at h
    simp only [Option.some.injEq] at h
    subst h
    exact matchHyphenated_some h1
  | none =>
    rw [h1] at h
    cases h2 : matchUnhyphenated s with
    | some m =>
      rw [h2] at h
      simp only [Option.some.injEq] at h
      subst h
      exact matchUnhyphenated_some h2
    | none => rw [h2] at h; simp at h

theorem patterns_findSome_eq_none (s : List Char) :
    patterns.findSome? (fun pattern => pattern s) = none ↔
      matchHyphenated s = none ∧ matchUnhyphenated s = none := by
  simp only [patterns, List.findSome?]
  cases matchHyphenated s <;> cases matchUnhyphenated s <;> simp

end NullOrCanonical

/-- C12. Normalization never yields a wrong key.  `normalizeQuestionId` is a total
function of its string; its result is `null` or an identifier of canonical form (`ID`,
three digits, one capital, three digits); and it is `null` exactly when the trimmed,
upper-cased input matches none of the three accepted shapes. -/
theorem normalizeQuestionId_null_or_canonical (upper : Char → List Char) (input : String) :
    (normalizeQuestionId upper input = none ∨
      ∃ id, normalizeQuestionId upper input = some id ∧ CanonicalId id) ∧
    (normalizeQuestionId upper input = none ↔
      isCanonicalId (toUpperCase upper (trim input.data)) = false ∧
      matchHyphenated (toUpperCase upper (trim input.data)) = none ∧
      matchUnhyphenated (toUpperCase upper (trim input.data)) = none) := by
  rw [normalizeQuestionId_of_cleaned upper rfl, ← patterns_findSome_eq_none]
  by_cases hcan : isCanonicalId (toUpperCase upper (trim input.data)) = true
  · simp only [hcan, if_true]
    exact ⟨Or.inr ⟨_, rfl, hcan⟩, by simp⟩
  · have hfalse : isCanonicalId (toUpperCase upper (trim input.data)) = false := by
      simpa using hcan
    simp only [hfalse, Bool.false_eq_true, if_false, true_and]
    cases hp : patterns.findSome? (fun pattern => pattern (toUpperCase upper (trim input.data)))
      with
    | none => simp
    | some m =>
      obtain ⟨num, l, sub⟩ := m
      obtain ⟨a, b, c, rfl, ha, hb, hc, hl, h1, h3, hS⟩ := patterns_findSome hp
      refine ⟨Or.inr ⟨_, rfl, ?_⟩, by simp⟩
      exact isCanonicalId_of_parts ha hb hc hl (padStart_length_three h1 h3) (padStart_digits hS)

/-- C13, refuted as stated.  The patterns of `normalizeQuestionId` ask for exactly three
digits of exam number, so `9A-5` matches none of them and the result is `null`, whatever
the case table, not `ID009A005`.  The sibling `convertQuestionNumber`, whose pattern takes
one or more digits, pads the same input to `ID009A005`. -/
theorem normalizeQuestionId_short_exam_number :
    (∀ upper, normalizeQuestionId upper "9A-5" = none) ∧
    convertQuestionNumber "9A-5" = some "ID009A005" :=
  ⟨fun _ => rfl, by decide⟩

/-! ## The question id of a response -/

section ProblemIdLemmas

theorem takeWhile_digits_all {S : List Char} (hS : ∀ d ∈ S, isDigit d = true) :
    S.takeWhile isDigit = S := by
  rw [List.takeWhile_eq_self_iff]
  exact hS

theorem searchParts_well_formed {a b c L : Char} {S : List Char}
    (ha : isDigit a = true) (hb : isDigit b = true) (hc : isDigit c = true)
    (hL : isUpperAZ L = true) (h1 : 1 ≤ S.length) (hS : ∀ d ∈ S, isDigit d = true) :
    searchParts ([a, b, c, L, '-'] ++ S) = some ([a, b, c], L, S) := by
  have hLd : isDigit L = false := (isUpperAZ_facts hL).2.2.1
  have hne : S ≠ [] := by
    intro h; rw [h] at h1; simp at h1
  have hempty : S.isEmpty = false := by
    cases S with
    | nil => exact absurd rfl hne
    | cons _ _ => rfl
  simp [searchParts, matchPartsAt, List.dropWhile_cons, List.takeWhile_cons, ha, hb, hc, hLd,
    hL, takeWhile_digits_all hS, hempty]

end ProblemIdLemmas

/-- C14, refuted as stated.  An exam number without hyphen, `116A1`, matches nothing in
`normalizeProblemId`, which then returns the string as it is: the result is not `null`
and not canonical.  The exam number `99A-5` does match and gives `ID99A005`, which is not
canonical either: this normalizer does not pad the exam number. -/
theorem getQuestionIdFromAshx_not_canonical :
    getQuestionIdFromAshx (some responseNoHyphen) = some "116A1" ∧
    ¬ CanonicalId "116A1" ∧
    getQuestionIdFromAshx (some responseTwoDigits) = some "ID99A005" ∧
    ¬ CanonicalId "ID99A005" := by
  refine ⟨by decide, by decide, by decide, by decide⟩

/-- C14, amended.  For a response whose first item has a non-empty `state_exam_no`,
`getQuestionIdFromAshx` returns `normalizeProblemId` of it and never `null`: the string
itself, unchanged, when it holds no run of digits followed by a capital, a hyphen and a
digit, and the canonical id `ID` + exam number + letter + sub-number padded to three
digits when it is three digits, a capital, a hyphen and one to three digits.  The result
is `null` when the response is absent, has no `items`, has an empty `items` list, or the
first item has no `state_exam_no` or an empty one. -/
theorem getQuestionIdFromAshx_result (first : RawItem) (rest : List RawItem) (s : String)
    (hs : first.state_exam_no = some s) (hne : s ≠ "") :
    getQuestionIdFromAshx (some ⟨some (first :: rest)⟩) = some (normalizeProblemId s) ∧
    (searchParts s.data = none → normalizeProblemId s = s) ∧
    (∀ a b c L S, isDigit a = true → isDigit b = true → isDigit c = true →
      isUpperAZ L = true → 1 ≤ S.length → S.length ≤ 3 → (∀ d ∈ S, isDigit d = true) →
      s = String.mk ([a, b, c, L, '-'] ++ S) →
      normalizeProblemId s = String.mk ('I' :: 'D' :: a :: b :: c :: L :: padStart 3 '0' S) ∧
      CanonicalId (normalizeProblemId s)) ∧
    getQuestionIdFromAshx none = none ∧
    getQuestionIdFromAshx (some ⟨none⟩) = none ∧
    getQuestionIdFromAshx (some ⟨some []⟩) = none ∧
    (∀ item others, item.state_exam_no = none ∨ item.state_exam_no = some "" →
      getQuestionIdFromAshx (some ⟨some (item :: others)⟩) = none) := by
  refine ⟨?_, ?_, ?_, rfl, rfl, rfl, ?_⟩
  · simp [getQuestionIdFromAshx, hs, hne]
  · intro h
    simp [normalizeProblemId, h]
  · intro a b c L S ha hb hc hL h1 h3 hS hshape
    have hsearch := searchParts_well_formed ha hb hc hL h1 hS
    have hnorm : normalizeProblemId s
        = String.mk ('I' :: 'D' :: a :: b :: c :: L :: padStart 3 '0' S) := by
      subst hshape
      simp only [normalizeProblemId, hsearch]
      rfl
    refine ⟨hnorm, ?_⟩
    rw [hnorm]
    exact isCanonicalId_of_parts ha hb hc hL (padStart_length_three h1 h3) (padStart_digits hS)
  · intro item others h
    rcases h with h | h <;> simp [getQuestionIdFromAshx, h]

/-- Instance of the amended C14: the exam number `116A-1` gives `ID116A001`. -/
theorem getQuestionIdFromAshx_result_witness :
    getQuestionIdFromAshx (some ⟨some [⟨some "2025-10-26T14:54:04", some "1", some "0",
      some "A", some "1", some "30", some "116A-1"⟩]⟩) = some "ID116A001" ∧
    getQuestionIdFromAshx (some ⟨some [⟨some "2025-10-26T14:54:04", some "1", some "0",
      some "A", some "1", some "30", some "116A-1"⟩]⟩) = some (normalizeProblemId "116A-1") :=
  ⟨by decide,
    (getQuestionIdFromAshx_result ⟨some "2025-10-26T14:54:04", some "1", some "0",
      some "A", some "1", some "30", some "116A-1"⟩ [] "116A-1" rfl (by decide)).1⟩

/-! ## The analyzer -/

section AnalyzerLemmas

theorem analyzeStep_cases (D : HistoryJson) (acc : ChangeSet) (e : String × History) :
    (analyzeStep D acc e).newQuestions
        = acc.newQuestions ++ (if isNewQuestion D e then [e.1] else []) ∧
    (analyzeStep D acc e).updatedQuestions
        = acc.updatedQuestions ++ (if isUpdatedQuestion D e then [e.1] else []) ∧
    (analyzeStep D acc e).addedRecords
        = if isNewQuestion D e || isUpdatedQuestion D e then
            objSet acc.addedRecords e.1 (addedCount D e.1 e.2)
          else acc.addedRecords := by
  unfold analyzeStep isNewQuestion isUpdatedQuestion addedCount historyOf
  cases D.data.bind (objGet · e.1) with
  | none => simp
  | some x =>
    by_cases h : (uniqueNewHistory x e.2).length > 0
    · have h' : 0 < (uniqueNewHistory x e.2).length := h
      simp [h']
    · have h0 : (uniqueNewHistory x e.2).length = 0 := by omega
      simp [h0]

theorem analyze_fold_lists (D : HistoryJson) (B : List (String × History)) (acc : ChangeSet) :
    (B.foldl (analyzeStep D) acc).newQuestions
        = acc.newQuestions ++ (B.filter (isNewQuestion D)).map Prod.fst ∧
    (B.foldl (analyzeStep D) acc).updatedQuestions
        = acc.updatedQuestions ++ (B.filter (isUpdatedQuestion D)).map Prod.fst := by
  induction B generalizing acc with
  | nil => simp
  | cons e rest ih =>
    obtain ⟨h1, h2, -⟩ := analyzeStep_cases D acc e
    obtain ⟨i1, i2⟩ := ih (analyzeStep D acc e)
    simp only [List.foldl_cons]
    rw [i1, i2, h1, h2]
    constructor
    · cases hn : isNewQuestion D e <;> simp [List.filter_cons, hn]
    · cases hu : isUpdatedQuestion D e <;> simp [List.filter_cons, hu]

theorem analyze_fold_addedRecords (D : HistoryJson) (B : List (String × History))
    (acc : ChangeSet) (hB : keysNodup B)
    (hdis : ∀ k ∈ objKeys B, k ∉ objKeys acc.addedRecords) :
    (B.foldl (analyzeStep D) acc).addedRecords
      = acc.addedRecords ++
        (B.filter fun e => isNewQuestion D e || isUpdatedQuestion D e).map
          fun e => (e.1, addedCount D e.1 e.2) := by
  induction B generalizing acc with
  | nil => simp
  | cons e rest ih =>
    have hnd : e.1 ∉ objKeys rest ∧ keysNodup rest := by
      simpa [keysNodup, objKeys] using hB
    have he : e.1 ∉ objKeys acc.addedRecords := hdis e.1 (by simp [objKeys])
    obtain ⟨-, -, h3⟩ := analyzeStep_cases D acc e
    simp only [List.foldl_cons]
    by_cases hc : (isNewQuestion D e || isUpdatedQuestion D e) = true
    · rw [if_pos hc, objSet_of_not_mem _ _ he] at h3
      rw [ih _ hnd.2, h3]
      · simp [List.filter_cons, hc]
      · intro k hk
        rw [h3]
        intro hmem
        have : k ∈ objKeys acc.addedRecords ∨ k = e.1 := by simpa [objKeys] using hmem
        rcases this with h | h
        · exact hdis k (by simp only [objKeys] at hk; simp [objKeys, hk]) h
        · exact hnd.1 (h ▸ hk)
    · rw [if_neg hc] at h3
      rw [ih _ hnd.2, h3]
      · simp [List.filter_cons, hc]
      · intro k hk
        rw [h3]
        exact hdis k (by simp only [objKeys] at hk; simp [objKeys, hk])

theorem objGet_filter_map {β : Type} (B : JsObj History) (hB : keysNodup B)
    (p : String × History → Bool) (f : String × History → β) (q : String) :
    objGet ((B.filter p).map fun e => (e.1, f e)) q =
      match objGet B q with
      | none => none
      | some l => if p (q, l) then some (f (q, l)) else none := by
  induction B with
  | nil => rfl
  | cons e rest ih =>
    obtain ⟨k, l⟩ := e
    have hnd : k ∉ objKeys rest ∧ keysNodup rest := by
      simpa [keysNodup, objKeys] using hB
    by_cases hk : k = q
    · subst hk
      have hrest : objGet rest k = none := (objGet_eq_none_iff rest k).mpr hnd.1
      by_cases hp : p (k, l) = true
      · simp [List.filter_cons, hp, objGet]
      · have hp' : p (k, l) = false := by simpa using hp
        simp only [List.filter_cons, hp', objGet, if_true, Bool.false_eq_true, if_false]
        rw [ih hnd.2, hrest]
    · by_cases hp : p (k, l) = true
      · simp only [List.filter_cons, hp, if_true, List.map_cons, objGet, hk, if_false]
        exact ih hnd.2
      · have hp' : p (k, l) = false := by simpa using hp
        simp only [List.filter_cons, hp', objGet, hk, Bool.false_eq_true, if_false]
        exact ih hnd.2

theorem analyze_closed (D : HistoryJson) (B : JsObj History) :
    (analyzeHistoryChanges D B).newQuestions = (B.filter (isNewQuestion D)).map Prod.fst ∧
    (analyzeHistoryChanges D B).updatedQuestions
      = (B.filter (isUpdatedQuestion D)).map Prod.fst := by
  have h := analyze_fold_lists D B
    { newQuestions := [], updatedQuestions := [], addedRecords := [], totalNewRecords := 0 }
  simpa [analyzeHistoryChanges] using h

theorem analyze_addedRecords_closed (D : HistoryJson) (B : JsObj History) (hB : keysNodup B) :
    (analyzeHistoryChanges D B).addedRecords
      = (B.filter fun e => isNewQuestion D e || isUpdatedQuestion D e).map
          fun e => (e.1, addedCount D e.1 e.2) := by
  have h := analyze_fold_addedRecords D B
    { newQuestions := [], updatedQuestions := [], addedRecords := [], totalNewRecords := 0 }
    hB (fun k _ => by simp [objKeys])
  simpa [analyzeHistoryChanges] using h

theorem mem_filter_keys (B : JsObj History) (hB : keysNodup B)
    (p : String × History → Bool) (q : String) :
    q ∈ (B.filter p).map Prod.fst ↔ ∃ l, objGet B q = some l ∧ p (q, l) = true := by
  constructor
  · intro h
    obtain ⟨e, he, rfl⟩ := List.mem_map.mp h
    obtain ⟨hmem, hp⟩ := List.mem_filter.mp he
    exact ⟨e.2, objGet_of_mem_nodup B hB hmem, hp⟩
  · rintro ⟨l, hl, hp⟩
    exact List.mem_map.mpr ⟨(q, l), List.mem_filter.mpr ⟨objGet_mem B hl, hp⟩, rfl⟩

theorem isUpdatedQuestion_iff {D : HistoryJson} {q : String} {l existing : History}
    (hD : historyOf D q = some existing) :
    isUpdatedQuestion D (q, l) = true ↔
      ∃ r ∈ l, r.implementDateTime ∉ timestamps existing := by
  simp only [isUpdatedQuestion, hD, decide_eq_true_eq, List.length_pos]
  constructor
  · intro h
    obtain ⟨r, hr⟩ := List.exists_mem_of_ne_nil _ h
    exact ⟨r, (mem_uniqueNewHistory.mp hr).1, (mem_uniqueNewHistory.mp hr).2⟩
  · rintro ⟨r, hr, ht⟩
    exact List.ne_nil_of_mem (mem_uniqueNewHistory.mpr ⟨hr, ht⟩)

theorem length_uniqueNewHistory (existing l : History) :
    (uniqueNewHistory existing l).length
      = l.countP fun r => decide (r.implementDateTime ∉ timestamps existing) := by
  rw [List.countP_eq_length_filter]
  unfold uniqueNewHistory timestamps
  simp only [decide_not]

theorem addedCount_eq_zero_of_not_counted {D : HistoryJson} {e : String × History}
    (h : (isNewQuestion D e || isUpdatedQuestion D e) = false) :
    addedCount D e.1 e.2 = 0 := by
  simp only [Bool.or_eq_false_iff] at h
  obtain ⟨h1, h2⟩ := h
  unfold isNewQuestion at h1
  unfold isUpdatedQuestion at h2
  unfold addedCount
  cases hx : historyOf D e.1 with
  | none => simp [hx] at h1
  | some x =>
    simp only [hx, decide_eq_false_iff_not] at h2
    simp only
    omega

theorem sum_filter_counted (D : HistoryJson) (B : List (String × History)) :
    ((B.filter fun e => isNewQuestion D e || isUpdatedQuestion D e).map
        fun e => addedCount D e.1 e.2).sum
      = (B.map fun e => addedCount D e.1 e.2).sum := by
  induction B with
  | nil => rfl
  | cons e rest ih =>
    cases hc : (isNewQuestion D e || isUpdatedQuestion D e) with
    | true => simp [List.filter_cons, hc, ih]
    | false =>
      simp only [List.filter_cons, hc, Bool.false_eq_true, if_false, List.map_cons,
        List.sum_cons, ih, addedCount_eq_zero_of_not_counted hc, Nat.zero_add]

theorem not_updated_of_new {D : HistoryJson} {e : String × History}
    (h : isNewQuestion D e = true) : isUpdatedQuestion D e = false := by
  unfold isNewQuestion at h
  unfold isUpdatedQuestion
  cases hx : historyOf D e.1 with
  | none => rfl
  | some x => simp [hx] at h

theorem counted_keys_perm (D : HistoryJson) (B : List (String × History)) :
    ((B.filter fun e => isNewQuestion D e || isUpdatedQuestion D e).map Prod.fst).Perm
      ((B.filter (isNewQuestion D)).map Prod.fst
        ++ (B.filter (isUpdatedQuestion D)).map Prod.fst) := by
  induction B with
  | nil => simp
  | cons e rest ih =>
    cases hn : isNewQuestion D e with
    | true =>
      have hu := not_updated_of_new hn
      simp only [List.filter_cons, hn, hu, Bool.or_false, if_true, List.map_cons,
        List.cons_append, Bool.false_eq_true, if_false]
      exact List.Perm.cons _ ih
    | false =>
      cases hu : isUpdatedQuestion D e with
      | true =>
        simp only [List.filter_cons, hn, hu, Bool.or_true, if_true, List.map_cons,
          Bool.false_eq_true, if_false]
        exact (List.Perm.cons _ ih).trans List.perm_middle.symm
      | false =>
        simp only [List.filter_cons, hn, hu, Bool.or_false, Bool.false_eq_true, if_false]
        exact ih

end AnalyzerLemmas


/-- C15. Analyzer, new questions.  For a durable dataset `D` and a batch `B` (an object,
so with pairwise distinct keys) `newQuestions` is the list of the question ids of `B`, in
the iteration order of `B`, that have no entry in `D.data`; and for each of them
`addedRecords[q]` is the length of `B[q]`. -/
theorem analyzeHistoryChanges_newQuestions (D : HistoryJson) (B : JsObj History)
    (hB : keysNodup B) :
    (analyzeHistoryChanges D B).newQuestions
      = (objKeys B).filter (fun q => (historyOf D q).isNone) ∧
    ∀ q ∈ (analyzeHistoryChanges D B).newQuestions,
      ∃ l, objGet B q = some l ∧
        objGet (analyzeHistoryChanges D B).addedRecords q = some l.length := by
  constructor
  · rw [(analyze_closed D B).1, objKeys, List.filter_map]
    rfl
  · intro q hq
    rw [(analyze_closed D B).1] at hq
    obtain ⟨l, hl, hnew⟩ := (mem_filter_keys B hB _ q).mp hq
    refine ⟨l, hl, ?_⟩
    rw [analyze_addedRecords_closed D B hB,
      objGet_filter_map B hB _ (fun e => addedCount D e.1 e.2) q, hl]
    have hnone : historyOf D q = none := by
      simpa [isNewQuestion] using hnew
    simp [hnew, addedCount, hnone]

/-- Instance of C15 on the scenario of the specification: `D` is empty, the batch is
`ID116A001: [one record]`; `newQuestions` is `["ID116A001"]` and `totalNewRecords` is 1. -/
theorem analyzeHistoryChanges_newQuestions_witness :
    keysNodup [("ID116A001", [recT1A])] ∧
    (analyzeHistoryChanges fallbackHistoryJson [("ID116A001", [recT1A])]).newQuestions
      = ["ID116A001"] ∧
    (analyzeHistoryChanges fallbackHistoryJson [("ID116A001", [recT1A])]).totalNewRecords = 1 ∧
    (analyzeHistoryChanges fallbackHistoryJson [("ID116A001", [recT1A])]).newQuestions
      = (objKeys [("ID116A001", [recT1A])]).filter
          (fun q => (historyOf fallbackHistoryJson q).isNone) :=
  ⟨by decide, by decide, by decide,
    (analyzeHistoryChanges_newQuestions fallbackHistoryJson [("ID116A001", [recT1A])]
      (by decide)).1⟩

/-- C16. Analyzer, updated and unchanged questions.  For a question `q` of the batch `B`
(an object, so with pairwise distinct keys) that has an entry in `D.data`: `q` is in
`updatedQuestions` if and only if `B[q]` has a record whose `implementDateTime` does not
occur in `D.data[q]`, and then `addedRecords[q]` is the number of such records; `q` is
never in `newQuestions`; when there is no such record `q` is not in `updatedQuestions` and
`addedRecords` has no entry for `q`.  `updatedQuestions` follows the iteration order of
`B`: it is a sub-list of the keys of `B`. -/
theorem analyzeHistoryChanges_updatedQuestions (D : HistoryJson) (B : JsObj History)
    (q : String) (l existing : History)
    (hB : keysNodup B) (hq : objGet B q = some l) (hD : historyOf D q = some existing) :
    (q ∈ (analyzeHistoryChanges D B).updatedQuestions ↔
      ∃ r ∈ l, r.implementDateTime ∉ timestamps existing) ∧
    q ∉ (analyzeHistoryChanges D B).newQuestions ∧
    ((∃ r ∈ l, r.implementDateTime ∉ timestamps existing) →
      objGet (analyzeHistoryChanges D B).addedRecords q
        = some (l.countP fun r => decide (r.implementDateTime ∉ timestamps existing))) ∧
    ((¬ ∃ r ∈ l, r.implementDateTime ∉ timestamps existing) →
      objGet (analyzeHistoryChanges D B).addedRecords q = none) ∧
    (analyzeHistoryChanges D B).updatedQuestions.Sublist (objKeys B) := by
  have hnew : isNewQuestion D (q, l) = false := by simp [isNewQuestion, hD]
  have hadded : objGet (analyzeHistoryChanges D B).addedRecords q
      = if isUpdatedQuestion D (q, l) = true then some (addedCount D q l) else none := by
    rw [analyze_addedRecords_closed D B hB,
      objGet_filter_map B hB _ (fun e => addedCount D e.1 e.2) q, hq]
    simp [hnew]
  have hcount : addedCount D q l
      = l.countP fun r => decide (r.implementDateTime ∉ timestamps existing) := by
    simp only [addedCount, hD]
    exact length_uniqueNewHistory existing l
  refine ⟨?_, ?_, ?_, ?_, ?_⟩
  · rw [(analyze_closed D B).2, mem_filter_keys B hB _ q, ← isUpdatedQuestion_iff hD]
    constructor
    · rintro ⟨l', hl', hu⟩
      have : l' = l := Option.some.inj (hl'.symm.trans hq)
      exact this ▸ hu
    · intro hu
      exact ⟨l, hq, hu⟩
  · rw [(analyze_closed D B).1, mem_filter_keys B hB _ q]
    rintro ⟨l', hl', hn⟩
    have : l' = l := Option.some.inj (hl'.symm.trans hq)
    rw [this, hnew] at hn
    exact absurd hn (by simp)
  · intro h
    rw [hadded, if_pos ((isUpdatedQuestion_iff hD).mpr h), hcount]
  · intro h
    have hu : ¬ isUpdatedQuestion D (q, l) = true := fun hu => h ((isUpdatedQuestion_iff hD).mp hu)
    rw [hadded, if_neg hu]
  · rw [(analyze_closed D B).2]
    exact (List.filter_sublist B).map Prod.fst

/-- Instance of C16 on the scenario of the specification: the durable history is
`[[t1,0,0,"A",1,30]]`, the batch `[[t1,0,0,"B",0,40],[t2,0,0,"A",1,20]]`;
`updatedQuestions` is `["ID116A001"]` and `addedRecords.ID116A001` is 1. -/
theorem analyzeHistoryChanges_updatedQuestions_witness :
    keysNodup [("ID116A001", [recT1B, recT2A])] ∧
    (analyzeHistoryChanges durableOne [("ID116A001", [recT1B, recT2A])]).updatedQuestions
      = ["ID116A001"] ∧
    objGet (analyzeHistoryChanges durableOne [("ID116A001", [recT1B, recT2A])]).addedRecords
      "ID116A001" = some 1 ∧
    ("ID116A001" ∈
        (analyzeHistoryChanges durableOne [("ID116A001", [recT1B, recT2A])]).updatedQuestions ↔
      ∃ r ∈ [recT1B, recT2A], r.implementDateTime ∉ timestamps [recT1A]) :=
  ⟨by decide, by decide, by decide,
    (analyzeHistoryChanges_updatedQuestions durableOne [("ID116A001", [recT1B, recT2A])]
      "ID116A001" [recT1B, recT2A] [recT1A] (by decide) (by decide) (by decide)).1⟩

/-- C17. Analyzer total.  For a durable dataset `D` and a batch `B` (an object, so with
pairwise distinct keys) `totalNewRecords` is the sum of the values of `addedRecords`, and
the keys of `addedRecords`, each of which occurs once, are the ids of `newQuestions`
together with the ids of `updatedQuestions`. -/
theorem analyzeHistoryChanges_total (D : HistoryJson) (B : JsObj History) (hB : keysNodup B) :
    (analyzeHistoryChanges D B).totalNewRecords
      = ((analyzeHistoryChanges D B).addedRecords.map Prod.snd).sum ∧
    (objKeys (analyzeHistoryChanges D B).addedRecords).Perm
      ((analyzeHistoryChanges D B).newQuestions ++ (analyzeHistoryChanges D B).updatedQuestions) ∧
    keysNodup (analyzeHistoryChanges D B).addedRecords := by
  have hkeys : objKeys (analyzeHistoryChanges D B).addedRecords
      = (B.filter fun e => isNewQuestion D e || isUpdatedQuestion D e).map Prod.fst := by
    rw [analyze_addedRecords_closed D B hB, objKeys, List.map_map]
    rfl
  refine ⟨?_, ?_, ?_⟩
  · have ht := analyze_fold_total D B
      { newQuestions := [], updatedQuestions := [], addedRecords := [], totalNewRecords := 0 }
    rw [analyze_addedRecords_closed D B hB, List.map_map]
    unfold analyzeHistoryChanges
    rw [ht, Nat.zero_add, ← sum_filter_counted D B]
    rfl
  · rw [hkeys, (analyze_closed D B).1, (analyze_closed D B).2]
    exact counted_keys_perm D B
  · unfold keysNodup
    rw [hkeys]
    exact List.Nodup.sublist ((List.filter_sublist B).map Prod.fst) hB

/-- Instance of C17: one record is added to `ID116A001`, the new question `ID116A002`
brings two, and the total is 3. -/
theorem analyzeHistoryChanges_total_witness :
    keysNodup [("ID116A001", [recT1B, recT2A]), ("ID116A002", [recT2A, recT2C])] ∧
    (analyzeHistoryChanges durableOne
      [("ID116A001", [recT1B, recT2A]), ("ID116A002", [recT2A, recT2C])]).totalNewRecords = 3 ∧
    (analyzeHistoryChanges durableOne
      [("ID116A001", [recT1B, recT2A]), ("ID116A002", [recT2A, recT2C])]).addedRecords
      = [("ID116A001", 1), ("ID116A002", 2)] ∧
    (analyzeHistoryChanges durableOne
      [("ID116A001", [recT1B, recT2A]), ("ID116A002", [recT2A, recT2C])]).totalNewRecords
      = ((analyzeHistoryChanges durableOne
          [("ID116A001", [recT1B, recT2A]), ("ID116A002", [recT2A, recT2C])]).addedRecords.map
            Prod.snd).sum :=
  ⟨by decide, by decide, by decide,
    (analyzeHistoryChanges_total durableOne
      [("ID116A001", [recT1B, recT2A]), ("ID116A002", [recT2A, recT2C])] (by decide)).1⟩

/-! ## The record transformer -/

section TransformLemmas

variable (date : String → Option Int) (localeCompare : String → String → Int)

theorem mapItems_eq_some {items : List RawItem} {l : History}
    (h : mapItems date items = some l) :
    List.Forall₂ (fun item r => transformItem date item = some r) items l := by
  induction items generalizing l with
  | nil =>
    simp only [mapItems, Option.some.injEq] at h
    subst h
    exact List.Forall₂.nil
  | cons item rest ih =>
    simp only [mapItems] at h
    cases ht : transformItem date item with
    | none => rw [ht] at h; simp at h
    | some r =>
      rw [ht] at h
      cases hm : mapItems date rest with
      | none => rw [hm] at h; simp at h
      | some rs =>
        rw [hm] at h
        simp only [Option.map_some', Option.some.injEq] at h
        subst h
        exact List.Forall₂.cons ht (ih hm)

theorem mapItems_of_valid {items : List RawItem}
    (h : ∀ item ∈ items, (implementDate date item).isSome = true) :
    ∃ l, mapItems date items = some l := by
  induction items with
  | nil => exact ⟨[], rfl⟩
  | cons item rest ih =>
    obtain ⟨rs, hrs⟩ := ih fun x hx => h x (List.mem_cons_of_mem _ hx)
    obtain ⟨t, ht⟩ := Option.isSome_iff_exists.mp (h item (List.mem_cons_self _ _))
    have hr : ∃ r, transformItem date item = some r := by
      simp [transformItem, ht]
    obtain ⟨r, hr⟩ := hr
    exact ⟨r :: rs, by simp [mapItems, hr, hrs]⟩

theorem mapItems_of_invalid {items : List RawItem}
    (h : ∃ item ∈ items, implementDate date item = none) : mapItems date items = none := by
  induction items with
  | nil => simp at h
  | cons item rest ih =>
    obtain ⟨x, hx, hnone⟩ := h
    rcases List.mem_cons.mp hx with rfl | hx'
    · simp [mapItems, transformItem, hnone]
    · simp only [mapItems]
      cases transformItem date item with
      | none => rfl
      | some r => simp [ih ⟨x, hx', hnone⟩]

theorem transformHistoryData_of_items {items : List RawItem} (hne : items ≠ []) :
    transformHistoryData date localeCompare (some ⟨some items⟩) =
      (mapItems date items).map fun transformed =>
        transformed.insertionSort (keepsBeforeLocale localeCompare) := by
  cases items with
  | nil => exact absurd rfl hne
  | cons item rest =>
    simp only [transformHistoryData]
    cases mapItems date (item :: rest) <;> rfl

theorem sorted_by_collation (h : consistentCollation localeCompare) (l : History) :
    (l.insertionSort (keepsBeforeLocale localeCompare)).Pairwise
      fun a b => 0 ≤ localeCompare a.implementDateTime b.implementDateTime := by
  obtain ⟨hanti, htrans⟩ := h
  haveI : IsTotal Record (keepsBeforeLocale localeCompare) := ⟨by
    intro a b
    unfold keepsBeforeLocale
    by_cases hab : localeCompare b.implementDateTime a.implementDateTime ≤ 0
    · exact Or.inl hab
    · right
      rw [hanti]
      omega⟩
  haveI : IsTrans Record (keepsBeforeLocale localeCompare) := ⟨by
    intro a b c hab hbc
    exact htrans _ _ _ hbc hab⟩
  have hs := List.sorted_insertionSort (keepsBeforeLocale localeCompare) l
  refine List.Pairwise.imp ?_ hs
  intro a b hab
  exact (hanti _ _).mp hab

theorem compareChars_cons_le (a b : Char) (as bs : List Char) :
    compareChars (a :: as) (b :: bs) ≤ 0 ↔
      a.toNat < b.toNat ∨ (a.toNat = b.toNat ∧ compareChars as bs ≤ 0) := by
  simp only [compareChars]
  split_ifs with h1 h2
  · simp [h1]
  · constructor
    · intro h; omega
    · rintro (h | ⟨h, -⟩) <;> omega
  · have : a.toNat = b.toNat := by omega
    simp [h1, this]

theorem compareChars_cons_ge (a b : Char) (as bs : List Char) :
    0 ≤ compareChars (a :: as) (b :: bs) ↔
      b.toNat < a.toNat ∨ (a.toNat = b.toNat ∧ 0 ≤ compareChars as bs) := by
  simp only [compareChars]
  split_ifs with h1 h2
  · constructor
    · intro h; omega
    · rintro (h | ⟨h, -⟩) <;> omega
  · simp [h2]
  · have : a.toNat = b.toNat := by omega
    simp [h2, this]

theorem compareChars_antisymm (x y : List Char) :
    compareChars x y ≤ 0 ↔ 0 ≤ compareChars y x := by
  induction x generalizing y with
  | nil => cases y <;> simp [compareChars]
  | cons a as ih =>
    cases y with
    | nil => simp [compareChars]
    | cons b bs =>
      rw [compareChars_cons_le, compareChars_cons_ge, ih bs]
      constructor
      · rintro (h | ⟨h, h'⟩)
        · exact Or.inl h
        · exact Or.inr ⟨h.symm, h'⟩
      · rintro (h | ⟨h, h'⟩)
        · exact Or.inl h
        · exact Or.inr ⟨h.symm, h'⟩

theorem compareChars_trans (x y z : List Char) :
    compareChars x y ≤ 0 → compareChars y z ≤ 0 → compareChars x z ≤ 0 := by
  induction x generalizing y z with
  | nil => intro _ _; cases z <;> simp [compareChars]
  | cons a as ih =>
    cases y with
    | nil => intro h; simp [compareChars] at h
    | cons b bs =>
      cases z with
      | nil => intro _ h; simp [compareChars] at h
      | cons c cs =>
        rw [compareChars_cons_le, compareChars_cons_le, compareChars_cons_le]
        rintro (h1 | ⟨h1, h1'⟩) (h2 | ⟨h2, h2'⟩)
        · exact Or.inl (by omega)
        · exact Or.inl (by omega)
        · exact Or.inl (by omega)
        · exact Or.inr ⟨by omega, ih bs cs h1' h2'⟩

theorem consistent_codePointCompare : consistentCollation codePointCompare :=
  ⟨fun x y => compareChars_antisymm x.data y.data,
    fun x y z => compareChars_trans x.data y.data z.data⟩

theorem forall₂_exists_left {α β : Type} {R : α → β → Prop} {l₁ : List α} {l₂ : List β}
    (h : List.Forall₂ R l₁ l₂) : ∀ b ∈ l₂, ∃ a ∈ l₁, R a b := by
  induction h with
  | nil => intro b hb; simp at hb
  | cons hab _ ih =>
    intro b hb
    rcases List.mem_cons.mp hb with rfl | hb'
    · exact ⟨_, List.mem_cons_self _ _, hab⟩
    · obtain ⟨a, ha, hr⟩ := ih b hb'
      exact ⟨a, List.mem_cons_of_mem _ ha, hr⟩

theorem forall₂_exists_right {α β : Type} {R : α → β → Prop} {l₁ : List α} {l₂ : List β}
    (h : List.Forall₂ R l₁ l₂) : ∀ a ∈ l₁, ∃ b ∈ l₂, R a b := by
  induction h with
  | nil => intro a ha; simp at ha
  | cons hab _ ih =>
    intro a ha
    rcases List.mem_cons.mp ha with rfl | ha'
    · exact ⟨_, List.mem_cons_self _ _, hab⟩
    · obtain ⟨b, hb, hr⟩ := ih a ha'
      exact ⟨b, List.mem_cons_of_mem _ hb, hr⟩

theorem transformItem_fields {item : RawItem} {r : Record}
    (h : transformItem date item = some r) :
    r.learningClassification = intField item.learning_classification ∧
    r.certaintyFactor = intField item.certainty_factor ∧
    r.falsehood = intField item.falsehood ∧
    r.learningSeconds = intField item.learning_sec ∧
    r.answer = orString item.answer "" := by
  unfold transformItem at h
  cases ht : implementDate date item with
  | none => rw [ht] at h; simp at h
  | some t =>
    rw [ht] at h
    simp only [Option.some.injEq] at h
    subst h
    exact ⟨rfl, rfl, rfl, rfl, rfl⟩

theorem intField_eq (v : Option String) :
    intField v =
      match v with
      | none => 0
      | some s =>
        match parseInt s.data with
        | some n => n
        | none => 0 := by
  cases v with
  | none => decide
  | some s =>
    by_cases hs : s = ""
    · subst hs; decide
    · simp only [intField, orString, hs, if_false]
      cases parseInt s.data <;> rfl

theorem orString_empty (v : Option String) :
    orString v "" = match v with
      | none => ""
      | some a => a := by
  cases v with
  | none => rfl
  | some a =>
    by_cases ha : a = ""
    · subst ha; rfl
    · simp [orString, ha]

end TransformLemmas


/-- C19, refuted as stated.  A response with a non-empty `items` list in which one item
has an `implement_date` that is not a date, or has none, makes `transformHistoryData`
throw (`toISOString` of an invalid date, `replace` of `undefined`): no list is returned. -/
theorem transformHistoryData_throws :
    transformHistoryData isoDate codePointCompare (some ⟨some [itemEarly, itemBadDate]⟩) = none ∧
    transformHistoryData isoDate codePointCompare (some ⟨some [itemNoDate]⟩) = none := by
  constructor <;> decide

/-- C19, amended.  `transformHistoryData` returns the empty list when the response is
absent, has no `items` field or has an empty `items` list.  For a non-empty `items` list
in which every item has an `implement_date` that is a valid date it returns exactly one
record per item: a permutation of the records of the items, of the same length.  When
some item has no `implement_date` or an invalid one, the call throws. -/
theorem transformHistoryData_shape (date : String → Option Int)
    (localeCompare : String → String → Int) (items : List RawItem) (hne : items ≠ []) :
    transformHistoryData date localeCompare none = some [] ∧
    transformHistoryData date localeCompare (some ⟨none⟩) = some [] ∧
    transformHistoryData date localeCompare (some ⟨some []⟩) = some [] ∧
    ((∀ item ∈ items, (implementDate date item).isSome = true) →
      ∃ records l,
        List.Forall₂ (fun item r => transformItem date item = some r) items records ∧
        transformHistoryData date localeCompare (some ⟨some items⟩) = some l ∧
        l.Perm records ∧ l.length = items.length) ∧
    ((∃ item ∈ items, implementDate date item = none) →
      transformHistoryData date localeCompare (some ⟨some items⟩) = none) := by
  refine ⟨rfl, rfl, rfl, ?_, ?_⟩
  · intro hvalid
    obtain ⟨records, hm⟩ := mapItems_of_valid date hvalid
    have hf := mapItems_eq_some date hm
    refine ⟨records, records.insertionSort (keepsBeforeLocale localeCompare), hf, ?_,
      List.perm_insertionSort _ _, ?_⟩
    · rw [transformHistoryData_of_items date localeCompare hne, hm]; rfl
    · rw [List.length_insertionSort, hf.length_eq]
  · intro hbad
    rw [transformHistoryData_of_items date localeCompare hne, mapItems_of_invalid date hbad]
    rfl

/-- Instance of the amended C19: two items with valid dates give two records. -/
theorem transformHistoryData_shape_witness :
    [itemEarly, itemLate] ≠ [] ∧
    (∀ item ∈ [itemEarly, itemLate], (implementDate isoDate item).isSome = true) ∧
    transformHistoryData isoDate codePointCompare (some ⟨some [itemEarly, itemLate]⟩)
      = some [⟨"2025-10-27T09:00:00", 0, 16, "", 1, -20⟩,
          ⟨"2025-10-26T14:54:04", 1, 0, "A", 0, 30⟩] ∧
    transformHistoryData isoDate codePointCompare (some ⟨some []⟩) = some [] :=
  ⟨by decide, by decide, by decide,
    (transformHistoryData_shape isoDate codePointCompare [itemEarly, itemLate]
      (by decide)).2.2.1⟩

/-! ## User, columns and the second merge -/

section RefinementLemmas

variable (date : String → Option Int)

theorem foldl_mergeHistoryStep (B : List (String × History)) (data acc : JsObj History) :
    B.foldl (mergeHistoryStep date) (data, acc)
      = ((mergeLoop date data B).1, acc ++ (mergeLoop date data B).2) := by
  induction B generalizing data acc with
  | nil => simp [mergeLoop]
  | cons e rest ih =>
    obtain ⟨q, l⟩ := e
    simp only [List.foldl_cons, mergeHistoryStep, mergeLoop]
    cases objGet data q with
    | none => simp only [ih]; simp
    | some x => simp only [ih]; simp

end RefinementLemmas

/-- C21, refuted as stated.  The durable dataset has a user field, the empty string; the
merged dataset has the placeholder for its user. -/
theorem convertToHistoryJsonFormat_empty_user :
    durableEmptyUser.user = some "" ∧
    (convertToHistoryJsonFormat isoDate sampleClock durableEmptyUser
      [("ID116A001", [recT1B, recT2A])]).1.user = some "ユーザ情報なし" := by
  constructor <;> decide

/-- C21, amended.  For a durable dataset `D` whose user is a non-empty string and every
batch `B` the user of the merged dataset is the user of `D`.  The placeholder
`ユーザ情報なし` is used when `D` has no user field and when its user is the empty string,
and in no other case, unless the user of `D` is the placeholder itself. -/
theorem convertToHistoryJsonFormat_user (date : String → Option Int) (now : Clock)
    (D : HistoryJson) (B : JsObj History) :
    (∀ u, D.user = some u → u ≠ "" →
      (convertToHistoryJsonFormat date now D B).1.user = some u) ∧
    (D.user = none ∨ D.user = some "" →
      (convertToHistoryJsonFormat date now D B).1.user = some userPlaceholder) ∧
    ((convertToHistoryJsonFormat date now D B).1.user = some userPlaceholder →
      D.user = none ∨ D.user = some "" ∨ D.user = some userPlaceholder) := by
  refine ⟨?_, ?_, ?_⟩
  · intro u hu hne
    simp [convertToHistoryJsonFormat, jsonClone, orString, hu, hne]
  · rintro (h | h) <;> simp [convertToHistoryJsonFormat, jsonClone, orString, h]
  · intro h
    cases hu : D.user with
    | none => exact Or.inl rfl
    | some u =>
      by_cases hne : u = ""
      · exact Or.inr (Or.inl (by rw [hne]))
      · right; right
        simp [convertToHistoryJsonFormat, jsonClone, orString, hu, hne] at h
        rw [h]

/-- C28. The two merge implementations agree on the data.  For every durable dataset `D`
and batch `B`, `mergeHistoryData(D, B).data` is `convertToHistoryJsonFormat(D, B).data`:
the same question ids in the same order with the same record lists; the batch is left in
the same state by both.  The results differ in the rest: `mergeHistoryData` keeps the user
and the columns of `D` as they are and writes the ISO string of the clock for
`lastUpdated`, `convertToHistoryJsonFormat` defaults user and columns and writes the
shifted, second-precision timestamp. -/
theorem mergeHistoryData_data_eq (date : String → Option Int) (now : Clock)
    (D : HistoryJson) (B : JsObj History) :
    (mergeHistoryData date now D B).1.data = (convertToHistoryJsonFormat date now D B).1.data ∧
    (mergeHistoryData date now D B).2 = (convertToHistoryJsonFormat date now D B).2 ∧
    (mergeHistoryData date now D B).1.user = D.user ∧
    (mergeHistoryData date now D B).1.columns = D.columns ∧
    (mergeHistoryData date now D B).1.lastUpdated = some (String.mk (toISOString now.ms)) ∧
    (convertToHistoryJsonFormat date now D B).1.user
      = some (orString D.user userPlaceholder) ∧
    (convertToHistoryJsonFormat date now D B).1.columns
      = some (D.columns.getD defaultColumns) ∧
    (convertToHistoryJsonFormat date now D B).1.lastUpdated = some (formattedDate now) := by
  refine ⟨?_, ?_, rfl, rfl, rfl, rfl, rfl, rfl⟩
  · simp only [mergeHistoryData, convertToHistoryJsonFormat, jsonClone,
      foldl_mergeHistoryStep]
  · simp only [mergeHistoryData, convertToHistoryJsonFormat, jsonClone,
      foldl_mergeHistoryStep, List.nil_append]

section AgreementLemmas

variable (upper : Char → List Char)

theorem normalizeQuestionId_hyphenated_upper {a b c L : Char} {S : List Char}
    (ha : isDigit a = true) (hb : isDigit b = true) (hc : isDigit c = true)
    (hL : isUpperAZ L = true) (h1 : 1 ≤ S.length) (h3 : S.length ≤ 3)
    (hS : ∀ d ∈ S, isDigit d = true) :
    normalizeQuestionId upper (String.mk ([a, b, c, L, '-'] ++ S))
      = some (String.mk ('I' :: 'D' :: a :: b :: c :: L :: padStart 3 '0' S)) := by
  have hna : isWhiteSpace a = false := (isDigit_facts ha).2.2.2.1
  have hup : asciiUpper L = L := asciiUpper_of_not_lower (isUpperAZ_facts hL).2.1
  obtain ⟨z, hz, hzw⟩ := getLast?_of_digits h1 hS [a, b, c, L, '-']
  have htrim := trim_surrounded [] [] ([a, b, c, L, '-'] ++ S) a z (by simp) (by simp) rfl hz
    hna hzw
  have hclean : toUpperCase upper (trim (String.mk ([a, b, c, L, '-'] ++ S)).data)
      = [a, b, c, L, '-'] ++ S := by
    rw [show (String.mk ([a, b, c, L, '-'] ++ S)).data
      = [] ++ (([a, b, c, L, '-'] ++ S) ++ []) from by simp, htrim]
    simp only [List.cons_append, List.nil_append, toUpperCase_cons, upperChar_digit upper ha,
      upperChar_digit upper hb, upperChar_digit upper hc, upperChar_letter upper (Or.inl hL),
      upperChar_hyphen, toUpperCase_digits upper hS, hup]
  obtain ⟨hcan, hpat⟩ := normalize_hyphenated_cleaned ha hb hc hL h1 h3 hS
  rw [normalizeQuestionId_of_cleaned upper hclean, hcan, hpat]
  simp [show padStart 3 '0' [a, b, c] = [a, b, c] from rfl]

end AgreementLemmas

/-- C29. The three identifier normalizers agree on well-formed hyphenated input.  For a
string made of a three-digit exam number, one capital, a hyphen and a sub-number of one
to three digits, `normalizeQuestionId` (`popup.js`), `convertQuestionNumber`
(`content_main.js`) and `normalizeProblemId` (`content_update.js`) all return the same
id, `ID` + exam number + letter + sub-number padded with zeros to three digits, which is
canonical. -/
theorem normalizers_agree (upper : Char → List Char) (a b c L : Char) (S : List Char)
    (ha : isDigit a = true) (hb : isDigit b = true) (hc : isDigit c = true)
    (hL : isUpperAZ L = true) (h1 : 1 ≤ S.length) (h3 : S.length ≤ 3)
    (hS : ∀ d ∈ S, isDigit d = true) :
    normalizeQuestionId upper (String.mk ([a, b, c, L, '-'] ++ S))
      = some (String.mk ('I' :: 'D' :: a :: b :: c :: L :: padStart 3 '0' S)) ∧
    convertQuestionNumber (String.mk ([a, b, c, L, '-'] ++ S))
      = some (String.mk ('I' :: 'D' :: a :: b :: c :: L :: padStart 3 '0' S)) ∧
    normalizeProblemId (String.mk ([a, b, c, L, '-'] ++ S))
      = String.mk ('I' :: 'D' :: a :: b :: c :: L :: padStart 3 '0' S) ∧
    CanonicalId (String.mk ('I' :: 'D' :: a :: b :: c :: L :: padStart 3 '0' S)) := by
  have hsearch := searchParts_well_formed ha hb hc hL h1 hS
  refine ⟨normalizeQuestionId_hyphenated_upper upper ha hb hc hL h1 h3 hS, ?_, ?_, ?_⟩
  · simp only [convertQuestionNumber, hsearch]
    rfl
  · simp only [normalizeProblemId, hsearch]
    rfl
  · exact isCanonicalId_of_parts ha hb hc hL (padStart_length_three h1 h3) (padStart_digits hS)

/-- Instance of C29: the three normalizers at `116A-1`. -/
theorem normalizers_agree_witness :
    normalizeQuestionId noCaseTable "116A-1" = some "ID116A001" ∧
    convertQuestionNumber "116A-1" = some "ID116A001" ∧
    normalizeProblemId "116A-1" = "ID116A001" ∧
    CanonicalId "ID116A001" :=
  normalizers_agree noCaseTable '1' '1' '6' 'A' ['1'] (by decide) (by decide) (by decide)
    (by decide) (by decide) (by decide) (by decide)

/-! ## The temporary stores -/

section StoreLemmas

theorem storeGet_storePut (store : ObjectStore) (data : TempRecord) :
    storeGet (storePut store data) data.id = some data := by
  induction store with
  | nil => simp [storePut, storeGet]
  | cons r rest ih =>
    by_cases h : r.id = data.id
    · simp [storePut, storeGet, h]
    · simp [storePut, storeGet, h, ih]

theorem storePut_storePut (store : ObjectStore) (d₁ d₂ : TempRecord) (h : d₁.id = d₂.id) :
    storePut (storePut store d₁) d₂ = storePut store d₂ := by
  induction store with
  | nil => simp [storePut, h]
  | cons r rest ih =>
    by_cases hr : r.id = d₁.id
    · have hr2 : r.id = d₂.id := hr.trans h
      simp [storePut, hr, hr2, h]
    · have hr2 : ¬ r.id = d₂.id := fun e => hr (e.trans h.symm)
      simp [storePut, hr, hr2, ih]

theorem objSet_objSet {β : Type} (o : JsObj β) (k : String) (v₁ v₂ : β) :
    objSet (objSet o k v₁) k v₂ = objSet o k v₂ := by
  induction o with
  | nil => simp [objSet]
  | cons e rest ih =>
    obtain ⟨k', v'⟩ := e
    by_cases h : k' = k
    · simp [objSet, h]
    · simp [objSet, h, ih]

theorem storeState_shape {store : ObjectStore} (h : StoreState store) :
    store = [] ∨ ∃ r, store = [r] ∧ r.id = "history_temp" := by
  induction h with
  | created => exact Or.inl rfl
  | saved now succeeds store tempData _ ih =>
    cases succeeds with
    | false => simpa [saveTempHistoryData] using ih
    | true =>
      right
      rcases ih with rfl | ⟨r, rfl, hr⟩
      · exact ⟨{ id := "history_temp", timestamp := now.ms, content := tempData },
          by simp [saveTempHistoryData, storePut], rfl⟩
      · exact ⟨{ id := "history_temp", timestamp := now.ms, content := tempData },
          by simp [saveTempHistoryData, storePut, hr], rfl⟩
  | deleted store _ ih =>
    left
    rcases ih with rfl | ⟨r, rfl, hr⟩
    · rfl
    · simp [deleteTempHistoryData, storeDelete, hr]

end StoreLemmas

/-- C25. The temporary store is a single slot with read-after-write.  For every state of
the object store `history_temp` and every batch `b`: after a successful
`saveTempHistoryData(b)` the store holds exactly one record, with the key `history_temp`,
and `getTempHistoryData` returns `b`; a later successful write of `b'` replaces it, and the
read then returns `b'`; a read with no record returns `null`; a failed write leaves the
store as it was. -/
theorem tempStore_single_slot (store : ObjectStore) (hs : StoreState store) (now : Clock)
    (b : JsObj History) :
    (saveTempHistoryData now true store b).2
      = [{ id := "history_temp", timestamp := now.ms, content := b }] ∧
    getTempHistoryData (saveTempHistoryData now true store b).2 = some b ∧
    (∀ (later : Clock) (b' : JsObj History),
      (saveTempHistoryData later true (saveTempHistoryData now true store b).2 b').2
        = [{ id := "history_temp", timestamp := later.ms, content := b' }] ∧
      getTempHistoryData
        (saveTempHistoryData later true (saveTempHistoryData now true store b).2 b').2
        = some b') ∧
    (storeGet store "history_temp" = none → getTempHistoryData store = none) ∧
    getTempHistoryData [] = none ∧
    (saveTempHistoryData now false store b).2 = store := by
  have hput : ∀ (s : ObjectStore), StoreState s → ∀ (c : Clock) (x : JsObj History),
      (saveTempHistoryData c true s x).2
        = [{ id := "history_temp", timestamp := c.ms, content := x }] := by
    intro s hS c x
    rcases storeState_shape hS with rfl | ⟨r, rfl, hr⟩
    · simp [saveTempHistoryData, storePut]
    · simp [saveTempHistoryData, storePut, hr]
  refine ⟨hput store hs now b, ?_, ?_, ?_, rfl, rfl⟩
  · rw [hput store hs now b]
    simp [getTempHistoryData, storeGet]
  · intro later b'
    have h1 := hput _ (StoreState.saved now true store b hs) later b'
    refine ⟨h1, ?_⟩
    rw [h1]
    simp [getTempHistoryData, storeGet]
  · intro h
    simp [getTempHistoryData, h]

/-- Instance of C25: a write into the store as created, then a second write. -/
theorem tempStore_single_slot_witness :
    StoreState [] ∧
    (saveTempHistoryData sampleClock true [] ascendingBatch).2
      = [{ id := "history_temp", timestamp := 1761458044000, content := ascendingBatch }] ∧
    getTempHistoryData
        (saveTempHistoryData laterClock true
          (saveTempHistoryData sampleClock true [] ascendingBatch).2 []).2 = some [] ∧
    getTempHistoryData (saveTempHistoryData sampleClock true [] ascendingBatch).2
      = some ascendingBatch :=
  ⟨StoreState.created, by decide, by decide,
    (tempStore_single_slot [] StoreState.created sampleClock ascendingBatch).2.1⟩

/-! ## The collection loop -/

section CollectionLemmas

theorem collectionLoop_spec (outcomes : List FetchOutcome) (i : Nat) (state : CollectionState) :
    (collectionLoop i state outcomes).collectedData
        = collectAll state.collectedData outcomes ∧
    (collectionLoop i state outcomes).checkpoints
        = state.checkpoints ++
          ((List.range outcomes.length).filter fun j => decide ((i + j + 1) % 50 = 0)).map
            fun j => (i + j + 1, collectAll state.collectedData (outcomes.take (j + 1))) := by
  induction outcomes generalizing i state with
  | nil => simp [collectionLoop, collectAll]
  | cons outcome rest ih =>
    have hrange : List.range (rest.length + 1) = 0 :: (List.range rest.length).map Nat.succ :=
      List.range_succ_eq_map rest.length
    have hp : (fun j => decide ((i + 1 + j + 1) % 50 = 0))
        = (fun j => decide ((i + j + 1) % 50 = 0)) ∘ Nat.succ := by
      funext j
      have : i + 1 + j + 1 = i + (j + 1) + 1 := by omega
      simp [Function.comp, this]
    have hf : (fun j => (i + 1 + j + 1,
          collectAll (collectOne state.collectedData outcome) (rest.take (j + 1))))
        = (fun j => (i + j + 1, collectAll state.collectedData ((outcome :: rest).take (j + 1))))
          ∘ Nat.succ := by
      funext j
      have : i + 1 + j + 1 = i + (j + 1) + 1 := by omega
      simp [Function.comp, this, collectAll]
    have htail : ((List.map Nat.succ (List.range rest.length)).filter
          fun j => decide ((i + j + 1) % 50 = 0)).map
          (fun j => (i + j + 1, collectAll state.collectedData ((outcome :: rest).take (j + 1))))
        = ((List.range rest.length).filter fun j => decide ((i + 1 + j + 1) % 50 = 0)).map
          fun j => (i + 1 + j + 1,
            collectAll (collectOne state.collectedData outcome) (rest.take (j + 1))) := by
      rw [List.filter_map, List.map_map, hp, hf]
    have hall : collectAll state.collectedData (outcome :: rest)
        = collectAll (collectOne state.collectedData outcome) rest := rfl
    simp only [collectionLoop, List.length_cons, hrange, List.filter_cons, Nat.add_zero]
    by_cases h : (i + 1) % 50 = 0
    · obtain ⟨h1, h2⟩ := ih (i + 1)
        { collectedData := collectOne state.collectedData outcome
          checkpoints := state.checkpoints ++ [(i + 1, collectOne state.collectedData outcome)] }
      simp only [h, if_true, decide_True, List.map_cons, htail]
      refine ⟨by rw [h1, hall], ?_⟩
      rw [h2]
      simp [collectAll]
    · obtain ⟨h1, h2⟩ := ih (i + 1)
        { collectedData := collectOne state.collectedData outcome
          checkpoints := state.checkpoints }
      simp only [h, if_false, decide_False, Bool.false_eq_true, htail]
      exact ⟨by rw [h1, hall], h2⟩

end CollectionLemmas


/-- C27, refuted as stated.  After forty-nine failed fetches and one success the loop
issues a checkpoint, at its fiftieth iteration, though one question has been collected.
After one failed fetch and fifty successes the only checkpoint is that of the fiftieth
iteration, with forty-nine questions: none is issued when the number of collected
questions reaches fifty. -/
theorem startDataCollection_checkpoint_by_iteration :
    (startDataCollection mostlyFailures).checkpoints = [(50, [("ID116A001", [recT1A])])] ∧
    (startDataCollection oneFailureThenFifty).checkpoints.map Prod.fst = [50] ∧
    ((startDataCollection oneFailureThenFifty).checkpoints.map fun c => c.2.length) = [49] ∧
    (startDataCollection oneFailureThenFifty).collectedData.length = 50 := by
  refine ⟨by decide, by decide, by decide, by decide⟩

/-- C27, amended.  In the collection loop of `startDataCollection`, a fold over the
outcomes of the fetches, a checkpoint write of the batch collected so far is issued each
time the number of iterations done, successful or not, reaches a multiple of 50, and at no
other point inside the loop: the checkpoints are, in order, those of the iterations
`k = 50, 100, ...` up to the number of outcomes, each with the batch collected from the
first `k` outcomes. -/
theorem startDataCollection_checkpoints (outcomes : List FetchOutcome) :
    (startDataCollection outcomes).checkpoints
      = ((List.range outcomes.length).filter fun j => decide ((j + 1) % 50 = 0)).map
          (fun j => (j + 1, collectAll [] (outcomes.take (j + 1)))) ∧
    (startDataCollection outcomes).collectedData = collectAll [] outcomes ∧
    ∀ k batch, (k, batch) ∈ (startDataCollection outcomes).checkpoints ↔
      (1 ≤ k ∧ k ≤ outcomes.length ∧ k % 50 = 0 ∧ batch = collectAll [] (outcomes.take k)) := by
  obtain ⟨h1, h2⟩ := collectionLoop_spec outcomes 0 { collectedData := [], checkpoints := [] }
  have hc : (startDataCollection outcomes).checkpoints
      = ((List.range outcomes.length).filter fun j => decide ((j + 1) % 50 = 0)).map
          (fun j => (j + 1, collectAll [] (outcomes.take (j + 1)))) := by
    unfold startDataCollection
    rw [h2]
    simp
  refine ⟨hc, h1, ?_⟩
  intro k batch
  rw [hc]
  simp only [List.mem_map, List.mem_filter, List.mem_range, decide_eq_true_eq, Prod.mk.injEq]
  constructor
  · rintro ⟨j, ⟨hj, hmod⟩, rfl, rfl⟩
    exact ⟨by omega, by omega, hmod, rfl⟩
  · rintro ⟨hk1, hk2, hmod, rfl⟩
    refine ⟨k - 1, ⟨by omega, ?_⟩, by omega, ?_⟩
    · have : k - 1 + 1 = k := by omega
      rw [this]; exact hmod
    · have : k - 1 + 1 = k := by omega
      rw [this]

/-! ## The timestamp of a merge -/

theorem toNat_ofNat_digit : ∀ k, k < 10 → (Char.ofNat (48 + k)).toNat = 48 + k := by
  decide

theorem isDigit_digitChar (n i : Nat) : isDigit (digitChar n i) = true := by
  have hk : n / 10 ^ i % 10 < 10 := Nat.mod_lt _ (by decide)
  simp only [isDigit, digitChar, toNat_ofNat_digit _ hk, decide_eq_true_eq]
  omega

theorem isDigit_of_mem_padDigits {w n : Nat} {c : Char} (h : c ∈ padDigits w n) :
    isDigit c = true := by
  simp only [padDigits, List.mem_map] at h
  obtain ⟨i, -, rfl⟩ := h
  exact isDigit_digitChar n i

theorem length_padDigits (w n : Nat) : (padDigits w n).length = w := by
  simp [padDigits]

theorem splitOn_of_not_mem (sep : Char) (s : List Char) (h : sep ∉ s) :
    splitOn sep s = [s] := by
  induction s with
  | nil => rfl
  | cons c cs ih =>
    have hc : ¬ c = sep := fun e => h (by simp [e])
    have hcs : sep ∉ cs := fun e => h (List.mem_cons_of_mem _ e)
    simp [splitOn, hc, ih hcs]

theorem splitOn_append_sep (sep : Char) (front back : List Char) (h : sep ∉ front) :
    splitOn sep (front ++ sep :: back) = front :: splitOn sep back := by
  induction front with
  | nil => simp [splitOn]
  | cons c cs ih =>
    have hc : ¬ c = sep := fun e => h (by simp [e])
    have hcs : sep ∉ cs := fun e => h (List.mem_cons_of_mem _ e)
    simp [splitOn, hc, ih hcs]

theorem civilFromDays_range (day : Int) :
    1 ≤ (civilFromDays day).2.1 ∧ (civilFromDays day).2.1 ≤ 12 ∧
    1 ≤ (civilFromDays day).2.2 ∧ (civilFromDays day).2.2 ≤ 31 := by
  simp only [civilFromDays]
  split_ifs <;> omega

theorem not_mem_of_digits {sep : Char} (hsep : isDigit sep = false) {l : List Char}
    (h : ∀ c ∈ l, isDigit c = true) : sep ∉ l := by
  intro hmem
  rw [h sep hmem] at hsep
  exact absurd hsep (by simp)



theorem formattedDate_eq (now : Clock)
    (hyear : 0 ≤ (civilFromDays ((now.ms + jstShift) / 86400000)).1 ∧
      (civilFromDays ((now.ms + jstShift) / 86400000)).1 ≤ 9999) :
    formattedDate now = String.mk
      (padDigits 4 (civilFromDays ((now.ms + jstShift) / 86400000)).1.toNat
        ++ '-' :: padDigits 2 (civilFromDays ((now.ms + jstShift) / 86400000)).2.1.toNat
        ++ '-' :: padDigits 2 (civilFromDays ((now.ms + jstShift) / 86400000)).2.2.toNat
        ++ 'T' :: padDigits 2 (((now.ms + jstShift) % 86400000).toNat / 3600000)
        ++ ':' :: padDigits 2 (((now.ms + jstShift) % 86400000).toNat / 60000 % 60)
        ++ ':' :: padDigits 2 (((now.ms + jstShift) % 86400000).toNat / 1000 % 60)) ∧
    (formattedDate now).length = 19 ∧
    (1 ≤ (civilFromDays ((now.ms + jstShift) / 86400000)).2.1 ∧
      (civilFromDays ((now.ms + jstShift) / 86400000)).2.1 ≤ 12 ∧
      1 ≤ (civilFromDays ((now.ms + jstShift) / 86400000)).2.2 ∧
      (civilFromDays ((now.ms + jstShift) / 86400000)).2.2 ≤ 31) ∧
    ((now.ms + jstShift) % 86400000).toNat / 3600000 < 24 := by
  have hd4 : ∀ n, ∀ c ∈ padDigits 4 n, isDigit c = true := fun n c h => isDigit_of_mem_padDigits h
  have hd2 : ∀ n, ∀ c ∈ padDigits 2 n, isDigit c = true := fun n c h => isDigit_of_mem_padDigits h
  have hT : isDigit 'T' = false := by decide
  have hdot : isDigit '.' = false := by decide
  have hfront : 'T' ∉ padDigits 4 (civilFromDays ((now.ms + jstShift) / 86400000)).1.toNat
      ++ '-' :: padDigits 2 (civilFromDays ((now.ms + jstShift) / 86400000)).2.1.toNat
      ++ '-' :: padDigits 2 (civilFromDays ((now.ms + jstShift) / 86400000)).2.2.toNat := by
    simp only [List.mem_append, List.mem_cons, not_or]
    exact ⟨⟨not_mem_of_digits hT (hd4 _), by decide, not_mem_of_digits hT (hd2 _)⟩, by decide,
      not_mem_of_digits hT (hd2 _)⟩
  have htime : '.' ∉ padDigits 2 (((now.ms + jstShift) % 86400000).toNat / 3600000)
      ++ ':' :: padDigits 2 (((now.ms + jstShift) % 86400000).toNat / 60000 % 60)
      ++ ':' :: padDigits 2 (((now.ms + jstShift) % 86400000).toNat / 1000 % 60) := by
    simp only [List.mem_append, List.mem_cons, not_or]
    exact ⟨⟨not_mem_of_digits hdot (hd2 _), by decide, not_mem_of_digits hdot (hd2 _)⟩,
      by decide, not_mem_of_digits hdot (hd2 _)⟩
  have hback : 'T' ∉ padDigits 2 (((now.ms + jstShift) % 86400000).toNat / 3600000)
      ++ ':' :: padDigits 2 (((now.ms + jstShift) % 86400000).toNat / 60000 % 60)
      ++ ':' :: padDigits 2 (((now.ms + jstShift) % 86400000).toNat / 1000 % 60)
      ++ '.' :: padDigits 3 (((now.ms + jstShift) % 86400000).toNat % 1000) ++ ['Z'] := by
    simp only [List.mem_append, List.mem_cons, List.mem_singleton, not_or, List.not_mem_nil,
      or_false]
    exact ⟨⟨⟨⟨not_mem_of_digits hT (hd2 _), by decide, not_mem_of_digits hT (hd2 _)⟩, by decide,
      not_mem_of_digits hT (hd2 _)⟩, by decide,
      not_mem_of_digits hT (fun c h => isDigit_of_mem_padDigits h)⟩, by decide⟩
  have hiso : toISOString (now.ms + jstShift)
      = (padDigits 4 (civilFromDays ((now.ms + jstShift) / 86400000)).1.toNat
          ++ '-' :: padDigits 2 (civilFromDays ((now.ms + jstShift) / 86400000)).2.1.toNat
          ++ '-' :: padDigits 2 (civilFromDays ((now.ms + jstShift) / 86400000)).2.2.toNat)
        ++ 'T' :: ((padDigits 2 (((now.ms + jstShift) % 86400000).toNat / 3600000)
          ++ ':' :: padDigits 2 (((now.ms + jstShift) % 86400000).toNat / 60000 % 60)
          ++ ':' :: padDigits 2 (((now.ms + jstShift) % 86400000).toNat / 1000 % 60))
          ++ '.' :: (padDigits 3 (((now.ms + jstShift) % 86400000).toNat % 1000) ++ ['Z'])) := by
    simp only [toISOString, isoYear, hyear, and_self, if_true, List.append_assoc,
      List.cons_append]
  have hsplit : splitOn 'T' (toISOString (now.ms + jstShift))
      = [padDigits 4 (civilFromDays ((now.ms + jstShift) / 86400000)).1.toNat
          ++ '-' :: padDigits 2 (civilFromDays ((now.ms + jstShift) / 86400000)).2.1.toNat
          ++ '-' :: padDigits 2 (civilFromDays ((now.ms + jstShift) / 86400000)).2.2.toNat,
        (padDigits 2 (((now.ms + jstShift) % 86400000).toNat / 3600000)
          ++ ':' :: padDigits 2 (((now.ms + jstShift) % 86400000).toNat / 60000 % 60)
          ++ ':' :: padDigits 2 (((now.ms + jstShift) % 86400000).toNat / 1000 % 60))
          ++ '.' :: (padDigits 3 (((now.ms + jstShift) % 86400000).toNat % 1000) ++ ['Z'])] := by
    rw [hiso, splitOn_append_sep _ _ _ hfront, splitOn_of_not_mem]
    simpa [List.append_assoc] using hback
  have hmain : formattedDate now = String.mk
      (padDigits 4 (civilFromDays ((now.ms + jstShift) / 86400000)).1.toNat
        ++ '-' :: padDigits 2 (civilFromDays ((now.ms + jstShift) / 86400000)).2.1.toNat
        ++ '-' :: padDigits 2 (civilFromDays ((now.ms + jstShift) / 86400000)).2.2.toNat
        ++ 'T' :: padDigits 2 (((now.ms + jstShift) % 86400000).toNat / 3600000)
        ++ ':' :: padDigits 2 (((now.ms + jstShift) % 86400000).toNat / 60000 % 60)
        ++ ':' :: padDigits 2 (((now.ms + jstShift) % 86400000).toNat / 1000 % 60)) := by
    simp only [formattedDate, hsplit, List.getD_cons_zero, List.getD_cons_succ,
      splitOn_append_sep _ _ _ htime]
    simp [List.append_assoc]
  refine ⟨hmain, ?_, civilFromDays_range _, ?_⟩
  · rw [hmain]
    simp [String.length, length_padDigits]
  · have h1 : 0 ≤ (now.ms + jstShift) % 86400000 := Int.emod_nonneg _ (by decide)
    have h2 : (now.ms + jstShift) % 86400000 < 86400000 := Int.emod_lt_of_pos _ (by decide)
    omega

/-- C23, at the end of the year 9999.  The clock reading 9999-12-31T15:00:00.000Z is an
instant of the year 9999, yet its shift by nine hours is the first instant of the year
10000, which `toISOString` writes with a sign and six digits: the timestamp is
`+010000-01-01T00:00:00`, of 22 characters. -/
theorem convertToHistoryJsonFormat_lastUpdated_year_end :
    (civilFromDays (yearEndClock.ms / 86400000)).1 = 9999 ∧
    (convertToHistoryJsonFormat isoDate yearEndClock durableOne []).1.lastUpdated
      = some "+010000-01-01T00:00:00" ∧
    ("+010000-01-01T00:00:00").length = 22 := by
  refine ⟨by decide, by decide, by decide⟩

/-- C23, amended.  For every clock reading `now` whose shift by nine hours falls in a year
from 0 to 9999, the `lastUpdated` of the merged dataset is the 19-character text
`YYYY-MM-DDTHH:MM:SS` of the UTC calendar fields of `now + 9 h`: the year on four digits,
month (1 to 12), day (1 to 31), hour (below 24), minute and second (the remainders modulo
60) on two digits each, with no fraction and no zone marker. -/
theorem convertToHistoryJsonFormat_lastUpdated (date : String → Option Int) (now : Clock)
    (D : HistoryJson) (B : JsObj History)
    (hyear : 0 ≤ (civilFromDays ((now.ms + jstShift) / 86400000)).1 ∧
      (civilFromDays ((now.ms + jstShift) / 86400000)).1 ≤ 9999) :
    (convertToHistoryJsonFormat date now D B).1.lastUpdated = some (String.mk
      (padDigits 4 (civilFromDays ((now.ms + jstShift) / 86400000)).1.toNat
        ++ '-' :: padDigits 2 (civilFromDays ((now.ms + jstShift) / 86400000)).2.1.toNat
        ++ '-' :: padDigits 2 (civilFromDays ((now.ms + jstShift) / 86400000)).2.2.toNat
        ++ 'T' :: padDigits 2 (((now.ms + jstShift) % 86400000).toNat / 3600000)
        ++ ':' :: padDigits 2 (((now.ms + jstShift) % 86400000).toNat / 60000 % 60)
        ++ ':' :: padDigits 2 (((now.ms + jstShift) % 86400000).toNat / 1000 % 60))) ∧
    (∀ s, (convertToHistoryJsonFormat date now D B).1.lastUpdated = some s → s.length = 19) ∧
    (1 ≤ (civilFromDays ((now.ms + jstShift) / 86400000)).2.1 ∧
      (civilFromDays ((now.ms + jstShift) / 86400000)).2.1 ≤ 12 ∧
      1 ≤ (civilFromDays ((now.ms + jstShift) / 86400000)).2.2 ∧
      (civilFromDays ((now.ms + jstShift) / 86400000)).2.2 ≤ 31) ∧
    ((now.ms + jstShift) % 86400000).toNat / 3600000 < 24 := by
  have h := formattedDate_eq now hyear
  refine ⟨?_, ?_, h.2.2.1, h.2.2.2⟩
  · show some (formattedDate now) = _
    rw [h.1]
  · intro s hs
    have hs' : some (formattedDate now) = some s := hs
    rw [← Option.some.inj hs']
    exact h.2.1

theorem convertToHistoryJsonFormat_lastUpdated_witness :
    (0 ≤ (civilFromDays ((sampleClock.ms + jstShift) / 86400000)).1 ∧
      (civilFromDays ((sampleClock.ms + jstShift) / 86400000)).1 ≤ 9999) ∧
    (convertToHistoryJsonFormat isoDate sampleClock durableOne []).1.lastUpdated
      = some "2025-10-26T14:54:04" ∧
    (∀ s, (convertToHistoryJsonFormat isoDate sampleClock durableOne []).1.lastUpdated
      = some s → s.length = 19) :=
  ⟨by decide, by decide,
    (convertToHistoryJsonFormat_lastUpdated isoDate sampleClock durableOne [] (by decide)).2.1⟩

/-! ## The layout of the serializer -/

theorem foldl_append_string (l : List String) (acc : String) :
    l.foldl (fun r s => r ++ s) acc = acc ++ l.foldl (fun r s => r ++ s) "" := by
  induction l generalizing acc with
  | nil => simp
  | cons a l ih =>
    simp only [List.foldl_cons]
    rw [ih (acc ++ a), ih ("" ++ a), String.empty_append, String.append_assoc]

theorem join_cons (a : String) (l : List String) :
    String.join (a :: l) = a ++ String.join l := by
  simp only [String.join, List.foldl_cons]
  rw [foldl_append_string, String.empty_append]

theorem join_nil : String.join [] = "" := rfl

theorem foldedLines_enumFrom (rest : History) (k n : Nat) (hn : n = k + rest.length) :
    String.join ((rest.enumFrom k).map fun jr => recordLine n jr.1 jr.2) = foldedLines rest := by
  induction rest generalizing k with
  | nil => rfl
  | cons r rest ih =>
    cases rest with
    | nil =>
      simp only [List.enumFrom_cons, List.enumFrom_nil, List.map_cons, List.map_nil, join_cons,
        join_nil, recordLine, foldedLines]
      have : ¬ k + 1 < n := by simp [hn]
      simp [this]
    | cons r₂ rest =>
      rw [List.enumFrom_cons, List.map_cons, join_cons, ih (k + 1) (by simp [hn]; omega)]
      have : k + 1 < n := by simp [hn]
      simp only [recordLine, this, if_true, foldedLines, String.append_assoc]

theorem foldedLines_eq_join (records : History) :
    foldedLines records = String.join (recordLines records) := by
  rw [recordLines, List.enum, foldedLines_enumFrom records 0 records.length (by simp)]

theorem formatEntries_enumFrom (rest : JsObj History) (k n : Nat) (hn : n = k + rest.length) :
    String.join ((rest.enumFrom k).map fun ie => entryLine n ie.1 ie.2) = formatEntries rest := by
  induction rest generalizing k with
  | nil => rfl
  | cons e rest ih =>
    cases rest with
    | nil =>
      simp only [List.enumFrom_cons, List.enumFrom_nil, List.map_cons, List.map_nil, join_cons,
        join_nil, entryLine, formatEntries]
      have : ¬ k + 1 < n := by simp [hn]
      simp [this]
    | cons e₂ rest =>
      rw [List.enumFrom_cons, List.map_cons, join_cons, ih (k + 1) (by simp [hn]; omega)]
      have : k + 1 < n := by simp [hn]
      simp only [entryLine, this, if_true, formatEntries, String.append_assoc]

theorem formatEntries_eq_join (dataObj : JsObj History) :
    formatEntries dataObj = String.join (entryLines dataObj) := by
  rw [entryLines, List.enum, formatEntries_enumFrom dataObj 0 dataObj.length (by simp)]

/-! ### The compact text has no line break -/

theorem hexDigit_ne_newline : ∀ n, n < 16 → hexDigit n ≠ '\n' := by decide

theorem newline_not_mem_quoteChar (c : Char) : '\n' ∉ quoteChar c := by
  unfold quoteChar
  split_ifs with h1 h2 h3 h4 h5 h6 h7 h8
  · decide
  · decide
  · decide
  · decide
  · decide
  · decide
  · decide
  · have ha : c.toNat / 16 < 16 := by omega
    have hb : c.toNat % 16 < 16 := by omega
    have h9 := hexDigit_ne_newline _ ha
    have h10 := hexDigit_ne_newline _ hb
    simp only [List.mem_cons, List.mem_singleton, List.not_mem_nil, or_false, not_or]
    exact ⟨by decide, by decide, by decide, by decide, fun h => h9 h.symm, fun h => h10 h.symm⟩
  · simp only [List.mem_singleton]
    exact fun h => h5 h.symm

theorem newline_not_mem_jsonString (s : String) : '\n' ∉ (jsonString s).data := by
  simp only [jsonString, List.mem_cons, List.mem_append, List.mem_flatMap, List.mem_singleton,
    List.not_mem_nil, or_false, not_or, not_exists, not_and]
  exact ⟨by decide, fun c _ => newline_not_mem_quoteChar c, by decide⟩

theorem isDigit_of_mem_natDigits (fuel n : Nat) : ∀ c ∈ natDigits fuel n, isDigit c = true := by
  induction fuel generalizing n with
  | zero => simp [natDigits]
  | succ fuel ih =>
    intro c hc
    unfold natDigits at hc
    split_ifs at hc with h
    · simp only [List.mem_singleton] at hc
      subst hc
      simp only [isDigit, toNat_ofNat_digit _ h, decide_eq_true_eq]
      omega
    · rcases List.mem_append.1 hc with hc | hc
      · exact ih _ c hc
      · simp only [List.mem_singleton] at hc
        subst hc
        have hk : n % 10 < 10 := Nat.mod_lt _ (by decide)
        simp only [isDigit, toNat_ofNat_digit _ hk, decide_eq_true_eq]
        omega

theorem newline_not_mem_jsonInt (n : Int) : '\n' ∉ (jsonInt n).data := by
  simp only [jsonInt, List.mem_append, not_or]
  constructor
  · split_ifs <;> decide
  · exact not_mem_of_digits (by decide) (isDigit_of_mem_natDigits _ _)

theorem not_mem_intercalate_go (c : Char) (sep : String) (hsep : c ∉ sep.data)
    (items : List String) (acc : String) (hacc : c ∉ acc.data)
    (hitems : ∀ s ∈ items, c ∉ s.data) : c ∉ (String.intercalate.go acc sep items).data := by
  induction items generalizing acc with
  | nil => simpa [String.intercalate.go] using hacc
  | cons a items ih =>
    simp only [String.intercalate.go]
    apply ih
    · simp only [String.data_append, List.mem_append, not_or]
      exact ⟨⟨hacc, hsep⟩, hitems a (List.mem_cons_self _ _)⟩
    · exact fun s hs => hitems s (List.mem_cons_of_mem _ hs)

theorem newline_not_mem_jsonArray (items : List String) (h : ∀ s ∈ items, '\n' ∉ s.data) :
    '\n' ∉ (jsonArray items).data := by
  have hmid : '\n' ∉ (",".intercalate items).data := by
    cases items with
    | nil => simp [String.intercalate]
    | cons a items =>
      simp only [String.intercalate]
      exact not_mem_intercalate_go _ _ (by decide) items a (h a (List.mem_cons_self _ _))
        (fun s hs => h s (List.mem_cons_of_mem _ hs))
  simp only [jsonArray, String.data_append, List.mem_append, not_or]
  exact ⟨⟨by decide, hmid⟩, by decide⟩

theorem newline_not_mem_jsonRecord (r : Record) : '\n' ∉ (jsonRecord r).data := by
  apply newline_not_mem_jsonArray
  intro s hs
  simp only [List.mem_cons, List.mem_singleton, List.not_mem_nil, or_false] at hs
  rcases hs with rfl | rfl | rfl | rfl | rfl | rfl
  · exact newline_not_mem_jsonString _
  · exact newline_not_mem_jsonInt _
  · exact newline_not_mem_jsonInt _
  · exact newline_not_mem_jsonString _
  · exact newline_not_mem_jsonInt _
  · exact newline_not_mem_jsonInt _

theorem newline_not_mem_jsonRecords (records : History) : '\n' ∉ (jsonRecords records).data := by
  apply newline_not_mem_jsonArray
  intro s hs
  obtain ⟨r, -, rfl⟩ := List.mem_map.1 hs
  exact newline_not_mem_jsonRecord r

theorem formattedRecords_compact_iff (records : History) :
    formattedRecords records = jsonRecords records ↔
      utf16Length (jsonRecords records) ≤ THRESHOLD := by
  unfold formattedRecords
  split_ifs with h
  · constructor
    · intro heq
      exfalso
      apply newline_not_mem_jsonRecords records
      rw [← heq]
      simp only [String.data_append, List.mem_append]
      exact Or.inl (Or.inl (by decide))
    · intro hle
      omega
  · exact ⟨fun _ => by omega, fun _ => rfl⟩

/-- C24. Line folding of the serializer.  The text of a dataset is a head (user, timestamp,
columns, the opening of `data`), one line group per question (four spaces, the key between
double quotes, a colon and a space, the rendering of the records, a comma unless it is the
last question, a line break) and the two closing braces.  For every question of `data` the
rendering of its records is their compact text, which has no line break, if and only if
that text has at most 100 characters (UTF-16 code units, the `length` of the string);
otherwise it is an opening bracket and a line break, one line per record (six spaces, the
compact text of the record, which has no line break, a comma unless it is the last record,
a line break), four spaces and a closing bracket. -/
theorem formatHistoryJson_line_folding (d : HistoryJson) (dataObj : JsObj History)
    (hd : d.data = some dataObj) :
    (∃ head : String, formatHistoryJson d
      = some (head ++ String.join (entryLines dataObj) ++ "  \x7d\n" ++ "\x7d")) ∧
    ∀ e ∈ dataObj,
      (formattedRecords e.2 = jsonRecords e.2 ↔ utf16Length (jsonRecords e.2) ≤ 100) ∧
      (100 < utf16Length (jsonRecords e.2) →
        formattedRecords e.2 = "[\n" ++ String.join (recordLines e.2) ++ "    ]") ∧
      '\n' ∉ (jsonRecords e.2).data ∧ ∀ r ∈ e.2, '\n' ∉ (jsonRecord r).data := by
  refine ⟨?_, fun e _ => ⟨formattedRecords_compact_iff e.2, ?_, newline_not_mem_jsonRecords e.2,
    fun r _ => newline_not_mem_jsonRecord r⟩⟩
  · simp only [formatHistoryJson, hd, formatEntries_eq_join]
    exact ⟨_, rfl⟩
  · intro h
    have h' : utf16Length (jsonRecords e.2) > THRESHOLD := h
    simp only [formattedRecords, h', if_true, foldedLines_eq_join]

set_option maxRecDepth 100000 in
theorem formatHistoryJson_line_folding_witness :
    durableTwo.data = some [("ID116A001", [recT1A]), ("ID116A002", threeRecords)] ∧
    utf16Length (jsonRecords [recT1A]) = 38 ∧ utf16Length (jsonRecords threeRecords) = 112 ∧
    formatHistoryJson durableTwo = some
      ("\x7b\n  \"ユーザ\": \"u\",\n  \"最終更新\": \"2025-10-26T15:00:00\",\n"
        ++ "  \"columns\": [\"実施日時\",\"学習区分\",\"確信度\",\"解答\",\"正誤\",\"実施時間\"],\n"
        ++ "  \"data\": \x7b\n"
        ++ "    \"ID116A001\": [[\"2025-10-26T14:54:04\",0,0,\"A\",1,30]],\n"
        ++ "    \"ID116A002\": [\n"
        ++ "      [\"2025-10-27T09:00:00\",0,0,\"A\",1,20],\n"
        ++ "      [\"2025-10-26T14:54:04\",0,0,\"A\",1,30],\n"
        ++ "      [\"2025-10-26T14:54:04\",0,0,\"B\",0,40]\n"
        ++ "    ]\n"
        ++ "  \x7d\n\x7d") ∧
    ((∃ head : String, formatHistoryJson durableTwo
      = some (head ++ String.join (entryLines [("ID116A001", [recT1A]),
          ("ID116A002", threeRecords)]) ++ "  \x7d\n" ++ "\x7d")) ∧
    ∀ e ∈ [("ID116A001", [recT1A]), ("ID116A002", threeRecords)],
      (formattedRecords e.2 = jsonRecords e.2 ↔ utf16Length (jsonRecords e.2) ≤ 100) ∧
      (100 < utf16Length (jsonRecords e.2) →
        formattedRecords e.2 = "[\n" ++ String.join (recordLines e.2) ++ "    ]") ∧
      '\n' ∉ (jsonRecords e.2).data ∧ ∀ r ∈ e.2, '\n' ∉ (jsonRecord r).data) :=
  ⟨rfl, by decide, by decide, by rfl,
    formatHistoryJson_line_folding durableTwo _ rfl⟩

/-! ## The history search -/

theorem mem_filterQuestions (percent : Nat → Nat → ℚ) (localeCompare : String → String → Int)
    (baseData : JsObj QuestionData) (historyData : HistoryJson)
    (baseFilters : BaseFilters) (historyFilters : HistoryFilters) (r : SearchResult) :
    r ∈ filterQuestions percent localeCompare baseData historyData baseFilters historyFilters
      ↔ ∃ e ∈ baseData,
        filterQuestion percent historyData baseFilters historyFilters e = some r := by
  unfold filterQuestions
  rw [(List.perm_insertionSort _ _).mem_iff, List.mem_filterMap]

theorem length_sliceFromStart_lt {α : Type} (l : List α) (N : Int)
    (h : ¬ ((sliceFromStart l N).length : Int) < N) : N ≤ l.length := by
  unfold sliceFromStart at h
  split_ifs at h with h0
  · simp only [List.length_take] at h
    omega
  · omega

theorem mem_sliceFromStart_of_mem_take {α : Type} (l : List α) (N : Int) (a : α)
    (ha : a ∈ l.take N.toNat) : a ∈ sliceFromStart l N := by
  unfold sliceFromStart
  split_ifs with h0
  · exact ha
  · have : N.toNat = 0 := by omega
    rw [this] at ha
    simp at ha

theorem recentWrongExcluded_spec (N : Int) (attempts : History)
    (h : recentWrongExcluded (some N) attempts = false) (hpos : 1 ≤ attempts.length) :
    N ≤ attempts.length ∧ ∀ a ∈ attempts.take N.toNat, a.falsehood = 0 := by
  simp only [recentWrongExcluded] at h
  have hpos' : attempts.length > 0 := hpos
  rw [if_pos hpos'] at h
  split_ifs at h with hlt
  refine ⟨length_sliceFromStart_lt attempts N hlt, fun a ha => ?_⟩
  simp only [Bool.not_eq_false', List.all_eq_true, decide_eq_true_eq] at h
  exact h a (mem_sliceFromStart_of_mem_take attempts N a ha)

theorem recentWrongExcluded_nil (recentWrongCount : Option Int) :
    recentWrongExcluded recentWrongCount [] = false := by
  cases recentWrongCount <;> simp [recentWrongExcluded]

theorem filterQuestion_spec (percent : Nat → Nat → ℚ) (historyData : HistoryJson)
    (baseFilters : BaseFilters) (historyFilters : HistoryFilters)
    (e : String × QuestionData) (r : SearchResult)
    (h : filterQuestion percent historyData baseFilters historyFilters e = some r) :
    r.id = e.1 ∧ r.attempts = (attemptsOf historyData e.1).length ∧
    r.history = ((attemptsOf historyData e.1).map historyEntry).reverse ∧
    recentWrongExcluded historyFilters.recentWrongCount (attemptsOf historyData e.1) = false ∧
    historyFilters.attemptsMin ≤ (attemptsOf historyData e.1).length ∧
    ((attemptsOf historyData e.1).length : Int) ≤ historyFilters.attemptsMax := by
  simp only [filterQuestion] at h
  split_ifs at h with h1 h2 h3 h4 h5
  all_goals
    have hr := Option.some.inj h
    subst hr
    refine ⟨rfl, rfl, rfl, by simpa using h4, ?_, ?_⟩ <;> omega

theorem filterQuestion_without_recent (percent : Nat → Nat → ℚ) (historyData : HistoryJson)
    (baseFilters : BaseFilters) (historyFilters : HistoryFilters)
    (e : String × QuestionData) (h : attemptsOf historyData e.1 = []) :
    filterQuestion percent historyData baseFilters historyFilters e
      = filterQuestion percent historyData baseFilters
          { historyFilters with recentWrongCount := none } e := by
  simp only [filterQuestion, h, recentWrongExcluded_nil, correctRateExcluded]

/-- C30. The recent-wrong filter of the history search.  With `recentWrongCount = N`, every
result has as its `attempts` the number of records of its question in the history dataset
and as its `history` these records from last to first; when that number is at least one it
is at least `N` and the first `N` records, the most recent ones in a dataset sorted by
descending date, all have the correctness flag 0; the number lies between `attemptsMin` and
`attemptsMax`.  A question with no attempts is decided as it is without the filter, so it
is a result whenever the other filters keep it. -/
theorem filterQuestions_recent_wrong (percent : Nat → Nat → ℚ)
    (localeCompare : String → String → Int) (baseData : JsObj QuestionData)
    (historyData : HistoryJson) (baseFilters : BaseFilters) (historyFilters : HistoryFilters)
    (N : Int) (hN : historyFilters.recentWrongCount = some N) :
    (∀ r ∈ filterQuestions percent localeCompare baseData historyData baseFilters
        historyFilters,
      r.attempts = (attemptsOf historyData r.id).length ∧
      r.history = ((attemptsOf historyData r.id).map historyEntry).reverse ∧
      (1 ≤ r.attempts → N ≤ r.attempts ∧
        ∀ a ∈ (attemptsOf historyData r.id).take N.toNat, a.falsehood = 0) ∧
      historyFilters.attemptsMin ≤ r.attempts ∧ (r.attempts : Int) ≤ historyFilters.attemptsMax) ∧
    (∀ e ∈ baseData, attemptsOf historyData e.1 = [] →
      filterQuestion percent historyData baseFilters historyFilters e
        = filterQuestion percent historyData baseFilters
            { historyFilters with recentWrongCount := none } e) ∧
    (∀ e ∈ baseData, attemptsOf historyData e.1 = [] → ∀ r,
      filterQuestion percent historyData baseFilters
        { historyFilters with recentWrongCount := none } e = some r →
      r ∈ filterQuestions percent localeCompare baseData historyData baseFilters
        historyFilters) := by
  refine ⟨fun r hr => ?_, fun e _ he => filterQuestion_without_recent _ _ _ _ e he,
    fun e hmem he r hr => ?_⟩
  · obtain ⟨e, -, he⟩ := (mem_filterQuestions _ _ _ _ _ _ r).1 hr
    obtain ⟨hid, hatt, hhist, hrecent, hmin, hmax⟩ := filterQuestion_spec _ _ _ _ e r he
    rw [hid, hatt]
    rw [hN] at hrecent
    refine ⟨rfl, hhist, fun hpos => ?_, hmin, hmax⟩
    have := recentWrongExcluded_spec N _ hrecent hpos
    exact ⟨by exact_mod_cast this.1, this.2⟩
  · refine (mem_filterQuestions _ _ _ _ _ _ r).2 ⟨e, hmem, ?_⟩
    rw [filterQuestion_without_recent _ _ _ _ e he]
    exact hr

theorem filterQuestions_recent_wrong_witness :
    lastTwoWrong.recentWrongCount = some 2 ∧
    filterQuestions exactPercent codePointCompare sampleBase sampleHistory noBaseFilters
        lastTwoWrong
      = [{ id := "ID116A001", year := 116, block := "A", number := 1, division := some "必修",
           subject := some "内科", attempts := 3, correctRate := toFixedOne (exactPercent 1 3),
           history := [⟨"2025-10-26T14:54:04", "A", true⟩, ⟨"2025-10-26T14:54:04", "B", false⟩,
             ⟨"2025-10-27T09:00:00", "C", false⟩] },
         { id := "ID116A003", year := 116, block := "A", number := 3, division := some "必修",
           subject := some "内科", attempts := 0, correctRate := "N/A", history := [] }] ∧
    toFixedOne (exactPercent 1 3) = "33.3" ∧
    ∀ r ∈ filterQuestions exactPercent codePointCompare sampleBase sampleHistory noBaseFilters
        lastTwoWrong,
      r.attempts = (attemptsOf sampleHistory r.id).length ∧
      r.history = ((attemptsOf sampleHistory r.id).map historyEntry).reverse ∧
      (1 ≤ r.attempts → (2 : Int) ≤ r.attempts ∧
        ∀ a ∈ (attemptsOf sampleHistory r.id).take (2 : Int).toNat, a.falsehood = 0) ∧
      lastTwoWrong.attemptsMin ≤ r.attempts ∧ (r.attempts : Int) ≤ lastTwoWrong.attemptsMax :=
  ⟨rfl, by rfl, by with_unfolding_all rfl,
    (filterQuestions_recent_wrong exactPercent codePointCompare sampleBase sampleHistory
      noBaseFilters lastTwoWrong 2 rfl).1⟩

/-! ## The order of the strings -/

section StringOrder

theorem compareChars_neg_iff (x y : List Char) : compareChars x y < 0 ↔ List.lt x y := by
  induction x generalizing y with
  | nil =>
    cases y with
    | nil =>
      simp only [compareChars]
      exact ⟨fun h => by omega, fun h => by cases h⟩
    | cons b bs =>
      simp only [compareChars]
      exact ⟨fun _ => List.lt.nil b bs, fun _ => by omega⟩
  | cons a as ih =>
    cases y with
    | nil =>
      simp only [compareChars]
      exact ⟨fun h => by omega, fun h => by cases h⟩
    | cons b bs =>
      simp only [compareChars]
      split_ifs with h1 h2
      · exact ⟨fun _ => List.lt.head as bs h1, fun _ => by omega⟩
      · constructor
        · intro h; omega
        · intro h
          cases h with
          | head _ _ hab => exact absurd (show a.toNat < b.toNat from hab) h1
          | tail _ hba _ => exact absurd (show b.toNat < a.toNat from h2) hba
      · rw [ih bs]
        constructor
        · intro h
          exact List.lt.tail (fun hab => h1 hab) (fun hba => h2 hba) h
        · intro h
          cases h with
          | head _ _ hab => exact absurd (show a.toNat < b.toNat from hab) h1
          | tail _ _ h => exact h

theorem codePointCompare_le_iff (x y : String) : codePointCompare x y ≤ 0 ↔ x ≤ y := by
  unfold codePointCompare
  rw [compareChars_antisymm]
  have h : y < x ↔ compareChars y.data x.data < 0 := by
    rw [String.lt_iff_toList_lt]
    exact (List.lt_iff_lex_lt y.data x.data).symm.trans (compareChars_neg_iff y.data x.data).symm
  rw [show x ≤ y ↔ ¬ y < x from not_lt.symm, h]
  omega

theorem agrees_codePointCompare (stamps : List String) :
    agreesWithStringOrder codePointCompare stamps :=
  fun x _ y _ => codePointCompare_le_iff x y

theorem sorted_by_string_order (localeCompare : String → String → Int) (transformed : History)
    (h : agreesWithStringOrder localeCompare (timestamps transformed)) :
    (transformed.insertionSort (keepsBeforeLocale localeCompare)).Pairwise
      fun a b => b.implementDateTime ≤ a.implementDateTime := by
  have hcongr : transformed.insertionSort (keepsBeforeLocale localeCompare)
      = transformed.insertionSort (fun a b => b.implementDateTime ≤ a.implementDateTime) := by
    apply insertionSort_congr
    intro a ha b hb
    exact h b.implementDateTime (List.mem_map_of_mem _ hb) a.implementDateTime
      (List.mem_map_of_mem _ ha)
  rw [hcongr]
  haveI : IsTotal Record (fun a b => b.implementDateTime ≤ a.implementDateTime) :=
    ⟨fun a b => le_total _ _⟩
  haveI : IsTrans Record (fun a b => b.implementDateTime ≤ a.implementDateTime) :=
    ⟨fun a b c hab hbc => le_trans hbc hab⟩
  exact List.sorted_insertionSort _ transformed

theorem mem_removeFirst (pattern : List Char) (s : List Char) (c : Char)
    (h : c ∈ removeFirst pattern s) : c ∈ s := by
  induction s with
  | nil => simp [removeFirst] at h
  | cons d ds ih =>
    unfold removeFirst at h
    split_ifs at h
    · exact List.mem_of_mem_drop h
    · rcases List.mem_cons.mp h with rfl | h'
      · exact List.mem_cons_self _ _
      · exact List.mem_cons_of_mem _ (ih h')

theorem ascii_of_isDigit {c : Char} (h : isDigit c = true) : c.toNat < 128 := by
  simp only [isDigit, decide_eq_true_eq] at h
  omega

theorem ascii_padDigits (w n : Nat) : ∀ c ∈ padDigits w n, c.toNat < 128 :=
  fun _ hc => ascii_of_isDigit (isDigit_of_mem_padDigits hc)

theorem ascii_toISOString (t : Int) : ∀ c ∈ toISOString t, c.toNat < 128 := by
  intro c hc
  simp only [toISOString, isoYear, List.mem_append, List.mem_cons, List.mem_singleton,
    List.not_mem_nil, or_false] at hc
  have hd := ascii_padDigits
  rcases hc with ((((((hc | hc) | hc) | hc) | hc) | hc) | hc) | hc
  · split_ifs at hc
    · exact hd _ _ c hc
    all_goals
      rcases List.mem_cons.mp hc with rfl | hc
      · decide
      · exact hd _ _ c hc
  all_goals
    first
    | (rcases hc with rfl | hc
       · decide
       · exact hd _ _ c hc)
    | (subst hc; decide)

end StringOrder

theorem transformItem_timestamp (date : String → Option Int) {item : RawItem} {r : Record}
    (h : transformItem date item = some r) :
    implementDate date item = some r.implementDateTime := by
  unfold transformItem at h
  cases ht : implementDate date item with
  | none => rw [ht] at h; simp at h
  | some t =>
    rw [ht] at h
    simp only [Option.some.injEq] at h
    subst h
    rfl

theorem ascii_implementDate (date : String → Option Int) {item : RawItem} {t : String}
    (h : implementDate date item = some t) : ∀ c ∈ t.data, c.toNat < 128 := by
  unfold implementDate at h
  cases hd : item.implement_date with
  | none => rw [hd] at h; simp at h
  | some d =>
    rw [hd] at h
    simp only at h
    cases hp : date (String.mk (d.data.map fun c => if c = '/' then '-' else c)) with
    | none => rw [hp] at h; simp at h
    | some ms =>
      rw [hp] at h
      simp only [Option.some.injEq] at h
      subst h
      intro c hc
      exact ascii_toISOString ms c (mem_removeFirst _ _ c (mem_removeFirst _ _ c hc))

/-- C18. Transformer output ordering.  For a response with a non-empty `items` list the
list `transformHistoryData` returns is in descending order of `implementDateTime` in the
order of the strings: each record's timestamp string is greater than or equal to that of
every record after it, in particular of the next one.  The sort compares the timestamps
with `localeCompare`; the order of the strings follows for a collation that orders the
timestamps of the list as the strings are ordered, which collations do for timestamps of
one shape, digits between the same separators.  Every character of a timestamp is ASCII,
so code units and code points order these strings alike.  The call does return a list when
every item has a date that is valid, and for a consistent collation the list is in
descending order of the collation as well. -/
theorem transformHistoryData_sorted (date : String → Option Int)
    (localeCompare : String → String → Int) (items : List RawItem) (hne : items ≠ []) :
    (∀ l, transformHistoryData date localeCompare (some ⟨some items⟩) = some l →
      agreesWithStringOrder localeCompare (timestamps l) →
      (l.Pairwise fun a b => b.implementDateTime ≤ a.implementDateTime) ∧
      (l.Chain' fun a b => b.implementDateTime ≤ a.implementDateTime)) ∧
    (∀ l, transformHistoryData date localeCompare (some ⟨some items⟩) = some l →
      ∀ r ∈ l, ∀ c ∈ r.implementDateTime.data, c.toNat < 128) ∧
    ((∀ item ∈ items, (implementDate date item).isSome = true) →
      ∃ l, transformHistoryData date localeCompare (some ⟨some items⟩) = some l) ∧
    (consistentCollation localeCompare →
      ∀ l, transformHistoryData date localeCompare (some ⟨some items⟩) = some l →
        l.Pairwise fun a b => 0 ≤ localeCompare a.implementDateTime b.implementDateTime) := by
  have hshape : ∀ l, transformHistoryData date localeCompare (some ⟨some items⟩) = some l →
      ∃ transformed, mapItems date items = some transformed ∧
        l = transformed.insertionSort (keepsBeforeLocale localeCompare) := by
    intro l hl
    rw [transformHistoryData_of_items date localeCompare hne] at hl
    cases hm : mapItems date items with
    | none => rw [hm] at hl; simp at hl
    | some transformed =>
      rw [hm] at hl
      simp only [Option.map_some', Option.some.injEq] at hl
      exact ⟨transformed, rfl, hl.symm⟩
  refine ⟨?_, ?_, ?_, ?_⟩
  · intro l hl hagree
    obtain ⟨transformed, -, rfl⟩ := hshape l hl
    have hagree' : agreesWithStringOrder localeCompare (timestamps transformed) := by
      intro x hx y hy
      have hmem : ∀ z, z ∈ timestamps transformed →
          z ∈ timestamps (transformed.insertionSort (keepsBeforeLocale localeCompare)) := by
        intro z hz
        obtain ⟨r, hr, rfl⟩ := List.mem_map.mp hz
        exact List.mem_map_of_mem _ ((List.perm_insertionSort _ _).mem_iff.mpr hr)
      exact hagree x (hmem x hx) y (hmem y hy)
    have hs := sorted_by_string_order localeCompare transformed hagree'
    exact ⟨hs, hs.chain'⟩
  · intro l hl r hr
    obtain ⟨transformed, hm, rfl⟩ := hshape l hl
    have hr' : r ∈ transformed := (List.perm_insertionSort _ _).mem_iff.mp hr
    obtain ⟨item, -, ht⟩ := forall₂_exists_left (mapItems_eq_some date hm) r hr'
    exact ascii_implementDate date (transformItem_timestamp date ht)
  · intro hvalid
    obtain ⟨transformed, hm⟩ := mapItems_of_valid date hvalid
    exact ⟨_, by rw [transformHistoryData_of_items date localeCompare hne, hm]; rfl⟩
  · intro hlc l hl
    obtain ⟨transformed, -, rfl⟩ := hshape l hl
    exact sorted_by_collation localeCompare hlc transformed

/-- Instance of C18: two items, the earlier one first, come out latest first; the
collation of the instance orders all strings as they are ordered. -/
theorem transformHistoryData_sorted_witness :
    [itemEarly, itemLate] ≠ [] ∧
    transformHistoryData isoDate codePointCompare (some ⟨some [itemEarly, itemLate]⟩)
      = some [⟨"2025-10-27T09:00:00", 0, 16, "", 1, -20⟩,
          ⟨"2025-10-26T14:54:04", 1, 0, "A", 0, 30⟩] ∧
    agreesWithStringOrder codePointCompare
      (timestamps [⟨"2025-10-27T09:00:00", 0, 16, "", 1, -20⟩,
          ⟨"2025-10-26T14:54:04", 1, 0, "A", 0, 30⟩]) ∧
    (([⟨"2025-10-27T09:00:00", 0, 16, "", 1, -20⟩,
          ⟨"2025-10-26T14:54:04", 1, 0, "A", 0, 30⟩] : History).Pairwise
        fun a b => b.implementDateTime ≤ a.implementDateTime) ∧
    (([⟨"2025-10-27T09:00:00", 0, 16, "", 1, -20⟩,
          ⟨"2025-10-26T14:54:04", 1, 0, "A", 0, 30⟩] : History).Chain'
        fun a b => b.implementDateTime ≤ a.implementDateTime) :=
  ⟨by decide, by decide, agrees_codePointCompare _,
    (transformHistoryData_sorted isoDate codePointCompare [itemEarly, itemLate]
      (by decide)).1 _ (by decide) (agrees_codePointCompare _)⟩

/-! ## The integer fields -/

section IntegerFields

theorem roundShift_of_lt (fuel n : Nat) (h : n < 9007199254740992) : roundShift fuel n = 0 := by
  cases fuel with
  | zero => rfl
  | succ fuel => simp [roundShift, h]

theorem numberValue_of_lt (n : Nat) (h : n < 9007199254740992) : numberValue n = n := by
  simp [numberValue, roundShift_of_lt n n h]

theorem numberValue_of_le (n : Nat) (h : n ≤ 9007199254740992) : numberValue n = n := by
  rcases Nat.lt_or_ge n 9007199254740992 with hlt | hge
  · exact numberValue_of_lt n hlt
  · have : n = 9007199254740992 := Nat.le_antisymm h hge
    subst this
    decide

theorem numberOfInt_of_le (n : Int) (h : n.natAbs ≤ 9007199254740992) : numberOfInt n = n := by
  unfold numberOfInt
  rw [numberValue_of_le _ h]
  exact Int.sign_mul_natAbs n

theorem numberOfInt_neg (n : Nat) : numberOfInt (-(n : Int)) = -(numberValue n : Int) := by
  cases n with
  | zero => decide
  | succ k =>
    unfold numberOfInt
    rw [Int.natAbs_neg, Int.natAbs_ofNat, Int.sign_neg]
    have : Int.sign ((k + 1 : Nat) : Int) = 1 := Int.sign_of_add_one k
    rw [this]
    ring

theorem numberOfInt_ofNat (n : Nat) : numberOfInt (n : Int) = (numberValue n : Int) := by
  cases n with
  | zero => decide
  | succ k =>
    unfold numberOfInt
    rw [Int.natAbs_ofNat]
    have : Int.sign ((k + 1 : Nat) : Int) = 1 := Int.sign_of_add_one k
    rw [this]
    ring

theorem map_numberOfInt (o : Option Nat) (f g : Nat → Int)
    (h : ∀ n, numberOfInt (g n) = f n) : o.map f = (o.map g).map numberOfInt := by
  cases o <;> simp [h]

theorem parseInt_eq_integerParse (s : List Char) :
    parseInt s = (integerParse s).map numberOfInt := by
  unfold parseInt integerParse
  split
  · exact map_numberOfInt _ _ _ numberOfInt_neg
  · exact map_numberOfInt _ _ _ numberOfInt_ofNat
  · exact map_numberOfInt _ _ _ numberOfInt_ofNat

theorem intField_eq_integerParse (v : Option String) :
    intField v =
      match v with
      | none => 0
      | some s =>
        match integerParse s.data with
        | some n => numberOfInt n
        | none => 0 := by
  rw [intField_eq]
  cases v with
  | none => rfl
  | some s =>
    simp only [parseInt_eq_integerParse]
    cases integerParse s.data <;> rfl

end IntegerFields

/-- C20, refuted as stated.  The text `9007199254740993` parses to the integer
`2 ^ 53 + 1`, which no Number holds: `parseInt` gives `2 ^ 53`, and that is the
`learningSeconds` of the record. -/
theorem transformHistoryData_rounds :
    integerParse "9007199254740993".data = some 9007199254740993 ∧
    transformHistoryData isoDate codePointCompare (some ⟨some [itemLargeSeconds]⟩)
      = some [⟨"2025-10-26T14:54:04", 1, 0, "A", 1, 9007199254740992⟩] := by
  constructor <;> decide

/-- C20, amended.  Every record of the list `transformHistoryData` returns is the record
of one of the items, every item has its record in the list, and in that record
`learningClassification`, `certaintyFactor`, `falsehood` and `learningSeconds` are the
integers `parseInt(v || '0') || 0` of the source values: 0 when the source value is absent
or has no integer to parse, and otherwise the Number value of the integer parsed, which is
that integer when its magnitude is at most `2 ^ 53` and the nearest Number beyond.
`answer` is the source answer, or the empty string when absent. -/
theorem transformHistoryData_defaults (date : String → Option Int)
    (localeCompare : String → String → Int) (items : List RawItem) (l : History)
    (h : transformHistoryData date localeCompare (some ⟨some items⟩) = some l) :
    (∀ r ∈ l, ∃ item ∈ items, transformItem date item = some r ∧
      r.learningClassification = intField item.learning_classification ∧
      r.certaintyFactor = intField item.certainty_factor ∧
      r.falsehood = intField item.falsehood ∧
      r.learningSeconds = intField item.learning_sec ∧
      r.answer = match item.answer with
        | none => ""
        | some a => a) ∧
    (∀ item ∈ items, ∃ r ∈ l, transformItem date item = some r) ∧
    (∀ v : Option String, intField v =
      match v with
      | none => 0
      | some s =>
        match integerParse s.data with
        | some n => numberOfInt n
        | none => 0) ∧
    (∀ n : Int, n.natAbs ≤ 9007199254740992 → numberOfInt n = n) ∧
    (∀ (s : String) (n : Int), integerParse s.data = some n → n.natAbs ≤ 9007199254740992 →
      intField (some s) = n) := by
  have hf : ∃ records, List.Forall₂ (fun item r => transformItem date item = some r)
      items records ∧ l.Perm records := by
    cases items with
    | nil =>
      have : l = [] := by
        simpa [transformHistoryData] using h.symm
      exact ⟨[], List.Forall₂.nil, this ▸ List.Perm.refl _⟩
    | cons item rest =>
      rw [transformHistoryData_of_items date localeCompare (by simp)] at h
      cases hm : mapItems date (item :: rest) with
      | none => rw [hm] at h; simp at h
      | some records =>
        rw [hm] at h
        simp only [Option.map_some', Option.some.injEq] at h
        subst h
        exact ⟨records, mapItems_eq_some date hm, List.perm_insertionSort _ _⟩
  obtain ⟨records, hrel, hperm⟩ := hf
  refine ⟨?_, ?_, intField_eq_integerParse, numberOfInt_of_le, ?_⟩
  · intro r hr
    obtain ⟨item, hitem, ht⟩ := forall₂_exists_left hrel r (hperm.mem_iff.mp hr)
    obtain ⟨h1, h2, h3, h4, h5⟩ := transformItem_fields date ht
    exact ⟨item, hitem, ht, h1, h2, h3, h4, by rw [h5, orString_empty]⟩
  · intro item hitem
    obtain ⟨r, hr, ht⟩ := forall₂_exists_right hrel item hitem
    exact ⟨r, hperm.mem_iff.mpr hr, ht⟩
  · intro s n hs hn
    rw [intField_eq_integerParse]
    simp only [hs]
    exact numberOfInt_of_le n hn

/-- Instance of C20: an empty certainty, an unparseable correctness code, a missing
classification and a missing answer take their defaults; `0x10` parses to 16, ` 30 sec`
to 30 and `-20` to -20. -/
theorem transformHistoryData_defaults_witness :
    transformHistoryData isoDate codePointCompare (some ⟨some [itemEarly, itemLate]⟩)
      = some [⟨"2025-10-27T09:00:00", 0, 16, "", 1, -20⟩,
          ⟨"2025-10-26T14:54:04", 1, 0, "A", 0, 30⟩] ∧
    (∀ item ∈ [itemEarly, itemLate],
      ∃ r ∈ [(⟨"2025-10-27T09:00:00", 0, 16, "", 1, -20⟩ : Record),
          ⟨"2025-10-26T14:54:04", 1, 0, "A", 0, 30⟩],
        transformItem isoDate item = some r) ∧
    integerParse " 30 sec".data = some 30 ∧ intField (some " 30 sec") = 30 ∧
    integerParse "x".data = none ∧ intField (some "x") = 0 ∧ intField none = 0 :=
  ⟨by decide,
    (transformHistoryData_defaults isoDate codePointCompare [itemEarly, itemLate]
      [⟨"2025-10-27T09:00:00", 0, 16, "", 1, -20⟩, ⟨"2025-10-26T14:54:04", 1, 0, "A", 0, 30⟩]
      (by decide)).2.1, by decide, by decide, by decide, by decide, by decide⟩

/-! ## The columns and the timestamp of the temporary stores -/

/-- C22, refuted as stated.  The durable dataset has a `columns` field with one label;
the merged dataset has that one-label list for its columns, not a list of six. -/
theorem convertToHistoryJsonFormat_columns_copied :
    durableOneColumn.columns = some ["実施日時"] ∧
    (convertToHistoryJsonFormat isoDate sampleClock durableOneColumn
      [("ID116A001", [recT1B, recT2A])]).1.columns = some ["実施日時"] ∧
    (["実施日時"] : List String).length = 1 := by
  refine ⟨by decide, by decide, by decide⟩

/-- C22, amended.  For every durable dataset `D` and batch `B` the columns of the merged
dataset are the columns of `D` when `D` has them, whatever their number, and otherwise the
default list `[実施日時, 学習区分, 確信度, 解答, 正誤, 実施時間]`, of length 6.  Their length is 6
exactly when `D` has no columns or the columns of `D` are six. -/
theorem convertToHistoryJsonFormat_columns (date : String → Option Int) (now : Clock)
    (D : HistoryJson) (B : JsObj History) :
    (∀ cols, D.columns = some cols →
      (convertToHistoryJsonFormat date now D B).1.columns = some cols) ∧
    (D.columns = none →
      (convertToHistoryJsonFormat date now D B).1.columns = some defaultColumns) ∧
    defaultColumns = ["実施日時", "学習区分", "確信度", "解答", "正誤", "実施時間"] ∧
    defaultColumns.length = 6 ∧
    (∀ cols, (convertToHistoryJsonFormat date now D B).1.columns = some cols →
      (cols.length = 6 ↔ (D.columns = none ∨ ∃ c, D.columns = some c ∧ c.length = 6))) := by
  refine ⟨?_, ?_, rfl, rfl, ?_⟩
  · intro cols h
    simp [convertToHistoryJsonFormat, jsonClone, h]
  · intro h
    simp [convertToHistoryJsonFormat, jsonClone, h]
  · intro cols hcols
    cases h : D.columns with
    | none =>
      have : cols = defaultColumns := by
        simpa [convertToHistoryJsonFormat, jsonClone, h, eq_comm] using hcols
      subst this
      exact ⟨fun _ => Or.inl rfl, fun _ => rfl⟩
    | some c =>
      have : cols = c := by
        simpa [convertToHistoryJsonFormat, jsonClone, h, eq_comm] using hcols
      subst this
      constructor
      · intro hlen
        exact Or.inr ⟨cols, rfl, hlen⟩
      · rintro (hnone | ⟨c', hc', hlen⟩)
        · simp at hnone
        · have : cols = c' := by simpa using hc'
          rw [this]; exact hlen

/-- C26, refuted as stated.  The batch is written at one instant and again a minute
later, to the object store and to the extension storage: after the second write each store
holds a value that is not the value the first write left, for its timestamp is that of the
second write. -/
theorem tempStore_second_write_restamps :
    (saveTempHistoryData sampleClock true [] ascendingBatch).2
      = [{ id := "history_temp", timestamp := 1761458044000, content := ascendingBatch }] ∧
    (saveTempHistoryData laterClock true
        (saveTempHistoryData sampleClock true [] ascendingBatch).2 ascendingBatch).2
      = [{ id := "history_temp", timestamp := 1761458104000, content := ascendingBatch }] ∧
    (saveTempHistoryData laterClock true
        (saveTempHistoryData sampleClock true [] ascendingBatch).2 ascendingBatch).2
      ≠ (saveTempHistoryData sampleClock true [] ascendingBatch).2 ∧
    (saveTempHistoryFile laterClock true
        (saveTempHistoryFile sampleClock true [] ascendingBatch).2 ascendingBatch).2
      ≠ (saveTempHistoryFile sampleClock true [] ascendingBatch).2 := by
  refine ⟨by decide, by decide, by decide, by decide⟩

/-- C26, amended.  Writing the batch `b` twice in succession, with `saveTempHistoryData`
or with `saveTempHistoryFile`, leaves the store holding the same batch as writing `b`
once, under the timestamp of the last write: the stored value is `b` with the time of the
second write, where one write leaves `b` with the time of that write; the state is the one
that writing `b` once at the instant of the second write leaves; the batch read back is
`b` after one write and after two; and when the clock reads the same at both writes the
store is as the first write left it. -/
theorem tempStore_write_idempotent (first second : Clock) (b : JsObj History)
    (store : ObjectStore) (storage : JsObj TempFile) :
    (saveTempHistoryData second true (saveTempHistoryData first true store b).2 b).2
      = (saveTempHistoryData second true store b).2 ∧
    getTempHistoryData
        (saveTempHistoryData second true (saveTempHistoryData first true store b).2 b).2
      = getTempHistoryData (saveTempHistoryData first true store b).2 ∧
    getTempHistoryData (saveTempHistoryData first true store b).2 = some b ∧
    (saveTempHistoryFile second true (saveTempHistoryFile first true storage b).2 b).2
      = (saveTempHistoryFile second true storage b).2 ∧
    (getTempHistoryFile
        (saveTempHistoryFile second true (saveTempHistoryFile first true storage b).2 b).2).map
          (·.data)
      = (getTempHistoryFile (saveTempHistoryFile first true storage b).2).map (·.data) ∧
    (getTempHistoryFile (saveTempHistoryFile first true storage b).2).map (·.data) = some b ∧
    (first.ms = second.ms →
      (saveTempHistoryData second true (saveTempHistoryData first true store b).2 b).2
        = (saveTempHistoryData first true store b).2 ∧
      (saveTempHistoryFile second true (saveTempHistoryFile first true storage b).2 b).2
        = (saveTempHistoryFile first true storage b).2) ∧
    storeGet (saveTempHistoryData first true store b).2 "history_temp"
      = some { id := "history_temp", timestamp := first.ms, content := b } ∧
    storeGet (saveTempHistoryData second true (saveTempHistoryData first true store b).2 b).2
        "history_temp"
      = some { id := "history_temp", timestamp := second.ms, content := b } ∧
    getTempHistoryFile (saveTempHistoryFile first true storage b).2
      = some { timestamp := String.mk (toISOString first.ms), data := b } ∧
    getTempHistoryFile
        (saveTempHistoryFile second true (saveTempHistoryFile first true storage b).2 b).2
      = some { timestamp := String.mk (toISOString second.ms), data := b } := by
  have hrec : ∀ (c : Clock) (s : ObjectStore),
      storeGet (saveTempHistoryData c true s b).2 "history_temp"
        = some { id := "history_temp", timestamp := c.ms, content := b } := by
    intro c s
    simp only [saveTempHistoryData, if_true]
    exact storeGet_storePut s { id := "history_temp", timestamp := c.ms, content := b }
  have hget : ∀ (c : Clock) (s : ObjectStore),
      getTempHistoryData (saveTempHistoryData c true s b).2 = some b := by
    intro c s
    simp only [getTempHistoryData, hrec c s]
  have hfilerec : ∀ (c : Clock) (s : JsObj TempFile),
      getTempHistoryFile (saveTempHistoryFile c true s b).2
        = some { timestamp := String.mk (toISOString c.ms), data := b } := by
    intro c s
    simp [saveTempHistoryFile, getTempHistoryFile, objGet_objSet_self]
  have hfile : ∀ (c : Clock) (s : JsObj TempFile),
      (getTempHistoryFile (saveTempHistoryFile c true s b).2).map (·.data) = some b := by
    intro c s
    rw [hfilerec c s]
    rfl
  have h1 : (saveTempHistoryData second true (saveTempHistoryData first true store b).2 b).2
      = (saveTempHistoryData second true store b).2 := by
    simp only [saveTempHistoryData, if_true]
    exact storePut_storePut store _ _ rfl
  have h2 : (saveTempHistoryFile second true (saveTempHistoryFile first true storage b).2 b).2
      = (saveTempHistoryFile second true storage b).2 := by
    simp only [saveTempHistoryFile, if_true]
    exact objSet_objSet storage _ _ _
  refine ⟨h1, ?_, hget first store, h2, ?_, hfile first storage, ?_, hrec first store,
    hrec second _, hfilerec first storage, hfilerec second _⟩
  · rw [hget second, hget first]
  · rw [hfile second, hfile first]
  · intro heq
    constructor
    · rw [h1]
      simp only [saveTempHistoryData, heq]
    · rw [h2]
      simp only [saveTempHistoryFile, heq]

/-! ## Exam numbers of fewer than three digits -/

section ShortExamNumber

variable (upper : Char → List Char)

theorem cleaned_hyphenated {E S : List Char} {L : Char}
    (hE1 : 1 ≤ E.length) (hE : ∀ d ∈ E, isDigit d = true)
    (hL : isUpperAZ L = true ∨ isLowerAZ L = true)
    (h1 : 1 ≤ S.length) (hS : ∀ d ∈ S, isDigit d = true) :
    toUpperCase upper (trim (String.mk (E ++ L :: '-' :: S)).data)
      = E ++ asciiUpper L :: '-' :: S := by
  obtain ⟨a, E', rfl⟩ : ∃ a E', E = a :: E' := by
    cases E with
    | nil => simp at hE1
    | cons a E' => exact ⟨a, E', rfl⟩
  have ha : isDigit a = true := hE a (List.mem_cons_self _ _)
  have hna : isWhiteSpace a = false := (isDigit_facts ha).2.2.2.1
  obtain ⟨z, hz, hzw⟩ := getLast?_of_digits h1 hS (a :: E' ++ [L, '-'])
  have hcore : a :: E' ++ L :: '-' :: S = (a :: E' ++ [L, '-']) ++ S := by simp
  have htrim : trim (String.mk (a :: E' ++ L :: '-' :: S)).data = a :: E' ++ L :: '-' :: S := by
    have := trim_surrounded [] [] ((a :: E' ++ [L, '-']) ++ S) a z (by simp) (by simp) rfl hz
      hna hzw
    simpa [hcore] using this
  rw [htrim]
  have happ : ∀ (X Y : List Char), toUpperCase upper (X ++ Y)
      = toUpperCase upper X ++ toUpperCase upper Y := by
    intro X Y
    simp [toUpperCase]
  rw [happ, toUpperCase_digits upper hE, toUpperCase_cons, upperChar_letter upper hL,
    toUpperCase_cons, upperChar_hyphen, toUpperCase_digits upper hS]
  rfl

theorem short_exam_no_match {E S : List Char} {U : Char}
    (hE1 : 1 ≤ E.length) (hE2 : E.length < 3) (hE : ∀ d ∈ E, isDigit d = true)
    (hU : isUpperAZ U = true) (h3 : S.length ≤ 3) :
    isCanonicalId (E ++ U :: '-' :: S) = false ∧
    patterns.findSome? (fun pattern => pattern (E ++ U :: '-' :: S)) = none := by
  have hUd : isDigit U = false := (isUpperAZ_facts hU).2.2.1
  have hhy : isDigit '-' = false := by decide
  have hnotI : ∀ d, isDigit d = true → d ≠ 'I' := fun d hd => (isDigit_facts hd).2.2.2.2.2
  match E, hE1, hE2, hE with
  | [a], _, _, hE =>
    have ha : isDigit a = true := hE a (by simp)
    constructor
    · match S, h3 with
      | [], _ => rfl
      | [_], _ => rfl
      | [_, _], _ => rfl
      | [_, _, _], _ => rfl
      | _ :: _ :: _ :: _ :: _, h => simp at h
    · rw [patterns_findSome_eq_none]
      constructor
      · match S, h3 with
        | [], _ => rfl
        | [_], _ => rfl
        | _ :: _ :: _, _ => simp [matchHyphenated, hUd]
      · match S with
        | [] => rfl
        | _ :: _ => simp [matchUnhyphenated, hUd]
  | [a, b], _, _, hE =>
    have ha : isDigit a = true := hE a (by simp)
    have hb : isDigit b = true := hE b (by simp)
    constructor
    · match S, h3 with
      | [], _ => rfl
      | [_], _ => rfl
      | [_, _], _ => rfl
      | [_, _, _], _ => rfl
      | _ :: _ :: _ :: _ :: _, h => simp at h
    · rw [patterns_findSome_eq_none]
      constructor
      · match S with
        | [] => rfl
        | _ :: _ => simp [matchHyphenated, hUd]
      · simp [matchUnhyphenated, hUd]

end ShortExamNumber

/-- C13, amended.  For an exam number `E` of one to three digits, a letter `L` in either
case and a sub-number `S` of one to three digits, `normalizeQuestionId` applied to the
hyphenated shape `E L - S` returns `ID`, the exam number, the capital of `L` and `S` padded
with zeros to three digits when `E` has exactly three digits, and `null` when `E` has one
or two digits: the exam number is never padded. -/
theorem normalizeQuestionId_exam_number (upper : Char → List Char) (E S : List Char)
    (L : Char) (hE1 : 1 ≤ E.length) (hE3 : E.length ≤ 3) (hE : ∀ d ∈ E, isDigit d = true)
    (hL : isUpperAZ L = true ∨ isLowerAZ L = true)
    (h1 : 1 ≤ S.length) (h3 : S.length ≤ 3) (hS : ∀ d ∈ S, isDigit d = true) :
    (E.length = 3 →
      normalizeQuestionId upper (String.mk (E ++ L :: '-' :: S))
        = some (String.mk ('I' :: 'D' :: (E ++ asciiUpper L :: padStart 3 '0' S)))) ∧
    (E.length < 3 →
      normalizeQuestionId upper (String.mk (E ++ L :: '-' :: S)) = none) := by
  have hclean := cleaned_hyphenated upper hE1 hE hL h1 hS
  have hU := isUpperAZ_asciiUpper hL
  constructor
  · intro hlen
    match E, hlen, hE, hclean with
    | [a, b, c], _, hE, hclean =>
      have ha : isDigit a = true := hE a (by simp)
      have hb : isDigit b = true := hE b (by simp)
      have hc : isDigit c = true := hE c (by simp)
      obtain ⟨hcan, hpat⟩ := normalize_hyphenated_cleaned ha hb hc hU h1 h3 hS
      have hclean' : toUpperCase upper (trim (String.mk ([a, b, c] ++ L :: '-' :: S)).data)
          = [a, b, c, asciiUpper L, '-'] ++ S := hclean
      rw [normalizeQuestionId_of_cleaned upper hclean', hcan, hpat]
      simp [padStart]
  · intro hlen
    obtain ⟨hcan, hpat⟩ := short_exam_no_match hE1 hlen hE hU h3
    rw [normalizeQuestionId_of_cleaned upper hclean, hcan, hpat]
    simp

/-- Instance of C13: `116A-1` gives `ID116A001`, and `9A-5` and `99a-5` give `null`. -/
theorem normalizeQuestionId_exam_number_witness :
    (normalizeQuestionId noCaseTable "116A-1" = some "ID116A001") ∧
    (normalizeQuestionId noCaseTable "9A-5" = none) ∧
    (normalizeQuestionId noCaseTable "99a-5" = none) :=
  ⟨(normalizeQuestionId_exam_number noCaseTable ['1', '1', '6'] ['1'] 'A' (by decide)
      (by decide) (by decide) (by decide) (by decide) (by decide) (by decide)).1 rfl,
    (normalizeQuestionId_exam_number noCaseTable ['9'] ['5'] 'A' (by decide)
      (by decide) (by decide) (by decide) (by decide) (by decide) (by decide)).2 (by decide),
    (normalizeQuestionId_exam_number noCaseTable ['9', '9'] ['5'] 'a' (by decide)
      (by decide) (by decide) (by decide) (by decide) (by decide) (by decide)).2 (by decide)⟩

end Synergy
